import Mathlib

/-!
Verification of the simpleiot `db` layer and NATS replication logic.

The development shallowly embeds the Go code of `src/db/db.go` and the
`SendNode` replication routine. The bolthold storage library is modelled by
its documented contract: an association-list store per collection, where
`Get`/`Update`/`Delete` fail with `NotFound` on an absent key, `Insert` fails
when the key exists, and `Upsert` always writes. A transaction whose body
errors rolls back: the wrapper returns the original store together with the
error, mirroring bolt's `Update` semantics.

The `data` package of the repository (Node/Point/ProcessPoint/SetState and
friends) is not part of the source slice; those pieces are modelled from the
specification and are marked as such in their doc comments.
-/

namespace SimpleIot

/-- Group/User/Rule identifiers. The Go code uses `uuid.UUID` (an opaque
128-bit value with an all-zero sentinel); we model identifiers as naturals
with `0` as the sentinel. -/
abbrev UUID := Nat

/-- The all-zero sentinel identifier (`var zero uuid.UUID` in db.go). -/
def zero : UUID := 0

/-- Modelled from the spec: a Point (§3) carries a `Type` category, an
optional `Key` disambiguator, a numeric value with optional min/max, a
timestamp, an optional duration and a text payload (used by the synthetic
replication points). Numeric fields never participate in arithmetic in the
verified code, so `float64` is abstracted to `Int`. -/
structure Point where
  type : String := ""
  key : String := ""
  text : String := ""
  value : Int := 0
  min : Int := 0
  max : Int := 0
  time : Nat := 0
  duration : Int := 0
  deriving DecidableEq, Repr

/-- Modelled from the spec: a Node (§3) has a string identifier, a `Type`
tag, a point set, group and rule identifier sets, and derived status fields
(online state, command-pending flag, software-update state). The two enum
status fields are abstracted to `Int`. -/
structure Node where
  ID : String := ""
  type : String := ""
  Points : List Point := []
  Groups : List UUID := []
  Rules : List UUID := []
  State : Int := 0
  CmdPending : Bool := false
  SwUpdateState : Int := 0
  deriving DecidableEq, Repr

/-- Modelled from the spec: a Command (§3) is keyed by the target node
identifier and carries a command string. -/
structure NodeCmd where
  ID : String := ""
  Cmd : String := ""
  deriving DecidableEq, Repr

/-- Modelled from the spec: a Rule's `Config` references exactly one target
Node by identifier (§3); the rest of the condition/action description is
opaque to the core and abstracted to a string. -/
structure RuleConfig where
  NodeID : String := ""
  Description : String := ""
  deriving DecidableEq, Repr

/-- Modelled from the spec: a Rule (§3) has an identifier, a config and an
opaque runtime state (abstracted to a string). -/
structure Rule where
  ID : UUID := 0
  Config : RuleConfig := {}
  State : String := ""
  deriving DecidableEq, Repr

/-- Modelled from the spec: a User (§3). -/
structure User where
  ID : UUID := 0
  FirstName : String := ""
  LastName : String := ""
  Email : String := ""
  Pass : String := ""
  deriving DecidableEq, Repr

/-- Modelled from the spec: a (UserID, Roles) membership entry of a Group. -/
structure UserRoles where
  UserID : UUID := 0
  Roles : List String := []
  deriving DecidableEq, Repr

/-- Modelled from the spec: a Group (§3). -/
structure Group where
  ID : UUID := 0
  Name : String := ""
  Parent : UUID := 0
  Users : List UserRoles := []
  deriving DecidableEq, Repr

/-- Modelled from the spec: the online system-state value that `applyPoint`
and friends set unconditionally (`data.SysStateOnline`). Its concrete value
is irrelevant to the verified properties. -/
def SysStateOnline : Int := 2

/-! ## Association-list store

Each bolthold collection is an association list in iteration order. The
operations below treat it as a finite map: `alPut` replaces every pair
holding the key in place (or appends a fresh pair at the end), `alDel`
removes every pair holding the key, `alGet` returns the first match. -/

/-- Look up a key in a collection (the first matching pair). Keys are either
node/command identifiers (strings) or UUIDs (naturals). -/
def alGet {κ ν : Type} [BEq κ] (k : κ) : List (κ × ν) → Option ν
  | [] => none
  | (k', v) :: rest => if k' == k then some v else alGet k rest

/-- Write a value under a key: replace the first occurrence in place and
drop any duplicates behind it, append when absent (bolthold upsert keeps the
key's position in iteration order). -/
def alPut {κ ν : Type} [BEq κ] (k : κ) (v : ν) : List (κ × ν) → List (κ × ν)
  | [] => [(k, v)]
  | (k', v') :: rest =>
    if k' == k then (k, v) :: rest.filter (fun p => ¬ p.1 == k)
    else (k', v') :: alPut k v rest

/-- Remove every pair holding the key. -/
def alDel {κ ν : Type} [BEq κ] (k : κ) (l : List (κ × ν)) :
    List (κ × ν) :=
  l.filter (fun p => ¬ p.1 == k)

theorem alGet_alDel_self {κ ν : Type} [BEq κ] [LawfulBEq κ] (k : κ)
    (l : List (κ × ν)) : alGet k (alDel k l) = none := by
  induction l with
  | nil => simp [alDel, alGet]
  | cons p rest ih =>
    by_cases hp : p.1 == k
    · simpa [alDel, hp] using ih
    · simpa [alDel, alGet, hp] using ih

theorem alGet_alDel_ne {κ ν : Type} [BEq κ] [LawfulBEq κ] {k k' : κ}
    (h : k' ≠ k)
    (l : List (κ × ν)) : alGet k' (alDel k l) = alGet k' l := by
  induction l with
  | nil => simp [alDel]
  | cons p rest ih =>
    by_cases hp : p.1 == k
    · have hpk : p.1 = k := by simpa using hp
      have hne : ¬ p.1 == k' := by simp [hpk]; exact fun e => h e.symm
      simp only [alDel, List.filter_cons, hp, Bool.not_true, alGet]
      simpa [alDel, alGet, hne] using ih
    · simp only [alDel, List.filter_cons, hp, Bool.not_false, alGet]
      by_cases hpk' : p.1 == k'
      · simp [alGet, hpk']
      · simpa [alDel, alGet, hpk'] using ih

theorem alGet_alPut_self {κ ν : Type} [BEq κ] [LawfulBEq κ] (k : κ) (v : ν)
    (l : List (κ × ν)) : alGet k (alPut k v l) = some v := by
  induction l with
  | nil => simp [alPut, alGet]
  | cons p rest ih =>
    by_cases hp : p.1 == k
    · simp [alPut, hp, alGet]
    · simp [alPut, hp, alGet, ih]

theorem alGet_alPut_ne {κ ν : Type} [BEq κ] [LawfulBEq κ] {k k' : κ}
    (h : k' ≠ k) (v : ν)
    (l : List (κ × ν)) : alGet k' (alPut k v l) = alGet k' l := by
  induction l with
  | nil => simp [alPut, alGet, Ne.symm h]
  | cons p rest ih =>
    by_cases hp : p.1 == k
    · have hpk : p.1 = k := by simpa using hp
      have hkk' : ¬ (k == k') = true := by simp; exact fun e => h e.symm
      have hne : ¬ (p.1 == k') = true := by simp [hpk]; exact fun e => h e.symm
      simp only [alPut, hp, if_pos, alGet, hkk', if_neg, hne]
      have := alGet_alDel_ne (ν := ν) h rest
      simpa [alDel, alGet, hne, hkk'] using this
    · by_cases hpk' : p.1 == k'
      · simp [alPut, hp, alGet, hpk']
      · simp [alPut, hp, alGet, hpk', ih]

/-! ## The store and its transactional operations

`Store` holds the five bolthold collections. Every Go repository method runs
inside one bolt transaction; an error inside the callback aborts the
transaction, so each embedded operation returns the original store alongside
the error. -/

/-- Errors of the modelled bolthold contract. -/
inductive DbErr
  | notFound
  | keyExists
  deriving DecidableEq, Repr

/-- The five record collections, each in iteration order. -/
structure Store where
  nodes : List (String × Node) := []
  cmds : List (String × NodeCmd) := []
  rules : List (UUID × Rule) := []
  users : List (UUID × User) := []
  groups : List (UUID × Group) := []
  deriving DecidableEq, Repr

/-- Bolthold `TxGet`: fails with NotFound when the key is absent. -/
def txGet {κ ν : Type} [BEq κ] (k : κ) (l : List (κ × ν)) : Except DbErr ν :=
  match alGet k l with
  | some v => .ok v
  | none => .error .notFound

/-- Bolthold `TxUpdate`: fails with NotFound when the key is absent. -/
def txUpdate {κ ν : Type} [BEq κ] (k : κ) (v : ν) (l : List (κ × ν)) :
    Except DbErr (List (κ × ν)) :=
  if (alGet k l).isSome then .ok (alPut k v l) else .error .notFound

/-- Bolthold `TxInsert`: fails with KeyExists when the key is present. -/
def txInsert {κ ν : Type} [BEq κ] (k : κ) (v : ν) (l : List (κ × ν)) :
    Except DbErr (List (κ × ν)) :=
  if (alGet k l).isSome then .error .keyExists else .ok (alPut k v l)

/-- Bolthold `TxDelete`: fails with NotFound when the key is absent. -/
def txDelete {κ ν : Type} [BEq κ] (k : κ) (l : List (κ × ν)) :
    Except DbErr (List (κ × ν)) :=
  if (alGet k l).isSome then .ok (alDel k l) else .error .notFound

/-- Modelled from the spec: `data.Node.SetCmdPending` (not under `src/`)
sets the command-pending derived status field. -/
def SetCmdPending (pending : Bool) (dev : Node) : Node :=
  { dev with CmdPending := pending }

/-- Modelled from the spec: `data.Node.SetState` (not under `src/`) sets the
online/offline state field. -/
def SetState (state : Int) (n : Node) : Node :=
  { n with State := state }

/-- Modelled from the spec: the Point Merge Engine merge rule of §3
(`data.Node.ProcessPoint` is not under `src/`). Point identity for merge
purposes is the pair (Type, Key); the incoming point replaces the point with
the same identity in place, and is appended when no stored point has that
identity. -/
def ProcessPoint (p : Point) (n : Node) : Node :=
  { n with Points :=
      if n.Points.any (fun q => q.type == p.type && q.key == p.key) then
        n.Points.map (fun q =>
          if q.type == p.type && q.key == p.key then p else q)
      else n.Points ++ [p] }

/-- Transaction body of `NodeSetCmd` (db.go 187-204): upsert the command
keyed by its target node identifier, then read the target node and set its
pending flag. A missing target node aborts the whole transaction. -/
def NodeSetCmdTx (cmd : NodeCmd) (s : Store) : Except DbErr Store := do
  let cmds := alPut cmd.ID cmd s.cmds
  let dev ← txGet cmd.ID s.nodes
  let nodes ← txUpdate cmd.ID (SetCmdPending true dev) s.nodes
  .ok { s with cmds := cmds, nodes := nodes }

/-- NodeSetCmd sets a cmd for a device and sets the CmdPending flag of the
device in the same transaction; on error the transaction rolls back. -/
def NodeSetCmd (cmd : NodeCmd) (s : Store) : Except DbErr Unit × Store :=
  match NodeSetCmdTx cmd s with
  | .ok s' => (.ok (), s')
  | .error e => (.error e, s)

/-- Transaction body of `NodeDeleteCmd` (db.go 208-230): delete the command
(NotFound when absent), then clear the device pending flag. -/
def NodeDeleteCmdTx (id : String) (s : Store) : Except DbErr Store := do
  let cmds ← txDelete id s.cmds
  let dev ← txGet id s.nodes
  let nodes ← txUpdate id (SetCmdPending false dev) s.nodes
  .ok { s with cmds := cmds, nodes := nodes }

/-- NodeDeleteCmd deletes a cmd for a device and clears the cmd pending
flag, transactionally. -/
def NodeDeleteCmd (id : String) (s : Store) : Except DbErr Unit × Store :=
  match NodeDeleteCmdTx id s with
  | .ok s' => (.ok (), s')
  | .error e => (.error e, s)

/-- Transaction body of `NodeGetCmd` (db.go 235-274): read the command,
treating NotFound as success with the zero command; when the command string
is non-empty, delete the command and clear the device pending flag. -/
def NodeGetCmdTx (id : String) (s : Store) : Except DbErr (NodeCmd × Store) := do
  let cmd := (alGet id s.cmds).getD {}
  if cmd.Cmd ≠ "" then
    let cmds ← txDelete id s.cmds
    let dev ← txGet id s.nodes
    let nodes ← txUpdate id (SetCmdPending false dev) s.nodes
    .ok (cmd, { s with cmds := cmds, nodes := nodes })
  else
    .ok (cmd, s)

/-- NodeGetCmd gets a cmd for a device; a non-empty command is consumed:
deleted and the pending flag cleared in the same transaction. -/
def NodeGetCmd (id : String) (s : Store) : Except DbErr NodeCmd × Store :=
  match NodeGetCmdTx id s with
  | .ok (c, s') => (.ok c, s')
  | .error e => (.error e, s)

/-- Transaction body of `NodePoint` (db.go 117-147): read the node,
swallowing NotFound by synthesizing a zero node carrying the identifier,
merge the point, set the state online, and upsert. The influx side effect
sits outside the transaction, never fails the call, and is not modelled. -/
def NodePointTx (id : String) (point : Point) (s : Store) :
    Except DbErr Store := do
  let dev := match alGet id s.nodes with
    | some d => d
    | none => { ({} : Node) with ID := id }
  let dev := ProcessPoint point dev
  let dev := SetState SysStateOnline dev
  .ok { s with nodes := alPut id dev s.nodes }

/-- NodePoint processes a Point for a particular device. -/
def NodePoint (id : String) (point : Point) (s : Store) :
    Except DbErr Unit × Store :=
  match NodePointTx id point s with
  | .ok s' => (.ok (), s')
  | .error e => (.error e, s)

/-- Transaction body of `NodeDelete` (db.go 81-98): read the device, delete
every rule referenced in its `Rules` set in order, then delete the device;
any failure aborts the whole transaction. -/
def NodeDeleteTx (id : String) (s : Store) : Except DbErr Store := do
  let device ← txGet id s.nodes
  let rules ← device.Rules.foldlM (fun rs r => txDelete r rs) s.rules
  let nodes ← txDelete id s.nodes
  .ok { s with rules := rules, nodes := nodes }

/-- NodeDelete deletes a device from the database, cascading to its rules. -/
def NodeDelete (id : String) (s : Store) : Except DbErr Unit × Store :=
  match NodeDeleteTx id s with
  | .ok s' => (.ok (), s')
  | .error e => (.error e, s)

/-- Transaction body of `RuleDelete` (db.go 651-666): read the rule, read
its owning device (the read is bookkeeping only — the device is never
written back), then delete the rule. -/
def RuleDeleteTx (id : UUID) (s : Store) : Except DbErr Store := do
  let rule ← txGet id s.rules
  let _device ← txGet rule.Config.NodeID s.nodes
  let rules ← txDelete id s.rules
  .ok { s with rules := rules }

/-- RuleDelete deletes a rule from the database. -/
def RuleDelete (id : UUID) (s : Store) : Except DbErr Unit × Store :=
  match RuleDeleteTx id s with
  | .ok s' => (.ok (), s')
  | .error e => (.error e, s)

/-- UserInsert (db.go 488-492) inserts a new user under a freshly generated
identifier and returns that identifier; the record itself — including its
`ID` field — is stored exactly as passed in. The call to `uuid.New()` is
modelled by the explicit `freshID` argument. -/
def UserInsert (freshID : UUID) (user : User) (s : Store) :
    Except DbErr UUID × Store :=
  match txInsert freshID user s.users with
  | .ok users => (.ok freshID, { s with users := users })
  | .error e => (.error e, s)

/-- GroupInsert (db.go 545-551) forces the group's `Parent` field to the
all-zero sentinel, then inserts the group under a freshly generated
identifier and returns that identifier. The call to `uuid.New()` is
modelled by the explicit `freshID` argument. -/
def GroupInsert (freshID : UUID) (group : Group) (s : Store) :
    Except DbErr UUID × Store :=
  let group := { group with Parent := zero }
  match txInsert freshID group s.groups with
  | .ok gs => (.ok freshID, { s with groups := gs })
  | .error e => (.error e, s)

/-- UserIsRoot (db.go 368-385): load the sentinel root group by a `FindOne`
field query on `ID`, propagating NotFound, then scan its membership list. -/
def UserIsRoot (id : UUID) (s : Store) : Except DbErr Bool :=
  match s.groups.find? (fun p => p.2.ID == zero) with
  | none => .error .notFound
  | some p => .ok (p.2.Users.any (fun ur => ur.UserID == id))

/-- NodesForUser (db.go 283-324): root users get the whole node collection;
for other users the code collects the identifiers of every group the user
belongs to and queries the devices whose `Groups` field contains any of
them. The underlying bolthold `TxFind` of that device query can fail for
storage-level reasons outside the pure model; `queryFault` injects such a
fault. The Go code binds that error and then executes `return nil`, so the
fault is swallowed and the devices slice carries no committed result
(modelled as the empty list). -/
def NodesForUser (userID : UUID) (queryFault : Option DbErr) (s : Store) :
    Except DbErr (List Node) :=
  match UserIsRoot userID s with
  | .error e => .error e
  | .ok true => .ok (s.nodes.map (·.2))
  | .ok false =>
    let allGroups := s.groups.map (·.2)
    let groupIDs := allGroups.foldl (fun acc o =>
      o.Users.foldl
        (fun acc ur => if ur.UserID == userID then acc ++ [o.ID] else acc)
        acc) []
    match queryFault with
    | some _ => .ok []
    | none =>
      .ok ((s.nodes.map (·.2)).filter
        (fun n => n.Groups.any (fun g => groupIDs.contains g)))

/-- Concrete store for the C6 witness: one node owning one rule. -/
def ruleDeleteWitnessStore : Store :=
  { nodes := [("n1", { ID := "n1", Rules := [4] })],
    rules := [(4, { ID := 4, Config := { NodeID := "n1" } })] }

/-! ## Claim C2 -/

/-- C2: `applyPoint` upsert-on-missing and same-(Type, Key) merge. On a
never-seen identifier the call creates exactly one Node carrying that
identifier whose point set is exactly the incoming point and whose state is
online, leaving every other node untouched. On an existing node, a point
whose (Type, Key) matches a stored point with an earlier timestamp replaces
that stored point, keeps the node identifier and every differently-keyed
point, and sets the state online. -/
theorem NodePoint_upsert_on_missing_and_merge (id : String) (p : Point)
    (s : Store) :
    (alGet id s.nodes = none →
      (NodePoint id p s).1 = .ok () ∧
      alGet id (NodePoint id p s).2.nodes =
        some { ID := id, Points := [p], State := SysStateOnline } ∧
      (∀ id', id' ≠ id →
        alGet id' (NodePoint id p s).2.nodes = alGet id' s.nodes)) ∧
    (∀ n q, alGet id s.nodes = some n → q ∈ n.Points →
      q.type = p.type → q.key = p.key → q.time < p.time →
      (NodePoint id p s).1 = .ok () ∧
      ∃ n', alGet id (NodePoint id p s).2.nodes = some n' ∧
        n'.ID = n.ID ∧ n'.State = SysStateOnline ∧
        p ∈ n'.Points ∧
        (∀ r ∈ n'.Points, r.type = p.type → r.key = p.key → r = p) ∧
        (∀ r ∈ n.Points, ¬(r.type = p.type ∧ r.key = p.key) → r ∈ n'.Points) ∧
        (∀ r ∈ n'.Points, r = p ∨ r ∈ n.Points) ∧
        (∀ id', id' ≠ id →
          alGet id' (NodePoint id p s).2.nodes = alGet id' s.nodes)) := by
  constructor
  · intro hnone
    unfold NodePoint NodePointTx
    rw [hnone]
    simp only [ProcessPoint, SetState, List.any_nil, List.nil_append]
    refine ⟨?_, ?_, ?_⟩
    · trivial
    · rw [alGet_alPut_self]
      simp
    · exact fun id' hne => alGet_alPut_ne hne _ _
  · intro n q hsome hq htype hkey _htime
    unfold NodePoint NodePointTx
    rw [hsome]
    have hmatch : (q.type == p.type && q.key == p.key) = true := by
      simp [htype, hkey]
    have hany : n.Points.any (fun r => r.type == p.type && r.key == p.key) = true :=
      List.any_eq_true.2 ⟨q, hq, hmatch⟩
    simp only [ProcessPoint, SetState, hany, if_pos]
    refine ⟨by trivial, ?_⟩
    refine ⟨_, alGet_alPut_self _ _ _, rfl, rfl, ?_, ?_, ?_, ?_,
      fun id' hne => alGet_alPut_ne hne _ _⟩
    · exact List.mem_map.2 ⟨q, hq, by rw [hmatch]; simp⟩
    · intro r hr hrt hrk
      rcases List.mem_map.1 hr with ⟨r₀, _, hmap⟩
      by_cases h0 : (r₀.type == p.type && r₀.key == p.key) = true
      · rw [h0] at hmap; simpa using hmap.symm
      · rw [if_neg (by simpa using h0)] at hmap
        exfalso
        exact h0 (by subst hmap; simp [hrt, hrk])
    · intro r hr hdiff
      refine List.mem_map.2 ⟨r, hr, ?_⟩
      rw [if_neg]
      intro hc
      simp only [Bool.and_eq_true, beq_iff_eq] at hc
      exact hdiff hc
    · intro r hr
      rcases List.mem_map.1 hr with ⟨r₀, hr₀, hmap⟩
      by_cases h0 : (r₀.type == p.type && r₀.key == p.key) = true
      · rw [h0] at hmap; left; simpa using hmap.symm
      · rw [if_neg (by simpa using h0)] at hmap
        right; rw [← hmap]; exact hr₀

/-- Concrete point and store for the C2 witness. -/
def c2Point : Point := { type := "temp", value := 3 }

/-- Second incoming point of the C2 witness: same (Type, Key), later time. -/
def c2Point2 : Point := { type := "temp", value := 4, time := 1 }

/-- Store of the C2 witness holding the node created from `c2Point`. -/
def c2Store : Store := { nodes := [("a", { ID := "a", Points := [c2Point] })] }

/-- Witness for C2: a fresh node is created from a point, and a second point
with the same (Type, Key) and a later timestamp replaces the first. -/
theorem NodePoint_upsert_on_missing_and_merge_witness :
    ((NodePoint "a" c2Point {}).1 = .ok () ∧
      alGet "a" (NodePoint "a" c2Point {}).2.nodes =
        some { ID := "a", Points := [c2Point], State := SysStateOnline }) ∧
    ((NodePoint "a" c2Point2 c2Store).1 = .ok () ∧
      ∃ n', alGet "a" (NodePoint "a" c2Point2 c2Store).2.nodes = some n' ∧
        n'.ID = "a" ∧ n'.State = SysStateOnline ∧ c2Point2 ∈ n'.Points) := by
  have h1 := (NodePoint_upsert_on_missing_and_merge "a" c2Point {}).1 rfl
  have h2 := (NodePoint_upsert_on_missing_and_merge "a" c2Point2 c2Store).2
    { ID := "a", Points := [c2Point] } c2Point rfl (by simp) rfl rfl
    (by decide)
  refine ⟨⟨h1.1, h1.2.1⟩, h2.1, ?_⟩
  rcases h2.2 with ⟨n', hget, hid, hstate, hmem, _⟩
  exact ⟨n', hget, hid, hstate, hmem⟩

/-! ## Claim C6 -/

/-- C6: `RuleDelete` on a stored rule whose owning node exists deletes the
rule record and leaves every Node record unchanged; in particular the owning
node's `Rules` set still contains the deleted rule's identifier after the
call. -/
theorem RuleDelete_leaves_owning_node_unchanged (rid : UUID) (rule : Rule)
    (dev : Node) (s : Store)
    (hr : alGet rid s.rules = some rule)
    (hn : alGet rule.Config.NodeID s.nodes = some dev)
    (hmem : rid ∈ dev.Rules) :
    (RuleDelete rid s).1 = .ok () ∧
    (RuleDelete rid s).2.nodes = s.nodes ∧
    alGet rid (RuleDelete rid s).2.rules = none ∧
    (∀ r, r ≠ rid → alGet r (RuleDelete rid s).2.rules = alGet r s.rules) ∧
    ∃ dev', alGet rule.Config.NodeID (RuleDelete rid s).2.nodes = some dev' ∧
      rid ∈ dev'.Rules := by
  unfold RuleDelete RuleDeleteTx txGet txDelete
  simp only [hr, bind, Except.bind, hn, Option.isSome_some, if_true]
  exact ⟨trivial, trivial, alGet_alDel_self _ _,
    fun r hne => alGet_alDel_ne hne _, dev, rfl, hmem⟩

/-- Witness for C6 at a concrete store holding one rule and its owning
node. -/
theorem RuleDelete_leaves_owning_node_unchanged_witness :
    (RuleDelete 4 ruleDeleteWitnessStore).1 = .ok () ∧
    (RuleDelete 4 ruleDeleteWitnessStore).2.nodes =
      ruleDeleteWitnessStore.nodes ∧
    alGet 4 (RuleDelete 4 ruleDeleteWitnessStore).2.rules = none ∧
    (∀ r, r ≠ 4 → alGet r (RuleDelete 4 ruleDeleteWitnessStore).2.rules =
      alGet r ruleDeleteWitnessStore.rules) ∧
    ∃ dev', alGet "n1"
        (RuleDelete 4 ruleDeleteWitnessStore).2.nodes = some dev' ∧
      4 ∈ dev'.Rules :=
  RuleDelete_leaves_owning_node_unchanged 4
    { ID := 4, Config := { NodeID := "n1" } }
    { ID := "n1", Rules := [4] } ruleDeleteWitnessStore rfl rfl (by decide)

/-! ## Claim C4 -/

/-- Deleting a duplicate-free list of present rules in order succeeds and
removes exactly those rules. -/
theorem foldlM_txDelete_ok {rs : List UUID} {l : List (UUID × Rule)}
    (hnodup : rs.Nodup) (hall : ∀ r ∈ rs, (alGet r l).isSome) :
    ∃ l', rs.foldlM (fun acc r => txDelete r acc) l = .ok l' ∧
      (∀ r ∈ rs, alGet r l' = none) ∧
      (∀ r, r ∉ rs → alGet r l' = alGet r l) := by
  induction rs generalizing l with
  | nil => exact ⟨l, rfl, by simp, fun r _ => rfl⟩
  | cons a tail ih =>
    have ha : (alGet a l).isSome := hall a (by simp)
    have step : txDelete a l = .ok (alDel a l) := by
      unfold txDelete; rw [if_pos ha]
    have hnd := List.nodup_cons.1 hnodup
    have hall' : ∀ r ∈ tail, (alGet r (alDel a l)).isSome := by
      intro r hr
      have hne : r ≠ a := fun e => hnd.1 (e ▸ hr)
      rw [alGet_alDel_ne hne]
      exact hall r (List.mem_cons_of_mem _ hr)
    obtain ⟨l', heq, hnone, hframe⟩ := ih hnd.2 hall'
    refine ⟨l', ?_, ?_, ?_⟩
    · simp only [List.foldlM, step, bind, Except.bind]
      exact heq
    · intro r hr
      rcases List.mem_cons.1 hr with rfl | hr'
      · rw [hframe r hnd.1]
        exact alGet_alDel_self _ _
      · exact hnone r hr'
    · intro r hr
      have hrt : r ∉ tail := fun h => hr (List.mem_cons_of_mem _ h)
      have hra : r ≠ a := fun e => hr (e ▸ List.mem_cons_self a tail)
      rw [hframe r hrt]
      exact alGet_alDel_ne hra _

/-- Deleting a list of rules of which some member is absent fails. -/
theorem foldlM_txDelete_err {rs : List UUID} {l : List (UUID × Rule)}
    (h : ∃ r ∈ rs, alGet r l = none) :
    ∃ e, rs.foldlM (fun acc r => txDelete r acc) l = .error e := by
  induction rs generalizing l with
  | nil => simp at h
  | cons a tail ih =>
    by_cases ha : (alGet a l).isSome
    · have step : txDelete a l = .ok (alDel a l) := by
        unfold txDelete; rw [if_pos ha]
      have h' : ∃ r ∈ tail, alGet r (alDel a l) = none := by
        rcases h with ⟨r, hr, hrnone⟩
        rcases List.mem_cons.1 hr with rfl | hr'
        · rw [hrnone] at ha; simp at ha
        · refine ⟨r, hr', ?_⟩
          by_cases hra : r = a
          · subst hra; exact alGet_alDel_self _ _
          · rw [alGet_alDel_ne hra]; exact hrnone
      obtain ⟨e, he⟩ := ih h'
      refine ⟨e, ?_⟩
      simp only [List.foldlM, step, bind, Except.bind]
      exact he
    · have step : txDelete a l = .error .notFound := by
        unfold txDelete; rw [if_neg ha]
      refine ⟨.notFound, ?_⟩
      simp only [List.foldlM, step, bind, Except.bind]

/-- C4: `deleteNode` reads the node, removes every referenced rule and then
the node itself; a missing node fails with NotFound and changes nothing; a
failing rule deletion aborts the whole transaction with no partial
deletion. -/
theorem NodeDelete_cascades_rules (id : String) (s : Store) :
    (∀ dev, alGet id s.nodes = some dev → dev.Rules.Nodup →
      (∀ r ∈ dev.Rules, (alGet r s.rules).isSome) →
      (NodeDelete id s).1 = .ok () ∧
      alGet id (NodeDelete id s).2.nodes = none ∧
      (∀ id', id' ≠ id →
        alGet id' (NodeDelete id s).2.nodes = alGet id' s.nodes) ∧
      (∀ r ∈ dev.Rules, alGet r (NodeDelete id s).2.rules = none) ∧
      (∀ r, r ∉ dev.Rules →
        alGet r (NodeDelete id s).2.rules = alGet r s.rules) ∧
      (NodeDelete id s).2.cmds = s.cmds ∧
      (NodeDelete id s).2.users = s.users ∧
      (NodeDelete id s).2.groups = s.groups) ∧
    (alGet id s.nodes = none → NodeDelete id s = (.error .notFound, s)) ∧
    (∀ dev, alGet id s.nodes = some dev →
      (∃ r ∈ dev.Rules, alGet r s.rules = none) →
      ∃ e, NodeDelete id s = (.error e, s)) := by
  refine ⟨?_, ?_, ?_⟩
  · intro dev hsome hnodup hall
    obtain ⟨l', heq, hnone, hframe⟩ := foldlM_txDelete_ok hnodup hall
    have hid : txDelete id s.nodes = Except.ok (alDel id s.nodes) := by
      unfold txDelete; rw [hsome]; rfl
    unfold NodeDelete NodeDeleteTx txGet
    simp only [hsome, bind, Except.bind, heq, hid]
    exact ⟨trivial, alGet_alDel_self _ _,
      fun id' hne => alGet_alDel_ne hne _,
      fun r hr => hnone r hr, fun r hr => hframe r hr,
      trivial, trivial, trivial⟩
  · intro hnone
    unfold NodeDelete NodeDeleteTx txGet
    rw [hnone]
    rfl
  · intro dev hsome habs
    obtain ⟨e, he⟩ := foldlM_txDelete_err habs
    refine ⟨e, ?_⟩
    unfold NodeDelete NodeDeleteTx txGet
    simp only [hsome, bind, Except.bind, he]

/-- Concrete store for the C4 witness: one node referencing two rules. -/
def c4Store : Store :=
  { nodes := [("n", { ID := "n", Rules := [1, 2] })],
    rules := [(1, { ID := 1, Config := { NodeID := "n" } }),
              (2, { ID := 2, Config := { NodeID := "n" } })] }

/-- Witness for C4: deleting the node removes both rules and the node. -/
theorem NodeDelete_cascades_rules_witness :
    (NodeDelete "n" c4Store).1 = .ok () ∧
    alGet "n" (NodeDelete "n" c4Store).2.nodes = none ∧
    (∀ r ∈ ({ ID := "n", Rules := [1, 2] } : Node).Rules,
      alGet r (NodeDelete "n" c4Store).2.rules = none) := by
  have h := (NodeDelete_cascades_rules "n" c4Store).1
    { ID := "n", Rules := [1, 2] } rfl (by decide) (by decide)
  exact ⟨h.1, h.2.1, h.2.2.2.1⟩

/-! ## Claim C5 -/

/-- C5: `takeCommand` semantics. With no stored command the call returns the
empty (zero) command with no error and changes nothing, and under the
command/pending invariant the pending flag stays false. A stored command
with non-empty payload is returned and, in the same transaction, deleted
while the node's pending flag is cleared. A stored command with empty
payload is returned without being deleted. -/
theorem NodeGetCmd_take_semantics (id : String) (s : Store) :
    (alGet id s.cmds = none →
      NodeGetCmd id s = (.ok {}, s) ∧
      ((∀ n, alGet id s.nodes = some n → n.CmdPending = false) →
        ∀ n, alGet id (NodeGetCmd id s).2.nodes = some n →
          n.CmdPending = false)) ∧
    (∀ cmd n, alGet id s.cmds = some cmd → cmd.Cmd ≠ "" →
      alGet id s.nodes = some n →
      (NodeGetCmd id s).1 = .ok cmd ∧
      alGet id (NodeGetCmd id s).2.cmds = none ∧
      alGet id (NodeGetCmd id s).2.nodes =
        some { n with CmdPending := false }) ∧
    (∀ cmd, alGet id s.cmds = some cmd → cmd.Cmd = "" →
      NodeGetCmd id s = (.ok cmd, s)) := by
  refine ⟨?_, ?_, ?_⟩
  · intro hnone
    have hstep : NodeGetCmd id s = (.ok {}, s) := by
      unfold NodeGetCmd NodeGetCmdTx
      rw [hnone]
      rfl
    exact ⟨hstep, fun hflag n hn => hflag n (by rwa [hstep] at hn)⟩
  · intro cmd n hsome hne hn
    have hdel : txDelete id s.cmds = Except.ok (alDel id s.cmds) := by
      unfold txDelete; rw [hsome]; rfl
    have hupd : txUpdate id (SetCmdPending false n) s.nodes =
        Except.ok (alPut id (SetCmdPending false n) s.nodes) := by
      unfold txUpdate; rw [hn]; rfl
    unfold NodeGetCmd NodeGetCmdTx txGet
    rw [hsome]
    simp only [Option.getD_some]
    rw [if_pos hne]
    simp only [bind, Except.bind, hdel, hn, hupd]
    exact ⟨trivial, alGet_alDel_self _ _, alGet_alPut_self _ _ _⟩
  · intro cmd hsome hempty
    unfold NodeGetCmd NodeGetCmdTx
    rw [hsome]
    simp only [Option.getD_some]
    rw [if_neg (by simp [hempty])]

/-- Store of the C5 witness: a node with a pending non-empty command. -/
def c5Store : Store :=
  { nodes := [("x", { ID := "x", CmdPending := true })],
    cmds := [("x", { ID := "x", Cmd := "reboot" })] }

/-- Witness for C5: taking from an empty store is a no-op returning the
empty command; taking a non-empty command consumes it and clears the
flag. -/
theorem NodeGetCmd_take_semantics_witness :
    NodeGetCmd "x" {} = (.ok {}, {}) ∧
    ((NodeGetCmd "x" c5Store).1 = .ok { ID := "x", Cmd := "reboot" } ∧
      alGet "x" (NodeGetCmd "x" c5Store).2.cmds = none ∧
      alGet "x" (NodeGetCmd "x" c5Store).2.nodes =
        some { ID := "x", CmdPending := false }) := by
  have h1 := ((NodeGetCmd_take_semantics "x" {}).1 rfl).1
  have h2 := (NodeGetCmd_take_semantics "x" c5Store).2.1
    { ID := "x", Cmd := "reboot" } { ID := "x", CmdPending := true }
    rfl (by decide) rfl
  exact ⟨h1, h2⟩

/-! ## Claim C1 -/

/-- The three command-lifecycle operations of the spec state machine:
`setCommand` (`NodeSetCmd`), `takeCommand` (`NodeGetCmd`) and `clearCommand`
(`NodeDeleteCmd`). -/
inductive CmdOp
  | set (cmd : NodeCmd)
  | take (id : String)
  | clear (id : String)

/-- Apply one command operation, keeping the possibly rolled-back store. -/
def applyCmdOp (s : Store) : CmdOp → Store
  | .set cmd => (NodeSetCmd cmd s).2
  | .take id => (NodeGetCmd id s).2
  | .clear id => (NodeDeleteCmd id s).2

/-- Apply a sequence of command operations in order. -/
def applyCmdOps (s : Store) (ops : List CmdOp) : Store :=
  ops.foldl applyCmdOp s

/-- The command/pending invariant at one identifier: a Command record exists
for a node iff that node exists with its pending flag set. -/
def cmdInv (s : Store) (id : String) : Prop :=
  (alGet id s.cmds).isSome ↔
    ∃ n, alGet id s.nodes = some n ∧ n.CmdPending = true

/-- Resulting store of `NodeSetCmd` in both cases: rollback when the target
node is absent, command upsert plus pending flag otherwise. -/
theorem NodeSetCmd_store_cases (cmd : NodeCmd) (s : Store) :
    (alGet cmd.ID s.nodes = none → (NodeSetCmd cmd s).2 = s) ∧
    (∀ dev, alGet cmd.ID s.nodes = some dev → (NodeSetCmd cmd s).2 =
      { s with cmds := alPut cmd.ID cmd s.cmds,
               nodes := alPut cmd.ID (SetCmdPending true dev) s.nodes }) := by
  constructor
  · intro hnone
    unfold NodeSetCmd NodeSetCmdTx txGet
    rw [hnone]
    rfl
  · intro dev hdev
    have hupd : txUpdate cmd.ID (SetCmdPending true dev) s.nodes =
        Except.ok (alPut cmd.ID (SetCmdPending true dev) s.nodes) := by
      unfold txUpdate; rw [hdev]; rfl
    unfold NodeSetCmd NodeSetCmdTx txGet
    simp only [hdev, bind, Except.bind, hupd]

/-- Resulting store of `NodeDeleteCmd`: rollback when the command or the
node is absent, command deletion plus cleared flag otherwise. -/
theorem NodeDeleteCmd_store_cases (id : String) (s : Store) :
    (alGet id s.cmds = none → (NodeDeleteCmd id s).2 = s) ∧
    (alGet id s.nodes = none → (NodeDeleteCmd id s).2 = s) ∧
    (∀ cmd dev, alGet id s.cmds = some cmd → alGet id s.nodes = some dev →
      (NodeDeleteCmd id s).2 =
        { s with cmds := alDel id s.cmds,
                 nodes := alPut id (SetCmdPending false dev) s.nodes }) := by
  refine ⟨?_, ?_, ?_⟩
  · intro hnone
    unfold NodeDeleteCmd NodeDeleteCmdTx txDelete
    rw [hnone]
    rfl
  · intro hnone
    unfold NodeDeleteCmd NodeDeleteCmdTx txDelete txGet
    rcases hc : alGet id s.cmds with _ | cmd
    · rfl
    · simp only [hc, Option.isSome_some, if_true, bind, Except.bind, hnone]
  · intro cmd dev hc hdev
    have hdel : txDelete id s.cmds = Except.ok (alDel id s.cmds) := by
      unfold txDelete; rw [hc]; rfl
    have hupd : txUpdate id (SetCmdPending false dev) s.nodes =
        Except.ok (alPut id (SetCmdPending false dev) s.nodes) := by
      unfold txUpdate; rw [hdev]; rfl
    unfold NodeDeleteCmd NodeDeleteCmdTx txGet
    simp only [hdel, bind, Except.bind, hdev, hupd]

/-- Resulting store of `NodeGetCmd`: unchanged when no command is stored,
when the stored command is empty, or when the node is absent (rollback);
command deletion plus cleared flag for a stored non-empty command. -/
theorem NodeGetCmd_store_cases (id : String) (s : Store) :
    (alGet id s.cmds = none → (NodeGetCmd id s).2 = s) ∧
    (∀ cmd, alGet id s.cmds = some cmd → cmd.Cmd = "" →
      (NodeGetCmd id s).2 = s) ∧
    (∀ cmd, alGet id s.cmds = some cmd → cmd.Cmd ≠ "" →
      alGet id s.nodes = none → (NodeGetCmd id s).2 = s) ∧
    (∀ cmd dev, alGet id s.cmds = some cmd → cmd.Cmd ≠ "" →
      alGet id s.nodes = some dev →
      (NodeGetCmd id s).2 =
        { s with cmds := alDel id s.cmds,
                 nodes := alPut id (SetCmdPending false dev) s.nodes }) := by
  refine ⟨?_, ?_, ?_, ?_⟩
  · intro hnone
    unfold NodeGetCmd NodeGetCmdTx
    rw [hnone]
    rfl
  · intro cmd hc hempty
    unfold NodeGetCmd NodeGetCmdTx
    rw [hc]
    simp only [Option.getD_some]
    rw [if_neg (by simp [hempty])]
  · intro cmd hc hne hnone
    have hdel : txDelete id s.cmds = Except.ok (alDel id s.cmds) := by
      unfold txDelete; rw [hc]; rfl
    unfold NodeGetCmd NodeGetCmdTx txGet
    rw [hc]
    simp only [Option.getD_some]
    rw [if_pos hne]
    simp only [bind, Except.bind, hdel, hnone]
  · intro cmd dev hc hne hdev
    have hdel : txDelete id s.cmds = Except.ok (alDel id s.cmds) := by
      unfold txDelete; rw [hc]; rfl
    have hupd : txUpdate id (SetCmdPending false dev) s.nodes =
        Except.ok (alPut id (SetCmdPending false dev) s.nodes) := by
      unfold txUpdate; rw [hdev]; rfl
    unfold NodeGetCmd NodeGetCmdTx txGet
    rw [hc]
    simp only [Option.getD_some]
    rw [if_pos hne]
    simp only [bind, Except.bind, hdel, hdev, hupd]

/-- One `setCommand` step preserves the invariant at every identifier. -/
theorem cmdInv_set (cmd : NodeCmd) (s : Store) (h : ∀ i, cmdInv s i) :
    ∀ i, cmdInv (NodeSetCmd cmd s).2 i := by
  intro i
  rcases hs : alGet cmd.ID s.nodes with _ | dev
  · rw [(NodeSetCmd_store_cases cmd s).1 hs]
    exact h i
  · rw [(NodeSetCmd_store_cases cmd s).2 dev hs]
    by_cases hi : i = cmd.ID
    · subst hi
      unfold cmdInv
      simp only [alGet_alPut_self]
      exact ⟨fun _ => ⟨SetCmdPending true dev, rfl, rfl⟩, fun _ => rfl⟩
    · unfold cmdInv
      rw [show ((alGet i (alPut cmd.ID cmd s.cmds)) = alGet i s.cmds) from
        alGet_alPut_ne hi cmd s.cmds]
      simp only [alGet_alPut_ne hi]
      exact h i

/-- One `clearCommand` step preserves the invariant at every identifier. -/
theorem cmdInv_clear (id : String) (s : Store) (h : ∀ i, cmdInv s i) :
    ∀ i, cmdInv (NodeDeleteCmd id s).2 i := by
  intro i
  rcases hc : alGet id s.cmds with _ | cmd
  · rw [(NodeDeleteCmd_store_cases id s).1 hc]
    exact h i
  · rcases hn : alGet id s.nodes with _ | dev
    · rw [(NodeDeleteCmd_store_cases id s).2.1 hn]
      exact h i
    · rw [(NodeDeleteCmd_store_cases id s).2.2 cmd dev hc hn]
      by_cases hi : i = id
      · subst hi
        unfold cmdInv
        simp only [alGet_alDel_self, alGet_alPut_self]
        constructor
        · intro hfalse
          simp at hfalse
        · rintro ⟨n, hn', hp⟩
          cases hn'
          simp [SetCmdPending] at hp
      · unfold cmdInv
        rw [alGet_alDel_ne hi, alGet_alPut_ne hi]
        exact h i

/-- One `takeCommand` step preserves the invariant at every identifier. -/
theorem cmdInv_take (id : String) (s : Store) (h : ∀ i, cmdInv s i) :
    ∀ i, cmdInv (NodeGetCmd id s).2 i := by
  intro i
  rcases hc : alGet id s.cmds with _ | cmd
  · rw [(NodeGetCmd_store_cases id s).1 hc]
    exact h i
  · by_cases hne : cmd.Cmd = ""
    · rw [(NodeGetCmd_store_cases id s).2.1 cmd hc hne]
      exact h i
    · rcases hn : alGet id s.nodes with _ | dev
      · rw [(NodeGetCmd_store_cases id s).2.2.1 cmd hc hne hn]
        exact h i
      · rw [(NodeGetCmd_store_cases id s).2.2.2 cmd dev hc hne hn]
        by_cases hi : i = id
        · subst hi
          unfold cmdInv
          simp only [alGet_alDel_self, alGet_alPut_self]
          constructor
          · intro hfalse
            simp at hfalse
          · rintro ⟨n, hn', hp⟩
            cases hn'
            simp [SetCmdPending] at hp
        · unfold cmdInv
          rw [alGet_alDel_ne hi, alGet_alPut_ne hi]
          exact h i

/-- C1: for every sequence of setCommand/takeCommand/clearCommand
operations, the command/pending invariant holds at every identifier after
every operation; and a setCommand whose target node does not exist aborts
the whole transaction, leaving the store — in particular the Command
collection — exactly as it was. -/
theorem cmd_pending_invariant_sequences (ops : List CmdOp) (s : Store)
    (hinv : ∀ i, cmdInv s i) :
    (∀ i, cmdInv (applyCmdOps s ops) i) ∧
    (∀ (cmd : NodeCmd) (t : Store), alGet cmd.ID t.nodes = none →
      NodeSetCmd cmd t = (.error .notFound, t)) := by
  constructor
  · induction ops generalizing s with
    | nil => exact hinv
    | cons op tail ih =>
      have hstep : ∀ i, cmdInv (applyCmdOp s op) i := by
        cases op with
        | set cmd => exact cmdInv_set cmd s hinv
        | take id => exact cmdInv_take id s hinv
        | clear id => exact cmdInv_clear id s hinv
      exact ih _ hstep
  · intro cmd t hnone
    unfold NodeSetCmd NodeSetCmdTx txGet
    rw [hnone]
    rfl

/-- Store of the C1 witness: one node with a clear pending flag and no
commands, trivially satisfying the invariant. -/
def c1Store : Store := { nodes := [("n", { ID := "n" })] }

/-- Witness for C1 on a concrete three-operation sequence, plus the abort of
a setCommand targeting a missing node. -/
theorem cmd_pending_invariant_sequences_witness :
    (∀ i, cmdInv (applyCmdOps c1Store
      [CmdOp.set { ID := "n", Cmd := "go" }, CmdOp.take "n",
        CmdOp.clear "n"]) i) ∧
    (∀ (cmd : NodeCmd) (t : Store), alGet cmd.ID t.nodes = none →
      NodeSetCmd cmd t = (.error .notFound, t)) := by
  refine cmd_pending_invariant_sequences _ c1Store ?_
  intro i
  unfold cmdInv c1Store
  constructor
  · intro hfalse
    simp [alGet] at hfalse
  · rintro ⟨n, hn, hp⟩
    by_cases hi : ("n" : String) == i
    · simp only [alGet, hi, if_pos] at hn
      cases hn
      simp at hp
    · simp only [alGet, hi, Bool.false_eq_true, if_neg, not_false_iff] at hn
      cases hn

/-! ## Go 1.20 sort.Sort embedding (for claim C7)

`Users` (db.go 341-347) sorts with `sort.Sort`, whose behavior is fixed by
the Go toolchain the repository pins (go-version 1.20.3 in
.github/workflows/go.yml): the pattern-defeating quicksort of
src/sort/zsortinterface.go, which is documented as not guaranteed stable.
The functions below transcribe that algorithm over a list with an explicit
index swap; every mutation is an `lswap`. Loops whose counters are not
structurally decreasing run on an explicit iteration budget that the
transcription supplies in excess of the loop's own exit bound, so the
budget is exhausted only after the Go loop would already have exited and
the semantics coincide on every input. Indices are naturals; Go's int
arithmetic on them never goes negative on the reachable paths
transcribed. -/

/-- Swap the elements at two positions (no-op when an index is out of
range, which does not occur on the transcribed paths). -/
def lswap {α : Type} (l : List α) (i j : Nat) : List α :=
  match l[i]?, l[j]? with
  | some a, some b => (l.set i b).set j a
  | _, _ => l

/-- The `data.Less(i, j)` call of sort.Interface: compare the elements at
two positions (false when out of range, which does not occur on the
transcribed paths). -/
def lless {α : Type} (lt : α → α → Bool) (l : List α) (i j : Nat) : Bool :=
  match l[i]?, l[j]? with
  | some x, some y => lt x y
  | _, _ => false

/-- Inner loop of `insertionSort`: move the element at `j` left past
strictly greater predecessors, stopping at `a`. -/
def insertionSortInner {α : Type} (lt : α → α → Bool) (a : Nat) :
    Nat → List α → List α
  | 0, l => l
  | j+1, l =>
    if a < j+1 ∧ lless lt l (j+1) j = true then
      insertionSortInner lt a j (lswap l (j+1) j)
    else l

/-- Outer loop of `insertionSort` over `i = a+1, ..., b-1`; the budget
`b - a - 1` counts exactly the loop entries. -/
def insertionSortOuter {α : Type} (lt : α → α → Bool) (a b : Nat) :
    Nat → Nat → List α → List α
  | 0, _, l => l
  | n+1, i, l =>
    if i < b then
      insertionSortOuter lt a b n (i+1) (insertionSortInner lt a i l)
    else l

/-- insertionSort of zsortinterface.go: sorts data[a:b]. -/
def insertionSort {α : Type} (lt : α → α → Bool) (l : List α)
    (a b : Nat) : List α :=
  insertionSortOuter lt a b (b - a - 1) (a+1) l

/-- siftDown loop of zsortinterface.go; the root at least doubles per
iteration, so the budget `hi - root` outlasts the loop. -/
def siftDownLoop {α : Type} (lt : α → α → Bool) (hi first : Nat) :
    Nat → Nat → List α → List α
  | 0, _, l => l
  | n+1, root, l =>
    let child := 2*root + 1
    if child < hi then
      let child2 :=
        if child+1 < hi ∧ lless lt l (first+child) (first+child+1) = true
        then child+1 else child
      if lless lt l (first+root) (first+child2) = true then
        siftDownLoop lt hi first n child2 (lswap l (first+root) (first+child2))
      else l
    else l

/-- siftDown of zsortinterface.go: restore the max-heap property rooted at
`root` (offsets relative to `first`, heap indices below `hi`). -/
def siftDownAux {α : Type} (lt : α → α → Bool) (l : List α)
    (hi first root : Nat) : List α :=
  siftDownLoop lt hi first (hi - root) root l

/-- Heap-construction loop of `heapSort`: `siftDown` for
`i = k-1, ..., 0`. -/
def heapifyLoop {α : Type} (lt : α → α → Bool) (hi first : Nat) :
    Nat → List α → List α
  | 0, l => l
  | k+1, l => heapifyLoop lt hi first k (siftDownAux lt l hi first k)

/-- Pop loop of `heapSort`: swap the maximum to the end and restore the
heap, for `i = k-1, ..., 0`. -/
def popLoop {α : Type} (lt : α → α → Bool) (first : Nat) :
    Nat → List α → List α
  | 0, l => l
  | i+1, l =>
    popLoop lt first i (siftDownAux lt (lswap l first (first + i)) i first 0)

/-- heapSort of zsortinterface.go. -/
def heapSort {α : Type} (lt : α → α → Bool) (l : List α)
    (a b : Nat) : List α :=
  popLoop lt a (b - a) (heapifyLoop lt (b - a) a (((b - a) - 1) / 2 + 1) l)

/-- Loop of reverseRange: swap `i` and `j` inward while `i < j`. -/
def reverseRangeLoop {α : Type} : Nat → List α → Nat → Nat → List α
  | 0, l, _, _ => l
  | n+1, l, i, j =>
    if i < j then reverseRangeLoop n (lswap l i j) (i+1) (j-1) else l

/-- reverseRange of zsortinterface.go: reverse data[a:b] (`i := a`,
`j := b-1`). -/
def reverseRange {α : Type} (l : List α) (a b : Nat) : List α :=
  reverseRangeLoop (b - a) l a (b - 1)

/-- Fueled bit length: `bitsLenAux fuel n` is the bit length of `n` once
`fuel ≥ n`, since `n/2 < n` for positive `n`. -/
def bitsLenAux : Nat → Nat → Nat
  | 0, _ => 0
  | fuel+1, n => if n = 0 then 0 else bitsLenAux fuel (n / 2) + 1

/-- bits.Len of math/bits: the number of bits of `n`. -/
def bitsLen (n : Nat) : Nat := bitsLenAux n n

/-- One step of the xorshift generator of sort.go, on 64-bit values. -/
def xorshiftNext (r : Nat) : Nat :=
  let r := (r ^^^ (r <<< 13)) % 2^64
  let r := r ^^^ (r >>> 7)
  (r ^^^ (r <<< 17)) % 2^64

/-- Loop of `breakPatterns`: three random swaps; the iteration index is
`3 - k`. -/
def breakPatternsLoop {α : Type} (a idx length modulus : Nat) (r : Nat) :
    Nat → List α → List α
  | 0, l => l
  | k+1, l =>
    let r' := xorshiftNext r
    let other := r' &&& (modulus - 1)
    let other := if other ≥ length then other - length else other
    breakPatternsLoop a idx length modulus r' k
      (lswap l (idx - 1 + (3 - (k+1))) (a + other))

/-- breakPatterns of zsortinterface.go: scatter three elements using a
xorshift generator seeded with the slice length (`nextPowerOfTwo(length)`
is `1 <<< bits.Len(length)`, i.e. `1 <<< bitsLen length`). -/
def breakPatterns {α : Type} (l : List α) (a b : Nat) : List α :=
  let length := b - a
  if length ≥ 8 then
    let modulus := 1 <<< (bitsLen length)
    let idx := a + (length/4)*2 - 1
    breakPatternsLoop a idx length modulus length 3 l
  else l

/-- Ascending scan of `partialInsertionSort`: advance `i` while the
adjacent pair at `i` is not descending; the budget `b - i` outlasts the
`i < b` exit bound. -/
def pisScan {α : Type} (lt : α → α → Bool) (l : List α) (b : Nat) :
    Nat → Nat → Nat
  | 0, i => i
  | n+1, i =>
    if i < b ∧ ¬ lless lt l i (i-1) = true then pisScan lt l b n (i+1)
    else i

/-- Left shift of `partialInsertionSort`: bubble the smaller element left
from `j` while it is strictly smaller than its predecessor, stopping at
index 1. -/
def pisShiftLeft {α : Type} (lt : α → α → Bool) : Nat → List α → List α
  | 0, l => l
  | j+1, l =>
    if lless lt l (j+1) j = true then pisShiftLeft lt j (lswap l (j+1) j)
    else l

/-- Right shift of `partialInsertionSort`: bubble the greater element
right from `j` while the pair at `j` is descending; the budget `b - j`
outlasts the `j < b` exit bound. -/
def pisShiftRight {α : Type} (lt : α → α → Bool) (b : Nat) :
    Nat → Nat → List α → List α
  | 0, _, l => l
  | n+1, j, l =>
    if j < b then
      if lless lt l j (j-1) = true then
        pisShiftRight lt b n (j+1) (lswap l j (j-1))
      else l
    else l

/-- Outer loop of `partialInsertionSort` (maxSteps = 5 attempts;
shortestShifting = 50). Returns whether the slice ended up sorted,
together with the mutated list. -/
def partialInsertionSortLoop {α : Type} (lt : α → α → Bool) (a b : Nat) :
    Nat → Nat → List α → Bool × List α
  | 0, _, l => (false, l)
  | steps+1, i, l =>
    let i := pisScan lt l b (b - i) i
    if i = b then (true, l)
    else if b - a < 50 then (false, l)
    else
      let l := lswap l i (i-1)
      let l := if i - a ≥ 2 then pisShiftLeft lt (i-1) l else l
      let l := if b - i ≥ 2 then pisShiftRight lt b (b - (i+1)) (i+1) l else l
      partialInsertionSortLoop lt a b steps i l

/-- partialInsertionSort of zsortinterface.go: partially sorts data[a:b],
returning true when it is sorted at the end. -/
def partialInsertionSort {α : Type} (lt : α → α → Bool) (l : List α)
    (a b : Nat) : Bool × List α :=
  partialInsertionSortLoop lt a b 5 (a+1) l

/-- First scan of the `partition` loop: advance `i` while the element is
less than the pivot value stored at `a`; the budget `j + 1 - i` outlasts
the `i ≤ j` exit bound. -/
def partitionScanI {α : Type} (lt : α → α → Bool) (l : List α) (a j : Nat) :
    Nat → Nat → Nat
  | 0, i => i
  | n+1, i =>
    if i ≤ j ∧ lless lt l i a = true then partitionScanI lt l a j n (i+1)
    else i

/-- Second scan of the `partition` loop: retreat `j` while the element is
not less than the pivot value stored at `a`; the budget outlasts the
`i ≤ j` exit bound. -/
def partitionScanJ {α : Type} (lt : α → α → Bool) (l : List α) (a i : Nat) :
    Nat → Nat → Nat
  | 0, j => j
  | n+1, j =>
    if i ≤ j ∧ ¬ lless lt l j a = true then partitionScanJ lt l a i n (j-1)
    else j

/-- Main loop of `partition`; each iteration moves `i` and `j` at least
one step towards each other, so the budget `b - a + 2` outlasts the loop.
Returns the final `j` and the mutated list. -/
def partitionLoop {α : Type} (lt : α → α → Bool) (a : Nat) :
    Nat → Nat → Nat → List α → Nat × List α
  | 0, _, j, l => (j, l)
  | fuel+1, i, j, l =>
    let i' := partitionScanI lt l a j (j + 1 - i) i
    let j' := partitionScanJ lt l a i' (j + 1) j
    if i' > j' then (j', l)
    else partitionLoop lt a fuel (i'+1) (j'-1) (lswap l i' j')

/-- partition of zsortinterface.go: one quicksort partition of data[a:b]
around the value at index `pivot`; returns the final pivot position,
whether the slice was already partitioned, and the mutated list. -/
def partition {α : Type} (lt : α → α → Bool) (l : List α)
    (a b pivot : Nat) : Nat × Bool × List α :=
  let l := lswap l a pivot
  let i := a + 1
  let j := b - 1
  let i' := partitionScanI lt l a j (j + 1 - i) i
  let j' := partitionScanJ lt l a i' (j + 1) j
  if i' > j' then (j', true, lswap l j' a)
  else
    let l := lswap l i' j'
    let p := partitionLoop lt a (b - a + 2) (i'+1) (j'-1) l
    (p.1, false, lswap p.2 p.1 a)

/-- First scan of `partitionEqual`: advance `i` while the pivot at `a` is
not less than the element. -/
def pequalScanI {α : Type} (lt : α → α → Bool) (l : List α) (a j : Nat) :
    Nat → Nat → Nat
  | 0, i => i
  | n+1, i =>
    if i ≤ j ∧ ¬ lless lt l a i = true then pequalScanI lt l a j n (i+1)
    else i

/-- Second scan of `partitionEqual`: retreat `j` while the pivot at `a` is
less than the element. -/
def pequalScanJ {α : Type} (lt : α → α → Bool) (l : List α) (a i : Nat) :
    Nat → Nat → Nat
  | 0, j => j
  | n+1, j =>
    if i ≤ j ∧ lless lt l a j = true then pequalScanJ lt l a i n (j-1)
    else j

/-- Main loop of `partitionEqual`, on the same iteration budget as the
`partition` loop. Returns the final `i` and the mutated list. -/
def partitionEqualLoop {α : Type} (lt : α → α → Bool) (a : Nat) :
    Nat → Nat → Nat → List α → Nat × List α
  | 0, i, _, l => (i, l)
  | fuel+1, i, j, l =>
    let i' := pequalScanI lt l a j (j + 1 - i) i
    let j' := pequalScanJ lt l a i' (j + 1) j
    if i' > j' then (i', l)
    else partitionEqualLoop lt a fuel (i'+1) (j'-1) (lswap l i' j')

/-- partitionEqual of zsortinterface.go: partition data[a:b] into elements
equal to the pivot value followed by elements greater than it; returns the
first index of the greater part and the mutated list. -/
def partitionEqual {α : Type} (lt : α → α → Bool) (l : List α)
    (a b pivot : Nat) : Nat × List α :=
  partitionEqualLoop lt a (b - a + 2) (a+1) (b-1) (lswap l a pivot)

/-- Sortedness hints of choosePivot. -/
inductive SortHint
  | increasing
  | decreasing
  | unknown
  deriving DecidableEq, Repr

/-- order2 of zsortinterface.go: order two indices by their elements,
counting a swap when they are exchanged. -/
def order2 {α : Type} (lt : α → α → Bool) (l : List α) (a b : Nat)
    (swaps : Nat) : Nat × Nat × Nat :=
  if lless lt l b a then (b, a, swaps + 1) else (a, b, swaps)

/-- median of zsortinterface.go: the index of the median of three
elements, threading the swap counter. -/
def median {α : Type} (lt : α → α → Bool) (l : List α) (a b c : Nat)
    (swaps : Nat) : Nat × Nat :=
  let (a, b, swaps) := order2 lt l a b swaps
  let (b, _c, swaps) := order2 lt l b c swaps
  let (_a, b, swaps) := order2 lt l a b swaps
  (b, swaps)

/-- medianAdjacent of zsortinterface.go: median of data[a-1 .. a+1]. -/
def medianAdjacent {α : Type} (lt : α → α → Bool) (l : List α) (a : Nat)
    (swaps : Nat) : Nat × Nat :=
  median lt l (a-1) a (a+1) swaps

/-- choosePivot of zsortinterface.go: static pivot below 8 elements,
median of three up to 49, Tukey ninther from 50; the swap counter turns
into the sortedness hint. -/
def choosePivot {α : Type} (lt : α → α → Bool) (l : List α) (a b : Nat) :
    Nat × SortHint :=
  let length := b - a
  let i := a + length/4*1
  let j := a + length/4*2
  let k := a + length/4*3
  if length ≥ 8 then
    if length ≥ 50 then
      let (i, s1) := medianAdjacent lt l i 0
      let (j, s2) := medianAdjacent lt l j s1
      let (k, s3) := medianAdjacent lt l k s2
      let (j, swaps) := median lt l i j k s3
      (j, if swaps = 0 then .increasing
          else if swaps = 12 then .decreasing else .unknown)
    else
      let (j, swaps) := median lt l i j k 0
      (j, if swaps = 0 then .increasing
          else if swaps = 12 then .decreasing else .unknown)
  else (j, .increasing)

/-- The `for` loop of pdqsort (zsortinterface.go), one iteration per unit
of the explicit budget; the recursive calls into the shorter side restart
the loop with both flags true, exactly as Go's recursive `pdqsort` call
does, and every iteration strictly shrinks the slice, so the budget of
`sortGo` outlasts the recursion on every input. -/
def pdqsortLoop {α : Type} (lt : α → α → Bool) :
    Nat → List α → Nat → Nat → Nat → Bool → Bool → List α
  | 0, l, _, _, _, _, _ => l
  | fuel+1, l, a, b, limit, wasBalanced, wasPartitioned =>
    let length := b - a
    if length ≤ 12 then insertionSort lt l a b
    else if limit = 0 then heapSort lt l a b
    else
      let l' := if ¬ wasBalanced then breakPatterns l a b else l
      let limit' := if ¬ wasBalanced then limit - 1 else limit
      let cp := choosePivot lt l' a b
      let l₂ := if cp.2 = .decreasing then reverseRange l' a b else l'
      let pivot := if cp.2 = .decreasing then (b - 1) - (cp.1 - a) else cp.1
      let hint : SortHint :=
        if cp.2 = .decreasing then .increasing else cp.2
      let pr := if wasBalanced ∧ wasPartitioned ∧ hint = .increasing then
        partialInsertionSort lt l₂ a b else (false, l₂)
      if pr.1 then pr.2
      else
        if a > 0 ∧ ¬ lless lt pr.2 (a-1) pivot = true then
          let pe := partitionEqual lt pr.2 a b pivot
          pdqsortLoop lt fuel pe.2 pe.1 b limit' wasBalanced wasPartitioned
        else
          let p := partition lt pr.2 a b pivot
          let wasPartitioned' := p.2.1
          let leftLen := p.1 - a
          let rightLen := b - p.1
          let balanceThreshold := length / 8
          let wasBalanced' :=
            decide (min leftLen rightLen ≥ balanceThreshold)
          if leftLen < rightLen then
            pdqsortLoop lt fuel
              (pdqsortLoop lt fuel p.2.2 a p.1 limit' true true)
              (p.1+1) b limit' wasBalanced' wasPartitioned'
          else
            pdqsortLoop lt fuel
              (pdqsortLoop lt fuel p.2.2 (p.1+1) b limit' true true)
              a p.1 limit' wasBalanced' wasPartitioned'

/-- Sort of sort.go (Go 1.20): nothing to do below two elements, else
pdqsort with `limit = bits.Len(n)`. -/
def sortGo {α : Type} (lt : α → α → Bool) (l : List α) : List α :=
  let n := l.length
  if n ≤ 1 then l
  else pdqsortLoop lt (n+1) l 0 n (bitsLen n) true true

/-! ## Permutation lemmas for the sort embedding -/

theorem swap_middle_perm {α : Type} (pre mid suf : List α) (a b : α) :
    List.Perm (pre ++ (b :: mid ++ a :: suf)) (pre ++ (a :: mid ++ b :: suf)) := by
  have s1 : List.Perm (b :: mid ++ a :: suf) (b :: a :: (mid ++ suf)) :=
    List.Perm.cons b List.perm_middle
  have s2 : List.Perm (b :: a :: (mid ++ suf)) (a :: b :: (mid ++ suf)) :=
    List.Perm.swap a b _
  have s3 : List.Perm (a :: b :: (mid ++ suf)) (a :: mid ++ b :: suf) :=
    List.Perm.cons a List.perm_middle.symm
  exact List.Perm.append_left pre ((s1.trans s2).trans s3)

theorem double_set_decomp {α : Type} (l : List α) (i j : Nat) (a b : α)
    (hij : i < j) (hj : j < l.length) :
    (l.set i b).set j a =
      l.take i ++ (b :: (l.take j).drop (i+1) ++ a :: l.drop (j+1)) := by
  have hi : i < (l.take j).length := by rw [List.length_take]; omega
  have h1 : (l.set i b).set j a = (l.take j).set i b ++ a :: l.drop (j+1) := by
    rw [List.set_eq_take_cons_drop a (by simp [hj] : j < (l.set i b).length)]
    rw [List.set_take, List.drop_set_of_lt _ _ (Nat.lt_succ_of_lt hij)]
  have h2 : (l.take j).set i b = l.take i ++ b :: (l.take j).drop (i+1) := by
    rw [List.set_eq_take_cons_drop b hi, List.take_take,
      (by omega : min i j = i)]
  rw [h1, h2, List.append_assoc, List.cons_append]

theorem take_decomp {α : Type} (l : List α) (i j : Nat)
    (hij : i < j) (hj : j < l.length) :
    l.take j = l.take i ++ l.get ⟨i, Nat.lt_trans hij hj⟩ ::
      (l.take j).drop (i+1) := by
  have hi : i < (l.take j).length := by rw [List.length_take]; omega
  simp only [List.get_eq_getElem]
  conv_lhs => rw [← List.take_append_drop i (l.take j)]
  rw [List.take_take, (by omega : min i j = i)]
  congr 1
  rw [List.drop_eq_getElem_cons hi]
  congr 1
  exact List.getElem_take _

theorem double_set_perm {α : Type} (l : List α) (i j : Nat)
    (hij : i < j) (hj : j < l.length) :
    List.Perm ((l.set i (l.get ⟨j, hj⟩)).set j
      (l.get ⟨i, Nat.lt_trans hij hj⟩)) l := by
  simp only [List.get_eq_getElem]
  rw [double_set_decomp l i j _ _ hij hj]
  conv_rhs => rw [← List.take_append_drop j l, take_decomp l i j hij hj,
    List.drop_eq_getElem_cons hj]
  rw [List.append_assoc, List.cons_append]
  exact swap_middle_perm _ _ _ _ _

theorem set_getElem_self {α : Type} (l : List α) (i : Nat)
    (h : i < l.length) : l.set i (l.get ⟨i, h⟩) = l := by
  simp only [List.get_eq_getElem]
  apply List.ext_getElem
  · simp
  · intro k hk1 hk2
    rw [List.getElem_set]
    split
    · subst ‹i = k›; rfl
    · rfl

theorem lswap_perm {α : Type} (l : List α) (i j : Nat) :
    List.Perm (lswap l i j) l := by
  rcases hi : l[i]? with _ | a
  · have e : lswap l i j = l := by unfold lswap; rw [hi]
    rw [e]
  · rcases hj : l[j]? with _ | b
    · have e : lswap l i j = l := by unfold lswap; rw [hi, hj]
      rw [e]
    · have e : lswap l i j = (l.set i b).set j a := by
        unfold lswap; rw [hi, hj]
      rw [e]
      rw [List.getElem?_eq_some] at hi hj
      rcases hi with ⟨hil, ha⟩
      rcases hj with ⟨hjl, hb⟩
      rcases Nat.lt_trichotomy i j with hlt | heq | hgt
      · subst ha; subst hb
        exact double_set_perm l i j hlt hjl
      · subst heq
        rw [List.set_set]
        subst ha
        show List.Perm (l.set i (l.get ⟨i, hil⟩)) l
        rw [set_getElem_self]
      · rw [List.set_comm _ _ _ (by omega : i ≠ j)]
        subst ha; subst hb
        exact double_set_perm l j i hgt hil

theorem perm_ite {α : Type} (c : Prop) [Decidable c] (x y l : List α)
    (hx : List.Perm x l) (hy : List.Perm y l) :
    List.Perm (if c then x else y) l := by
  split
  · exact hx
  · exact hy

theorem insertionSortInner_perm {α : Type} (lt : α → α → Bool) (a : Nat) :
    ∀ j l, List.Perm (insertionSortInner lt a j l) l := by
  intro j
  induction j with
  | zero => exact fun l => .refl l
  | succ j ih =>
    intro l
    rw [insertionSortInner]
    split
    · exact (ih _).trans (lswap_perm l (j+1) j)
    · exact .refl l

theorem insertionSortOuter_perm {α : Type} (lt : α → α → Bool) (a b : Nat) :
    ∀ n i l, List.Perm (insertionSortOuter lt a b n i l) l := by
  intro n
  induction n with
  | zero => exact fun i l => .refl l
  | succ n ih =>
    intro i l
    rw [insertionSortOuter]
    split
    · exact (ih _ _).trans (insertionSortInner_perm lt a i l)
    · exact .refl l

theorem insertionSort_perm {α : Type} (lt : α → α → Bool) (l : List α)
    (a b : Nat) : List.Perm (insertionSort lt l a b) l :=
  insertionSortOuter_perm lt a b (b - a - 1) (a+1) l

theorem siftDownLoop_perm {α : Type} (lt : α → α → Bool) (hi first : Nat) :
    ∀ n root l, List.Perm (siftDownLoop lt hi first n root l) l := by
  intro n
  induction n with
  | zero => exact fun root l => .refl l
  | succ n ih =>
    intro root l
    rw [siftDownLoop]
    simp only []
    repeat' split
    all_goals first
      | exact (ih _ _).trans (lswap_perm _ _ _)
      | exact .refl l

theorem siftDownAux_perm {α : Type} (lt : α → α → Bool) (l : List α)
    (hi first root : Nat) :
    List.Perm (siftDownAux lt l hi first root) l :=
  siftDownLoop_perm lt hi first (hi - root) root l

theorem heapifyLoop_perm {α : Type} (lt : α → α → Bool) (hi first : Nat) :
    ∀ k l, List.Perm (heapifyLoop lt hi first k l) l := by
  intro k
  induction k with
  | zero => exact fun l => .refl l
  | succ k ih =>
    intro l
    exact (ih _).trans (siftDownAux_perm lt l hi first k)

theorem popLoop_perm {α : Type} (lt : α → α → Bool) (first : Nat) :
    ∀ k l, List.Perm (popLoop lt first k l) l := by
  intro k
  induction k with
  | zero => exact fun l => .refl l
  | succ k ih =>
    intro l
    exact ((ih _).trans (siftDownAux_perm lt _ k first 0)).trans
      (lswap_perm _ _ _)

theorem heapSort_perm {α : Type} (lt : α → α → Bool) (l : List α)
    (a b : Nat) : List.Perm (heapSort lt l a b) l :=
  (popLoop_perm lt a (b-a) _).trans
    (heapifyLoop_perm lt (b-a) a (((b - a) - 1) / 2 + 1) l)

theorem reverseRangeLoop_perm {α : Type} :
    ∀ n (l : List α) i j, List.Perm (reverseRangeLoop n l i j) l := by
  intro n
  induction n with
  | zero => exact fun l i j => .refl l
  | succ n ih =>
    intro l i j
    rw [reverseRangeLoop]
    split
    · exact (ih _ _ _).trans (lswap_perm _ _ _)
    · exact .refl l

theorem reverseRange_perm {α : Type} (l : List α) (a b : Nat) :
    List.Perm (reverseRange l a b) l :=
  reverseRangeLoop_perm (b - a) l a (b - 1)

theorem breakPatternsLoop_perm {α : Type} (a idx length modulus : Nat) :
    ∀ k r (l : List α),
      List.Perm (breakPatternsLoop a idx length modulus r k l) l := by
  intro k
  induction k with
  | zero => exact fun r l => .refl l
  | succ k ih =>
    intro r l
    exact (ih _ _).trans (lswap_perm _ _ _)

theorem breakPatterns_perm {α : Type} (l : List α) (a b : Nat) :
    List.Perm (breakPatterns l a b) l := by
  unfold breakPatterns
  simp only []
  split
  · exact breakPatternsLoop_perm _ _ _ _ 3 _ l
  · exact .refl l

theorem pisShiftLeft_perm {α : Type} (lt : α → α → Bool) :
    ∀ j (l : List α), List.Perm (pisShiftLeft lt j l) l := by
  intro j
  induction j with
  | zero => exact fun l => .refl l
  | succ j ih =>
    intro l
    rw [pisShiftLeft]
    split
    · exact (ih _).trans (lswap_perm _ _ _)
    · exact .refl l

theorem pisShiftRight_perm {α : Type} (lt : α → α → Bool) (b : Nat) :
    ∀ n j (l : List α), List.Perm (pisShiftRight lt b n j l) l := by
  intro n
  induction n with
  | zero => exact fun j l => .refl l
  | succ n ih =>
    intro j l
    rw [pisShiftRight]
    split
    · split
      · exact (ih _ _).trans (lswap_perm _ _ _)
      · exact .refl l
    · exact .refl l

theorem partialInsertionSortLoop_perm {α : Type} (lt : α → α → Bool)
    (a b : Nat) : ∀ steps i (l : List α),
      List.Perm (partialInsertionSortLoop lt a b steps i l).2 l := by
  intro steps
  induction steps with
  | zero => exact fun i l => .refl l
  | succ steps ih =>
    intro i l
    rw [partialInsertionSortLoop]
    simp only []
    split
    · exact .refl l
    · split
      · exact .refl l
      · refine (ih _ _).trans ?_
        have h1 : List.Perm
            (lswap l (pisScan lt l b (b - i) i)
              (pisScan lt l b (b - i) i - 1)) l :=
          lswap_perm _ _ _
        split
        · split
          · exact (pisShiftRight_perm lt b _ _ _).trans
              ((pisShiftLeft_perm lt _ _).trans h1)
          · exact (pisShiftRight_perm lt b _ _ _).trans h1
        · split
          · exact (pisShiftLeft_perm lt _ _).trans h1
          · exact h1

theorem partialInsertionSort_perm {α : Type} (lt : α → α → Bool)
    (l : List α) (a b : Nat) :
    List.Perm (partialInsertionSort lt l a b).2 l :=
  partialInsertionSortLoop_perm lt a b 5 (a+1) l

theorem partitionLoop_perm {α : Type} (lt : α → α → Bool) (a : Nat) :
    ∀ fuel i j (l : List α),
      List.Perm (partitionLoop lt a fuel i j l).2 l := by
  intro fuel
  induction fuel with
  | zero => exact fun i j l => .refl l
  | succ fuel ih =>
    intro i j l
    rw [partitionLoop]
    split
    · exact .refl l
    · exact (ih _ _ _).trans (lswap_perm _ _ _)

theorem partition_perm {α : Type} (lt : α → α → Bool) (l : List α)
    (a b pivot : Nat) :
    List.Perm (partition lt l a b pivot).2.2 l := by
  unfold partition
  simp only []
  split
  · exact (lswap_perm _ _ _).trans (lswap_perm _ _ _)
  · exact ((lswap_perm _ _ _).trans
      ((partitionLoop_perm lt a _ _ _ _).trans
        ((lswap_perm _ _ _).trans (lswap_perm _ _ _))))

theorem partitionEqualLoop_perm {α : Type} (lt : α → α → Bool) (a : Nat) :
    ∀ fuel i j (l : List α),
      List.Perm (partitionEqualLoop lt a fuel i j l).2 l := by
  intro fuel
  induction fuel with
  | zero => exact fun i j l => .refl l
  | succ fuel ih =>
    intro i j l
    rw [partitionEqualLoop]
    split
    · exact .refl l
    · exact (ih _ _ _).trans (lswap_perm _ _ _)

theorem partitionEqual_perm {α : Type} (lt : α → α → Bool) (l : List α)
    (a b pivot : Nat) :
    List.Perm (partitionEqual lt l a b pivot).2 l :=
  (partitionEqualLoop_perm lt a _ _ _ _).trans (lswap_perm _ _ _)

set_option maxHeartbeats 1600000 in
theorem pdqsortLoop_perm {α : Type} (lt : α → α → Bool) :
    ∀ fuel (l : List α) a b limit wb wp,
      List.Perm (pdqsortLoop lt fuel l a b limit wb wp) l := by
  intro fuel
  induction fuel with
  | zero => exact fun l a b limit wb wp => .refl l
  | succ fuel ih =>
    intro l a b limit wb wp
    rw [pdqsortLoop]
    simp only []
    repeat' split
    all_goals
      repeat
        first
        | exact List.Perm.refl l
        | refine List.Perm.trans (ih _ _ _ _ _ _) ?_
        | refine List.Perm.trans (insertionSort_perm lt _ _ _) ?_
        | refine List.Perm.trans (heapSort_perm lt _ _ _) ?_
        | refine List.Perm.trans (partialInsertionSort_perm lt _ _ _) ?_
        | refine List.Perm.trans (partitionEqual_perm lt _ _ _ _) ?_
        | refine List.Perm.trans (partition_perm lt _ _ _ _) ?_
        | refine List.Perm.trans (reverseRange_perm _ _ _) ?_
        | refine List.Perm.trans (breakPatterns_perm _ _ _) ?_

theorem sortGo_perm {α : Type} (lt : α → α → Bool) (l : List α) :
    List.Perm (sortGo lt l) l := by
  unfold sortGo
  simp only []
  split
  · exact .refl l
  · exact pdqsortLoop_perm lt (l.length + 1) l 0 l.length (bitsLen l.length)
      true true

/-! ## Functional model of the insertion-sort path

For at most 12 elements `sort.Sort` immediately runs `insertionSort`, whose
swap loop moves each element left past strictly greater predecessors: the
classic stable insertion sort. The functional model below is proved equal
to the imperative embedding, and carries the sortedness and stability
facts. Comparisons are by a key into a linear order, matching the
case-insensitive first-name comparator of db.go. -/

/-- Strict comparison on keys: `Less` of the `users` sort.Interface. -/
def keyLess {α κ : Type} [LinearOrder κ] (key : α → κ) (x y : α) : Bool :=
  decide (key x < key y)

/-- Functional model of one pass of the `insertionSort` swap loop: place
`x` before the first strictly greater element of `l`. -/
def goInsert {α : Type} (lt : α → α → Bool) (x : α) : List α → List α
  | [] => [x]
  | y :: ys => if lt x y then x :: y :: ys else y :: goInsert lt x ys

/-- Functional model of `insertionSort` over a whole list. -/
def insertionSortL {α : Type} (lt : α → α → Bool) (l : List α) : List α :=
  l.foldl (fun acc x => goInsert lt x acc) []

/-- Sortedness under a strict comparator: no later element is strictly
smaller. -/
def SortedLt {α : Type} (lt : α → α → Bool) (l : List α) : Prop :=
  l.Pairwise (fun u v => ¬ lt v u = true)

theorem keyLess_asymm {α κ : Type} [LinearOrder κ] (key : α → κ)
    {x y : α} (h : keyLess key x y = true) : ¬ keyLess key y x = true := by
  simp only [keyLess, decide_eq_true_eq] at *
  exact lt_asymm h

theorem keyLess_cotrans {α κ : Type} [LinearOrder κ] (key : α → κ)
    {x z : α} (y : α) (h : keyLess key x z = true) :
    keyLess key x y = true ∨ keyLess key y z = true := by
  simp only [keyLess, decide_eq_true_eq] at *
  rcases lt_or_le (key x) (key y) with h1 | h1
  · exact Or.inl h1
  · exact Or.inr (lt_of_le_of_lt h1 h)

theorem goInsert_length {α : Type} (lt : α → α → Bool) (x : α) :
    ∀ l : List α, (goInsert lt x l).length = l.length + 1 := by
  intro l
  induction l with
  | nil => rfl
  | cons y ys ih =>
    unfold goInsert
    split
    · simp
    · simp [ih]

theorem goInsert_append_last {α : Type} (lt : α → α → Bool) (x y : α)
    (h : lt x y = true) :
    ∀ ps : List α, goInsert lt x (ps ++ [y]) = goInsert lt x ps ++ [y] := by
  intro ps
  induction ps with
  | nil => simp [goInsert, h]
  | cons c cs ih =>
    simp only [List.cons_append, goInsert]
    split
    · rfl
    · show c :: goInsert lt x (cs ++ [y]) = (c :: goInsert lt x cs) ++ [y]
      rw [ih, List.cons_append]

theorem goInsert_at_end {α : Type} (lt : α → α → Bool) (x : α) :
    ∀ l : List α, (∀ z ∈ l, ¬ lt x z = true) →
      goInsert lt x l = l ++ [x] := by
  intro l
  induction l with
  | nil => intro _; rfl
  | cons y ys ih =>
    intro h
    unfold goInsert
    rw [if_neg (h y (by simp))]
    rw [ih (fun z hz => h z (by simp [hz])), List.cons_append]

theorem goInsert_perm {α : Type} (lt : α → α → Bool) (x : α) :
    ∀ l : List α, List.Perm (goInsert lt x l) (x :: l) := by
  intro l
  induction l with
  | nil => exact .refl _
  | cons y ys ih =>
    unfold goInsert
    split
    · exact .refl _
    · exact (List.Perm.cons y ih).trans (List.Perm.swap x y ys)

theorem goInsert_pairwise {α κ : Type} [LinearOrder κ] (key : α → κ)
    (x : α) : ∀ l : List α, SortedLt (keyLess key) l →
      SortedLt (keyLess key) (goInsert (keyLess key) x l) := by
  intro l
  induction l with
  | nil =>
    intro _
    simp [goInsert, SortedLt]
  | cons y ys ih =>
    intro hs
    rcases List.pairwise_cons.1 hs with ⟨hy, hys⟩
    unfold goInsert
    split
    case isTrue hxy =>
      refine List.pairwise_cons.2 ⟨?_, hs⟩
      intro z hz
      rcases List.mem_cons.1 hz with rfl | hz'
      · exact keyLess_asymm key hxy
      · intro hzx
        rcases keyLess_cotrans key y hzx with h1 | h1
        · exact hy z hz' h1
        · exact keyLess_asymm key hxy h1
    case isFalse hxy =>
      refine List.pairwise_cons.2 ⟨?_, ih hys⟩
      intro z hz
      have hmem : z = x ∨ z ∈ ys := by
        have hmi := List.Perm.mem_iff (goInsert_perm (keyLess key) x ys)
          (a := z)
        exact List.mem_cons.1 (hmi.1 hz)
      rcases hmem with rfl | hz'
      · exact hxy
      · exact hy z hz'

theorem goInsert_filter_of_not {α : Type} (lt : α → α → Bool) (x : α)
    (P : α → Bool) (hx : P x = false) :
    ∀ l : List α, (goInsert lt x l).filter P = l.filter P := by
  intro l
  induction l with
  | nil => simp [goInsert, hx]
  | cons y ys ih =>
    unfold goInsert
    split
    · simp [List.filter_cons, hx]
    · simp only [List.filter_cons, ih]

theorem goInsert_filter_of_mem {α κ : Type} [LinearOrder κ] (key : α → κ)
    (x : α) (P : α → Bool) (hx : P x = true)
    (hcls : ∀ y, P y = true → key y = key x) :
    ∀ l : List α, SortedLt (keyLess key) l →
      (goInsert (keyLess key) x l).filter P = l.filter P ++ [x] := by
  intro l
  induction l with
  | nil => simp [goInsert, hx]
  | cons y ys ih =>
    intro hs
    rcases List.pairwise_cons.1 hs with ⟨hy, hys⟩
    unfold goInsert
    split
    case isTrue hxy =>
      have hall : ∀ z ∈ y :: ys, P z = false := by
        intro z hz
        by_contra hPz
        have hPz' : P z = true := by
          cases hPz2 : P z
          · exact absurd hPz2 hPz
          · rfl
        have hkz : key z = key x := hcls z hPz'
        rcases List.mem_cons.1 hz with rfl | hz'
        · exact absurd (by simpa [keyLess, hkz] using hxy) (lt_irrefl (key x))
        · have hzy : ¬ keyLess key z y = true := hy z hz'
          rcases keyLess_cotrans key z hxy with h1 | h1
          · exact absurd (by simpa [keyLess, hkz] using h1)
              (lt_irrefl (key x))
          · exact hzy h1
      have hfe : (y :: ys).filter P = [] := by
        rw [List.filter_eq_nil]
        intro z hz
        simp [hall z hz]
      rw [List.filter_cons_of_pos (by simp [hx]), hfe]
      simp
    case isFalse hxy =>
      simp only [List.filter_cons]
      rw [ih hys]
      split
      · simp
      · rfl

theorem insertionSortL_snoc {α : Type} (lt : α → α → Bool) (l : List α)
    (x : α) :
    insertionSortL lt (l ++ [x]) = goInsert lt x (insertionSortL lt l) := by
  unfold insertionSortL
  rw [List.foldl_append]
  rfl

theorem insertionSortL_pairwise {α κ : Type} [LinearOrder κ] (key : α → κ)
    (l : List α) : SortedLt (keyLess key) (insertionSortL (keyLess key) l) := by
  induction l using List.reverseRecOn with
  | nil => simp [insertionSortL, SortedLt]
  | append_singleton l x ih =>
    rw [insertionSortL_snoc]
    exact goInsert_pairwise key x _ ih

theorem insertionSortL_filter {α κ : Type} [LinearOrder κ] (key : α → κ)
    (P : α → Bool) (hcls : ∀ x y, P x = true → P y = true → key x = key y)
    (l : List α) :
    (insertionSortL (keyLess key) l).filter P = l.filter P := by
  induction l using List.reverseRecOn with
  | nil => rfl
  | append_singleton l x ih =>
    rw [insertionSortL_snoc]
    cases hx : P x with
    | true =>
      rw [goInsert_filter_of_mem key x P hx (fun y hy => hcls y x hy hx) _
        (insertionSortL_pairwise key l), ih]
      simp only [List.filter_append]
      rw [List.filter_cons_of_pos hx]
      simp
    | false =>
      rw [goInsert_filter_of_not _ _ P hx, ih]
      simp only [List.filter_append]
      rw [List.filter_cons_of_neg (by simp [hx])]
      simp

/-! ## The imperative insertion sort equals the functional model -/

theorem lswap_cons_succ {α : Type} (c : α) (t : List α) (i j : Nat) :
    lswap (c :: t) (i+1) (j+1) = c :: lswap t i j := by
  unfold lswap
  rw [List.getElem?_cons_succ, List.getElem?_cons_succ]
  rcases hi : t[i]? with _ | a <;> rcases hj : t[j]? with _ | b <;>
    simp [hi, hj]

theorem lswap_adj {α : Type} : ∀ (C : List α) (y x : α) (suf : List α),
    lswap (C ++ y :: x :: suf) (C.length + 1) C.length =
      C ++ x :: y :: suf := by
  intro C
  induction C with
  | nil =>
    intro y x suf
    show lswap (y :: x :: suf) 1 0 = x :: y :: suf
    unfold lswap
    simp
  | cons c C ih =>
    intro y x suf
    show lswap (c :: (C ++ y :: x :: suf)) (C.length + 1 + 1)
      (C.length + 1) = c :: (C ++ x :: y :: suf)
    rw [lswap_cons_succ, ih]

theorem lless_adj {α : Type} (lt : α → α → Bool) (C : List α) (y x : α)
    (suf : List α) :
    lless lt (C ++ y :: x :: suf) (C.length + 1) C.length = lt x y := by
  have h1 : (C ++ y :: x :: suf)[C.length]? = some y := by
    rw [List.getElem?_append_right (Nat.le_refl _)]
    simp
  have h2 : (C ++ y :: x :: suf)[C.length + 1]? = some x := by
    rw [List.getElem?_append_right (Nat.le_succ _)]
    simp
  unfold lless
  rw [h2, h1]

theorem insertionSortInner_eq {α κ : Type} [LinearOrder κ] (key : α → κ) :
    ∀ (pre : List α) (x : α) (suf : List α),
      SortedLt (keyLess key) pre →
      insertionSortInner (keyLess key) 0 pre.length (pre ++ x :: suf) =
        goInsert (keyLess key) x pre ++ suf := by
  intro pre
  induction pre using List.reverseRecOn with
  | nil =>
    intro x suf _
    show insertionSortInner (keyLess key) 0 0 ([] ++ x :: suf) =
      goInsert (keyLess key) x [] ++ suf
    rw [insertionSortInner]
    simp [goInsert]
  | append_singleton ps y ih =>
    intro x suf hs
    have hassoc : (ps ++ [y]) ++ x :: suf = ps ++ y :: x :: suf := by simp
    have hlen : (ps ++ [y]).length = ps.length + 1 := by simp
    have hps : SortedLt (keyLess key) ps :=
      ((List.pairwise_append.1 hs).1)
    rw [hassoc, hlen, insertionSortInner]
    by_cases hxy : keyLess key x y = true
    · rw [if_pos ⟨Nat.succ_pos _, by rw [lless_adj]; exact hxy⟩]
      rw [lswap_adj, ih x (y :: suf) hps,
        goInsert_append_last _ _ _ hxy, List.append_assoc,
        List.singleton_append]
    · rw [if_neg (by rw [lless_adj]; simp [hxy])]
      rw [goInsert_at_end _ _ _ ?hall]
      · simp
      case hall =>
        intro z hz
        rcases List.mem_append.1 hz with hz' | hz'
        · intro hxz
          rcases keyLess_cotrans key y hxz with h1 | h1
          · exact hxy h1
          · have hyz : ¬ keyLess key y z = true := by
              have hp := (List.pairwise_append.1 hs).2.2
              exact hp z hz' y (by simp)
            exact hyz h1
        · rcases List.mem_singleton.1 hz' with rfl
          exact fun hxz => hxy hxz

theorem insertionSortOuter_eq {α κ : Type} [LinearOrder κ] (key : α → κ) :
    ∀ (rest S : List α) (b : Nat), b = S.length + rest.length →
      SortedLt (keyLess key) S →
      insertionSortOuter (keyLess key) 0 b rest.length S.length
        (S ++ rest) =
        rest.foldl (fun acc x => goInsert (keyLess key) x acc) S := by
  intro rest
  induction rest with
  | nil =>
    intro S b _ _
    simp only [List.length_nil]
    rw [insertionSortOuter]
    simp
  | cons x rest' ih =>
    intro S b hb hs
    simp only [List.length_cons]
    rw [insertionSortOuter]
    rw [if_pos (by simp at hb; omega : S.length < b)]
    rw [insertionSortInner_eq key S x rest' hs]
    have hfold : (x :: rest').foldl
        (fun acc z => goInsert (keyLess key) z acc) S =
        rest'.foldl (fun acc z => goInsert (keyLess key) z acc)
          (goInsert (keyLess key) x S) := rfl
    rw [hfold]
    have hidx : S.length + 1 = (goInsert (keyLess key) x S).length := by
      rw [goInsert_length]
    rw [hidx]
    exact ih (goInsert (keyLess key) x S) b
      (by rw [goInsert_length]; simp at hb ⊢; omega)
      (goInsert_pairwise key x S hs)

theorem insertionSort_eq_model {α κ : Type} [LinearOrder κ] (key : α → κ)
    (l : List α) :
    insertionSort (keyLess key) l 0 l.length =
      insertionSortL (keyLess key) l := by
  cases l with
  | nil => rfl
  | cons x rest =>
    exact insertionSortOuter_eq key rest [x] (x :: rest).length
      (by simp [Nat.add_comm]) (by simp [SortedLt])

theorem sortGo_eq_insertionSortL {α κ : Type} [LinearOrder κ]
    (key : α → κ) (l : List α) (h : l.length ≤ 12) :
    sortGo (keyLess key) l = insertionSortL (keyLess key) l := by
  unfold sortGo
  simp only []
  split
  case isTrue h1 =>
    match l with
    | [] => rfl
    | [x] => rfl
    | x :: y :: t => simp at h1
  case isFalse h1 =>
    rw [pdqsortLoop]
    simp only []
    rw [if_pos (by omega : l.length - 0 ≤ 12)]
    exact insertionSort_eq_model key l



/-! ## Sortedness of the full sort.Sort embedding

The remaining C7 fact: `sortGo` sorts every input, whatever path pdqsort
takes. The development below proves it for comparators of the form
`keyLess key`. Ranges of the working list are handled through the slice
`listSeg l a b` (the Go `data[a:b]`), and every loop is specified by: the
part before `a` and the part from `b` are untouched, the slice is permuted,
plus the loop's functional contract. -/

/-- The slice data[a:b]. -/
def listSeg {α : Type} (l : List α) (a b : Nat) : List α := (l.take b).drop a

theorem listSeg_all {α : Type} (l : List α) : listSeg l 0 l.length = l := by
  simp [listSeg]

theorem listSeg_eq_drop_take {α : Type} (l : List α) (a b : Nat) :
    listSeg l a b = (l.drop a).take (b - a) := by
  simp [listSeg, List.drop_take]

theorem length_listSeg {α : Type} (l : List α) (a b : Nat)
    (hb : b ≤ l.length) : (listSeg l a b).length = b - a := by
  simp [listSeg]
  omega

theorem listSeg_eq_nil {α : Type} (l : List α) (a b : Nat) (h : b ≤ a) :
    listSeg l a b = [] := by
  rw [listSeg_eq_drop_take]
  simp [Nat.sub_eq_zero_of_le h]

theorem getElem?_listSeg {α : Type} (l : List α) (a b k : Nat)
    (hk : a + k < b) : (listSeg l a b)[k]? = l[a + k]? := by
  unfold listSeg
  rw [List.getElem?_drop, List.getElem?_take, if_pos hk]

theorem take_append_seg_drop {α : Type} (l : List α) (a b : Nat)
    (hab : a ≤ b) : l = l.take a ++ listSeg l a b ++ l.drop b := by
  unfold listSeg
  conv_lhs => rw [← List.take_append_drop b l]
  congr 1
  conv_lhs => rw [← List.take_append_drop a (l.take b)]
  rw [List.take_take, Nat.min_eq_left hab]

theorem listSeg_split {α : Type} (l : List α) (a m b : Nat)
    (ham : a ≤ m) (hmb : m ≤ b) (hb : b ≤ l.length) :
    listSeg l a b = listSeg l a m ++ listSeg l m b := by
  rw [listSeg_eq_drop_take, listSeg_eq_drop_take, listSeg_eq_drop_take]
  have h1 : l.drop a = (l.drop a).take (m - a) ++ l.drop m := by
    conv_lhs => rw [← List.take_append_drop (m - a) (l.drop a)]
    rw [List.drop_drop, Nat.add_sub_cancel' ham]
  conv_lhs => rw [h1]
  rw [List.take_append_eq_append_take]
  congr 1
  · rw [List.take_take]
    congr 1
    omega
  · congr 1
    rw [List.length_take, List.length_drop]
    omega

theorem mem_listSeg {α : Type} (l : List α) (a b : Nat) (x : α) :
    x ∈ listSeg l a b ↔ ∃ k, a ≤ k ∧ k < b ∧ l[k]? = some x := by
  constructor
  · intro hx
    rcases List.mem_iff_getElem?.1 hx with ⟨k0, hk0⟩
    have hlen : k0 < (listSeg l a b).length :=
      (List.getElem?_eq_some.1 hk0).1
    have hkb : a + k0 < b := by
      have h1 : (listSeg l a b).length ≤ b - a := by
        rw [listSeg_eq_drop_take]
        exact le_trans (List.length_take_le _ _) (Nat.le_refl _)
      omega
    refine ⟨a + k0, Nat.le_add_right _ _, hkb, ?_⟩
    rw [← getElem?_listSeg l a b k0 hkb]
    exact hk0
  · rintro ⟨k, hak, hkb, hk⟩
    apply List.mem_iff_getElem?.2
    refine ⟨k - a, ?_⟩
    rw [getElem?_listSeg l a b (k - a) (by omega), (by omega : a + (k - a) = k)]
    exact hk

/-- The untouched-outside-the-range frame of every loop below: length kept,
prefix before `a` kept, suffix from `b` kept. -/
def framed {α : Type} (l r : List α) (a b : Nat) : Prop :=
  r.length = l.length ∧ r.take a = l.take a ∧ r.drop b = l.drop b

theorem framed_rfl {α : Type} (l : List α) (a b : Nat) : framed l l a b :=
  ⟨rfl, rfl, rfl⟩

theorem framed_trans {α : Type} {l m r : List α} {a b : Nat}
    (h1 : framed l m a b) (h2 : framed m r a b) : framed l r a b :=
  ⟨h2.1.trans h1.1, h2.2.1.trans h1.2.1, h2.2.2.trans h1.2.2⟩

theorem framed_mono {α : Type} {l r : List α} {a b a2 b2 : Nat}
    (h : framed l r a b) (ha : a2 ≤ a) (hb : b ≤ b2) : framed l r a2 b2 := by
  refine ⟨h.1, ?_, ?_⟩
  · have := h.2.1
    calc r.take a2 = (r.take a).take a2 := by
          rw [List.take_take, Nat.min_eq_left ha]
      _ = (l.take a).take a2 := by rw [this]
      _ = l.take a2 := by rw [List.take_take, Nat.min_eq_left ha]
  · have := h.2.2
    calc r.drop b2 = (r.drop b).drop (b2 - b) := by
          rw [List.drop_drop, Nat.add_sub_cancel' hb]
      _ = (l.drop b).drop (b2 - b) := by rw [this]
      _ = l.drop b2 := by rw [List.drop_drop, Nat.add_sub_cancel' hb]

theorem listSeg_congr_left {α : Type} {l r : List α} (a2 b2 : Nat) {b : Nat}
    (h : r.take b = l.take b) (hb : b2 ≤ b) :
    listSeg r a2 b2 = listSeg l a2 b2 := by
  unfold listSeg
  rw [show r.take b2 = (r.take b).take b2 by
        rw [List.take_take, Nat.min_eq_left hb],
    h, List.take_take, Nat.min_eq_left hb]

theorem listSeg_congr_right {α : Type} {l r : List α} (a2 b2 : Nat) {b : Nat}
    (h : r.drop b = l.drop b) (hb : b ≤ a2) :
    listSeg r a2 b2 = listSeg l a2 b2 := by
  rw [listSeg_eq_drop_take, listSeg_eq_drop_take]
  rw [show r.drop a2 = (r.drop b).drop (a2 - b) by
        rw [List.drop_drop, Nat.add_sub_cancel' hb],
    h, List.drop_drop, Nat.add_sub_cancel' hb]

theorem perm_listSeg_of_framed {α : Type} {l r : List α} {a b : Nat}
    (hf : framed l r a b) (hp : List.Perm r l) (hab : a ≤ b) :
    List.Perm (listSeg r a b) (listSeg l a b) := by
  have hdrop : List.Perm (r.drop a) (l.drop a) := by
    have h1 : List.Perm (r.take a ++ r.drop a) (l.take a ++ l.drop a) := by
      rw [List.take_append_drop, List.take_append_drop]
      exact hp
    rw [hf.2.1] at h1
    exact (List.perm_append_left_iff _).1 h1
  have h2 : r.drop a = listSeg r a b ++ r.drop b := by
    rw [listSeg_eq_drop_take]
    conv_lhs => rw [← List.take_append_drop (b - a) (r.drop a)]
    rw [List.drop_drop, Nat.add_sub_cancel' hab]
  have h3 : l.drop a = listSeg l a b ++ l.drop b := by
    rw [listSeg_eq_drop_take]
    conv_lhs => rw [← List.take_append_drop (b - a) (l.drop a)]
    rw [List.drop_drop, Nat.add_sub_cancel' hab]
  rw [h2, h3, hf.2.2] at hdrop
  exact (List.perm_append_right_iff _).1 hdrop

/-! Order facts for the comparator `keyLess key`. -/

theorem keyLess_trans {α κ : Type} [LinearOrder κ] (key : α → κ) {x y z : α}
    (h1 : keyLess key x y = true) (h2 : keyLess key y z = true) :
    keyLess key x z = true := by
  simp only [keyLess, decide_eq_true_eq] at *
  exact lt_trans h1 h2

theorem keyLess_negtrans {α κ : Type} [LinearOrder κ] (key : α → κ)
    {x y z : α} (h1 : keyLess key x y = false)
    (h2 : keyLess key y z = false) : keyLess key x z = false := by
  simp only [keyLess, decide_eq_false_iff_not, not_lt] at *
  exact le_trans h2 h1

theorem keyLess_irrefl {α κ : Type} [LinearOrder κ] (key : α → κ) (x : α) :
    keyLess key x x = false := by
  simp [keyLess]

theorem keyLess_false_of_true_right {α κ : Type} [LinearOrder κ]
    (key : α → κ) {x y z : α} (h1 : keyLess key x y = true)
    (h2 : keyLess key z y = false) : keyLess key x z = true := by
  simp only [keyLess, decide_eq_true_eq, decide_eq_false_iff_not,
    not_lt] at *
  exact lt_of_lt_of_le h1 h2

/-! ## Index-shift lemmas: a loop whose indices stay inside `mid` acts on
`pre ++ mid ++ suf` as it acts on `mid`. -/

theorem getElem?_append_add {α : Type} (pre rest : List α) (i : Nat) :
    (pre ++ rest)[pre.length + i]? = rest[i]? := by
  rw [List.getElem?_append_right (Nat.le_add_right _ _)]
  congr 1
  omega

theorem set_append_add {α : Type} (pre rest : List α) (i : Nat) (x : α) :
    (pre ++ rest).set (pre.length + i) x = pre ++ rest.set i x := by
  rw [List.set_append_right _ _ (Nat.le_add_right _ _),
    show pre.length + i - pre.length = i from by omega]

theorem lswap_shift {α : Type} (pre rest : List α) (i j : Nat) :
    lswap (pre ++ rest) (pre.length + i) (pre.length + j) =
      pre ++ lswap rest i j := by
  unfold lswap
  rw [getElem?_append_add, getElem?_append_add]
  rcases hi : rest[i]? with _ | x
  · rfl
  · rcases hj : rest[j]? with _ | y
    · rfl
    · show ((pre ++ rest).set (pre.length + i) y).set (pre.length + j) x =
        pre ++ (rest.set i y).set j x
      rw [set_append_add, set_append_add]

theorem lless_shift {α : Type} (lt : α → α → Bool) (pre rest : List α)
    (i j : Nat) :
    lless lt (pre ++ rest) (pre.length + i) (pre.length + j) =
      lless lt rest i j := by
  unfold lless
  rw [getElem?_append_add, getElem?_append_add]

theorem getElem?_append_lt {α : Type} (mid suf : List α) (i : Nat)
    (h : i < mid.length) : (mid ++ suf)[i]? = mid[i]? := by
  rw [List.getElem?_append_left h]

theorem set_append_lt {α : Type} (mid suf : List α) (i : Nat) (x : α)
    (h : i < mid.length) : (mid ++ suf).set i x = mid.set i x ++ suf := by
  exact List.set_append_left _ _ h

theorem lswap_keep_suffix {α : Type} (mid suf : List α) (i j : Nat)
    (hi : i < mid.length) (hj : j < mid.length) :
    lswap (mid ++ suf) i j = lswap mid i j ++ suf := by
  unfold lswap
  rw [getElem?_append_lt _ _ _ hi, getElem?_append_lt _ _ _ hj]
  rcases hx : mid[i]? with _ | x
  · rfl
  · rcases hy : mid[j]? with _ | y
    · rfl
    · show ((mid ++ suf).set i y).set j x = (mid.set i y).set j x ++ suf
      rw [set_append_lt _ _ _ _ hi, set_append_lt _ _ _ _ (by simpa using hj)]

theorem lless_keep_suffix {α : Type} (lt : α → α → Bool) (mid suf : List α)
    (i j : Nat) (hi : i < mid.length) (hj : j < mid.length) :
    lless lt (mid ++ suf) i j = lless lt mid i j := by
  unfold lless
  rw [getElem?_append_lt _ _ _ hi, getElem?_append_lt _ _ _ hj]

theorem lswap_local {α : Type} (pre mid suf : List α) (i j : Nat)
    (hi : i < mid.length) (hj : j < mid.length) :
    lswap (pre ++ mid ++ suf) (pre.length + i) (pre.length + j) =
      pre ++ lswap mid i j ++ suf := by
  rw [List.append_assoc, lswap_shift, lswap_keep_suffix _ _ _ _ hi hj,
    ← List.append_assoc]

theorem lless_local {α : Type} (lt : α → α → Bool) (pre mid suf : List α)
    (i j : Nat) (hi : i < mid.length) (hj : j < mid.length) :
    lless lt (pre ++ mid ++ suf) (pre.length + i) (pre.length + j) =
      lless lt mid i j := by
  rw [List.append_assoc, lless_shift, lless_keep_suffix _ _ _ _ _ hi hj]

/-! ## insertionSort sorts its range -/

theorem lswap_length {α : Type} (l : List α) (i j : Nat) :
    (lswap l i j).length = l.length := by
  unfold lswap
  rcases l[i]? with _ | x
  · rfl
  · rcases l[j]? with _ | y
    · rfl
    · simp

theorem insertionSortInner_length {α : Type} (lt : α → α → Bool) (a : Nat) :
    ∀ j (l : List α), (insertionSortInner lt a j l).length = l.length := by
  intro j
  induction j with
  | zero => intro l; rfl
  | succ j ih =>
    intro l
    rw [insertionSortInner]
    split
    · rw [ih, lswap_length]
    · rfl

theorem insertionSortInner_self {α : Type} (lt : α → α → Bool) (a : Nat)
    (l : List α) : insertionSortInner lt a a l = l := by
  cases a with
  | zero => rfl
  | succ m =>
    rw [insertionSortInner, if_neg]
    simp

theorem insertionSortInner_local {α : Type} (lt : α → α → Bool)
    (pre : List α) :
    ∀ k (mid suf : List α), k < mid.length →
      insertionSortInner lt pre.length (pre.length + k)
        (pre ++ mid ++ suf) =
        pre ++ insertionSortInner lt 0 k mid ++ suf := by
  intro k
  induction k with
  | zero =>
    intro mid suf _
    rw [Nat.add_zero, insertionSortInner_self]
    rfl
  | succ k ih =>
    intro mid suf hk
    have hk1 : k < mid.length := by omega
    have hc : lless lt (pre ++ mid ++ suf) (pre.length + (k+1))
        (pre.length + k) = lless lt mid (k+1) k :=
      lless_local lt pre mid suf (k+1) k hk hk1
    rw [show pre.length + (k+1) = (pre.length + k) + 1 from rfl,
      insertionSortInner, insertionSortInner]
    by_cases hb : lless lt mid (k+1) k = true
    · rw [if_pos ⟨by omega, by rw [show (pre.length + k) + 1 =
          pre.length + (k+1) from rfl, hc]; exact hb⟩,
        if_pos ⟨Nat.succ_pos k, hb⟩,
        show (pre.length + k) + 1 = pre.length + (k+1) from rfl,
        lswap_local pre mid suf (k+1) k hk hk1]
      exact ih (lswap mid (k+1) k) suf (by rw [lswap_length]; exact hk1)
    · rw [if_neg, if_neg]
      · intro hcon
        exact hb hcon.2
      · intro hcon
        apply hb
        rw [← hc]
        rw [show pre.length + (k+1) = (pre.length + k) + 1 from rfl]
        exact hcon.2

theorem insertionSortOuter_local {α : Type} (lt : α → α → Bool)
    (pre : List α) :
    ∀ n (mid suf : List α) i,
      insertionSortOuter lt pre.length (pre.length + mid.length) n
        (pre.length + i) (pre ++ mid ++ suf) =
        pre ++ insertionSortOuter lt 0 mid.length n i mid ++ suf := by
  intro n
  induction n with
  | zero => intro mid suf i; rfl
  | succ n ih =>
    intro mid suf i
    rw [insertionSortOuter, insertionSortOuter]
    by_cases hi : i < mid.length
    · rw [if_pos (by omega), if_pos hi,
        insertionSortInner_local lt pre i mid suf hi,
        show pre.length + i + 1 = pre.length + (i+1) from rfl]
      have hlen : mid.length = (insertionSortInner lt 0 i mid).length :=
        (insertionSortInner_length lt 0 i mid).symm
      conv_lhs => rw [hlen]
      rw [ih (insertionSortInner lt 0 i mid) suf (i+1)]
      rw [← hlen]
    · rw [if_neg (by omega), if_neg hi]

theorem insertionSort_seg {α κ : Type} [LinearOrder κ] (key : α → κ)
    (l : List α) (a b : Nat) (hab : a ≤ b) (hb : b ≤ l.length) :
    insertionSort (keyLess key) l a b =
      l.take a ++ insertionSortL (keyLess key) (listSeg l a b) ++
        l.drop b := by
  have hlenpre : (l.take a).length = a := by
    simp
    omega
  have hlenseg : (listSeg l a b).length = b - a := length_listSeg l a b hb
  have hmodel : insertionSortOuter (keyLess key) 0 (b - a) (b - a - 1) 1
      (listSeg l a b) = insertionSortL (keyLess key) (listSeg l a b) := by
    have h2 := insertionSort_eq_model key (listSeg l a b)
    unfold insertionSort at h2
    rw [hlenseg] at h2
    simpa using h2
  have hl := insertionSortOuter_local (keyLess key) (l.take a) (b - a - 1)
    (listSeg l a b) (l.drop b) 1
  rw [hlenpre, hlenseg, Nat.add_sub_cancel' hab, hmodel] at hl
  unfold insertionSort
  conv_lhs => rw [take_append_seg_drop l a b hab]
  exact hl


/-! ## heapSort sorts its range

The heap lives in positions `[0, hi)` of a list; `Desc r j` says position
`j` lies in the subtree rooted at `r` (children of `i` are `2i+1` and
`2i+2`), and `IsHeap` is the max-heap property of a subtree. -/

inductive Desc : Nat → Nat → Prop
  | refl (r : Nat) : Desc r r
  | left {r j : Nat} : Desc r j → Desc r (2*j+1)
  | right {r j : Nat} : Desc r j → Desc r (2*j+2)

theorem Desc.le {r j : Nat} (h : Desc r j) : r ≤ j := by
  induction h with
  | refl => exact Nat.le_refl _
  | left _ ih => omega
  | right _ ih => omega

theorem Desc.trans {r j k : Nat} (h1 : Desc r j) (h2 : Desc j k) :
    Desc r k := by
  induction h2 with
  | refl => exact h1
  | left _ ih => exact Desc.left ih
  | right _ ih => exact Desc.right ih

theorem Desc.inv {r j : Nat} (h : Desc r j) :
    j = r ∨ (0 < j ∧ Desc r ((j - 1) / 2)) := by
  induction h with
  | refl => exact Or.inl rfl
  | @left j h _ =>
    right
    refine ⟨by omega, ?_⟩
    rw [show (2*j+1 - 1) / 2 = j from by omega]
    exact h
  | @right j h _ =>
    right
    refine ⟨by omega, ?_⟩
    rw [show (2*j+2 - 1) / 2 = j from by omega]
    exact h

theorem desc_not_of_lt {r j : Nat} (h : j < r) : ¬ Desc r j :=
  fun hd => absurd hd.le (by omega)

theorem desc_sibling_disjoint (r : Nat) :
    ∀ j, Desc (2*r+1) j → Desc (2*r+2) j → False := by
  intro j
  induction j using Nat.strong_induction_on with
  | _ j ih =>
    intro h1 h2
    rcases h1.inv with he1 | ⟨hpos1, hp1⟩
    · subst he1
      rcases h2.inv with he2 | ⟨_, hp2⟩
      · omega
      · rw [show (2*r+1 - 1) / 2 = r from by omega] at hp2
        exact absurd hp2.le (by omega)
    · rcases h2.inv with he2 | ⟨hpos2, hp2⟩
      · subst he2
        rw [show (2*r+2 - 1) / 2 = r from by omega] at hp1
        exact absurd hp1.le (by omega)
      · exact ih ((j-1)/2) (by omega) hp1 hp2

theorem desc_chain {r k : Nat} :
    ∀ j, Desc r j → Desc k j → Desc r k ∨ Desc k r := by
  intro j
  induction j using Nat.strong_induction_on with
  | _ j ih =>
    intro h1 h2
    rcases h1.inv with he1 | ⟨hpos1, hp1⟩
    · subst he1
      exact Or.inr h2
    · rcases h2.inv with he2 | ⟨hpos2, hp2⟩
      · subst he2
        exact Or.inl h1
      · exact ih ((j-1)/2) (by omega) hp1 hp2

theorem desc_disjoint_of_not {r k : Nat} (h1 : ¬ Desc r k)
    (h2 : ¬ Desc k r) : ∀ j, Desc r j → Desc k j → False := by
  intro j hr hk
  rcases desc_chain j hr hk with h | h
  · exact h1 h
  · exact h2 h

/-- Max-heap property of the subtree rooted at `r`, inside `[0, hi)`. -/
inductive IsHeap {α : Type} (lt : α → α → Bool) (l : List α) (hi : Nat) :
    Nat → Prop
  | node (r : Nat)
      (hLe : 2*r+1 < hi → lless lt l r (2*r+1) = false)
      (hLh : 2*r+1 < hi → IsHeap lt l hi (2*r+1))
      (hRe : 2*r+2 < hi → lless lt l r (2*r+2) = false)
      (hRh : 2*r+2 < hi → IsHeap lt l hi (2*r+2)) :
      IsHeap lt l hi r

theorem isHeap_of_no_child {α : Type} (lt : α → α → Bool) (l : List α)
    (hi r : Nat) (h : hi ≤ 2*r+1) : IsHeap lt l hi r := by
  refine IsHeap.node r ?_ ?_ ?_ ?_ <;> intro hc <;> omega

theorem IsHeap.left_edge {α : Type} {lt : α → α → Bool} {l : List α}
    {hi r : Nat} (h : IsHeap lt l hi r) (hc : 2*r+1 < hi) :
    lless lt l r (2*r+1) = false := by
  cases h with
  | node _ hLe _ _ _ => exact hLe hc

theorem IsHeap.left_sub {α : Type} {lt : α → α → Bool} {l : List α}
    {hi r : Nat} (h : IsHeap lt l hi r) (hc : 2*r+1 < hi) :
    IsHeap lt l hi (2*r+1) := by
  cases h with
  | node _ _ hLh _ _ => exact hLh hc

theorem IsHeap.right_edge {α : Type} {lt : α → α → Bool} {l : List α}
    {hi r : Nat} (h : IsHeap lt l hi r) (hc : 2*r+2 < hi) :
    lless lt l r (2*r+2) = false := by
  cases h with
  | node _ _ _ hRe _ => exact hRe hc

theorem IsHeap.right_sub {α : Type} {lt : α → α → Bool} {l : List α}
    {hi r : Nat} (h : IsHeap lt l hi r) (hc : 2*r+2 < hi) :
    IsHeap lt l hi (2*r+2) := by
  cases h with
  | node _ _ _ _ hRh => exact hRh hc

theorem lless_congr {α : Type} (lt : α → α → Bool) {l l2 : List α}
    {i j : Nat} (hi : l2[i]? = l[i]?) (hj : l2[j]? = l[j]?) :
    lless lt l2 i j = lless lt l i j := by
  unfold lless
  rw [hi, hj]

theorem isHeap_congr {α : Type} {lt : α → α → Bool} {l l2 : List α}
    {hi : Nat} : ∀ {r : Nat}, IsHeap lt l hi r →
    (∀ j, Desc r j → j < hi → l2[j]? = l[j]?) → IsHeap lt l2 hi r := by
  intro r h
  induction h with
  | node r hLe hLh hRe hRh ihL ihR =>
    intro hcong
    refine IsHeap.node r ?_ ?_ ?_ ?_
    · intro hc
      rw [lless_congr lt (hcong r (Desc.refl r) (by omega))
        (hcong _ (Desc.left (Desc.refl r)) hc)]
      exact hLe hc
    · intro hc
      exact ihL hc (fun j hd hj =>
        hcong j ((Desc.left (Desc.refl r)).trans hd) hj)
    · intro hc
      rw [lless_congr lt (hcong r (Desc.refl r) (by omega))
        (hcong _ (Desc.right (Desc.refl r)) hc)]
      exact hRe hc
    · intro hc
      exact ihR hc (fun j hd hj =>
        hcong j ((Desc.right (Desc.refl r)).trans hd) hj)

theorem isHeap_mono {α : Type} {lt : α → α → Bool} {l : List α}
    {hi : Nat} : ∀ {r : Nat}, IsHeap lt l hi r → ∀ {hi2 : Nat}, hi2 ≤ hi →
    IsHeap lt l hi2 r := by
  intro r h
  induction h with
  | node r hLe hLh hRe hRh ihL ihR =>
    intro hi2 hle
    refine IsHeap.node r ?_ ?_ ?_ ?_
    · intro hc
      exact hLe (by omega)
    · intro hc
      exact ihL (by omega) hle
    · intro hc
      exact hRe (by omega)
    · intro hc
      exact ihR (by omega) hle

theorem isHeap_sub {α : Type} {lt : α → α → Bool} {l : List α}
    {hi r : Nat} (h : IsHeap lt l hi r) :
    ∀ {j : Nat}, Desc r j → IsHeap lt l hi j := by
  intro j hd
  induction hd with
  | refl => exact h
  | @left j hd ih =>
    by_cases hc : 2*j+1 < hi
    · exact ih.left_sub hc
    · exact isHeap_of_no_child lt l hi _ (by omega)
  | @right j hd ih =>
    by_cases hc : 2*j+2 < hi
    · exact ih.right_sub hc
    · exact isHeap_of_no_child lt l hi _ (by omega)

theorem lless_irrefl {α κ : Type} [LinearOrder κ] (key : α → κ)
    (l : List α) (i : Nat) : lless (keyLess key) l i i = false := by
  unfold lless
  rcases l[i]? with _ | x
  · rfl
  · exact keyLess_irrefl key x

theorem lless_negtrans {α κ : Type} [LinearOrder κ] (key : α → κ)
    {l : List α} {i j k : Nat} (hj : j < l.length)
    (h1 : lless (keyLess key) l i j = false)
    (h2 : lless (keyLess key) l j k = false) :
    lless (keyLess key) l i k = false := by
  unfold lless at *
  rcases hjv : l[j]? with _ | y
  · exact absurd (List.getElem?_eq_getElem hj) (by rw [hjv]; simp)
  · rw [hjv] at h1 h2
    rcases hiv : l[i]? with _ | x
    · rfl
    · rw [hiv] at h1
      rcases hkv : l[k]? with _ | z
      · rfl
      · rw [hkv] at h2
        exact keyLess_negtrans key h1 h2

theorem isHeap_dominates {α κ : Type} [LinearOrder κ] (key : α → κ)
    {l : List α} {hi : Nat} (hhi : hi ≤ l.length) {r : Nat}
    (h : IsHeap (keyLess key) l hi r) :
    ∀ j, Desc r j → j < hi → lless (keyLess key) l r j = false := by
  intro j hd
  induction hd with
  | refl =>
    intro _
    exact lless_irrefl key l r
  | @left j hd ih =>
    intro hc
    have hj : j < hi := by omega
    have hedge : lless (keyLess key) l j (2*j+1) = false :=
      (isHeap_sub h hd).left_edge hc
    exact lless_negtrans key (by omega) (ih hj) hedge
  | @right j hd ih =>
    intro hc
    have hj : j < hi := by omega
    have hedge : lless (keyLess key) l j (2*j+2) = false :=
      (isHeap_sub h hd).right_edge hc
    exact lless_negtrans key (by omega) (ih hj) hedge

theorem getElem?_lswap_other {α : Type} (l : List α) (i j k : Nat)
    (hki : k ≠ i) (hkj : k ≠ j) : (lswap l i j)[k]? = l[k]? := by
  unfold lswap
  rcases l[i]? with _ | x
  · rfl
  · rcases l[j]? with _ | y
    · rfl
    · rw [List.getElem?_set_ne hkj.symm, List.getElem?_set_ne hki.symm]

theorem getElem?_lswap_fst {α : Type} (l : List α) (i j : Nat) {x y : α}
    (hx : l[i]? = some x) (hy : l[j]? = some y) :
    (lswap l i j)[i]? = some y := by
  unfold lswap
  rw [hx, hy]
  by_cases hij : i = j
  · subst hij
    have hxy : x = y := by
      rw [hx] at hy
      exact Option.some.inj hy
    rw [List.getElem?_set_self (by
      rw [List.length_set]
      exact (List.getElem?_eq_some.1 hx).1), hxy]
  · rw [List.getElem?_set_ne (by omega),
      List.getElem?_set_self (List.getElem?_eq_some.1 hx).1]

theorem getElem?_lswap_snd {α : Type} (l : List α) (i j : Nat) {x y : α}
    (hx : l[i]? = some x) (hy : l[j]? = some y) :
    (lswap l i j)[j]? = some x := by
  unfold lswap
  rw [hx, hy]
  rw [List.getElem?_set_self (by
    rw [List.length_set]
    exact (List.getElem?_eq_some.1 hy).1)]


/-! ## The siftDown contract -/

theorem lless_eq_of_some {α : Type} (lt : α → α → Bool) {l : List α}
    {i j : Nat} {x y : α} (hx : l[i]? = some x) (hy : l[j]? = some y) :
    lless lt l i j = lt x y := by
  unfold lless
  rw [hx, hy]

theorem lless_true_elim {α : Type} (lt : α → α → Bool) {l : List α}
    {i j : Nat} (h : lless lt l i j = true) :
    ∃ x y, l[i]? = some x ∧ l[j]? = some y ∧ lt x y = true := by
  unfold lless at h
  rcases hiv : l[i]? with _ | x
  · rcases hjv : l[j]? with _ | y
    · rw [hiv, hjv] at h
      exact Bool.noConfusion h
    · rw [hiv, hjv] at h
      exact Bool.noConfusion h
  · rcases hjv : l[j]? with _ | y
    · rw [hiv, hjv] at h
      exact Bool.noConfusion h
    · rw [hiv, hjv] at h
      exact ⟨x, y, rfl, rfl, h⟩

theorem lless_trans {α κ : Type} [LinearOrder κ] (key : α → κ)
    {l : List α} {i j k : Nat}
    (h1 : lless (keyLess key) l i j = true)
    (h2 : lless (keyLess key) l j k = true) :
    lless (keyLess key) l i k = true := by
  obtain ⟨x, y, hx, hy, hxy⟩ := lless_true_elim _ h1
  obtain ⟨y2, z, hy2, hz, hyz⟩ := lless_true_elim _ h2
  rw [hy] at hy2
  injection hy2 with hyeq
  rw [← hyeq] at hyz
  rw [lless_eq_of_some _ hx hz]
  exact keyLess_trans key hxy hyz

theorem keyLess_asymm_false {α κ : Type} [LinearOrder κ] (key : α → κ)
    {x y : α} (h : keyLess key x y = true) : keyLess key y x = false := by
  have h2 := keyLess_asymm key h
  rcases hb : keyLess key y x with _ | _
  · rfl
  · exact absurd hb h2

theorem lless_asymm {α κ : Type} [LinearOrder κ] (key : α → κ)
    {l : List α} {i j : Nat} (h : lless (keyLess key) l i j = true) :
    lless (keyLess key) l j i = false := by
  obtain ⟨x, y, hx, hy, hxy⟩ := lless_true_elim _ h
  rw [lless_eq_of_some _ hy hx]
  exact keyLess_asymm_false key hxy

theorem bool_eq_false_of_ne_true {b : Bool} (h : ¬ b = true) : b = false := by
  rcases hb : b with _ | _
  · rfl
  · exact absurd hb h

/-- Contract of one sift-down: the subtree at `root` becomes a heap, nothing
outside it (below `hi`) moves, and any upper bound of the subtree's values
is preserved. -/
def siftSpec {α κ : Type} [LinearOrder κ] (key : α → κ) (hi root : Nat)
    (l r : List α) : Prop :=
  r.length = l.length ∧
  (∀ k, (¬ Desc root k ∨ hi ≤ k) → r[k]? = l[k]?) ∧
  IsHeap (keyLess key) r hi root ∧
  (∀ x, (∀ j, Desc root j → j < hi → ∀ v, l[j]? = some v →
      keyLess key x v = false) →
    ∀ j, Desc root j → j < hi → ∀ v, r[j]? = some v →
      keyLess key x v = false)

theorem siftDown_branch {α κ : Type} [LinearOrder κ] (key : α → κ)
    {hi fuel : Nat}
    (ih : ∀ root2 (l2 : List α), hi - root2 ≤ fuel → hi ≤ l2.length →
      (2*root2+1 < hi → IsHeap (keyLess key) l2 hi (2*root2+1)) →
      (2*root2+2 < hi → IsHeap (keyLess key) l2 hi (2*root2+2)) →
      siftSpec key hi root2 l2
        (siftDownLoop (keyLess key) hi 0 fuel root2 l2))
    (root c : Nat) (l : List α)
    (hfuel : hi - root ≤ fuel + 1) (hlen : hi ≤ l.length)
    (hH1 : 2*root+1 < hi → IsHeap (keyLess key) l hi (2*root+1))
    (hH2 : 2*root+2 < hi → IsHeap (keyLess key) l hi (2*root+2))
    (hchild : 2*root+1 < hi)
    (hcc : c = 2*root+1 ∨ c = 2*root+2) (hchi : c < hi)
    (hmaxL : lless (keyLess key) l c (2*root+1) = false)
    (hmaxR : 2*root+2 < hi → lless (keyLess key) l c (2*root+2) = false) :
    siftSpec key hi root l
      (if lless (keyLess key) l root c = true then
        siftDownLoop (keyLess key) hi 0 fuel c (lswap l root c)
      else l) := by
  have hrhi : root < hi := by omega
  have hrootlt : root < l.length := by omega
  have hclt : c < l.length := by omega
  have hrc : root < c := by rcases hcc with rfl | rfl <;> omega
  have hdescc : Desc root c := by
    rcases hcc with rfl | rfl
    · exact Desc.left (Desc.refl root)
    · exact Desc.right (Desc.refl root)
  have hheapc : IsHeap (keyLess key) l hi c := by
    rcases hcc with rfl | rfl
    · exact hH1 hchild
    · exact hH2 hchi
  by_cases hswap : lless (keyLess key) l root c = true
  · rw [if_pos hswap]
    rcases hvr0 : l[root]? with _ | vroot
    · exact absurd hvr0 (by
        rw [List.getElem?_eq_getElem hrootlt]
        simp)
    rcases hvc0 : l[c]? with _ | vc
    · exact absurd hvc0 (by
        rw [List.getElem?_eq_getElem hclt]
        simp)
    have hl2len : (lswap l root c).length = l.length := lswap_length l root c
    have hl2root : (lswap l root c)[root]? = some vc :=
      getElem?_lswap_fst l root c hvr0 hvc0
    have hl2c : (lswap l root c)[c]? = some vroot :=
      getElem?_lswap_snd l root c hvr0 hvc0
    have hl2other : ∀ k, k ≠ root → k ≠ c →
        (lswap l root c)[k]? = l[k]? := fun k h1 h2 =>
      getElem?_lswap_other l root c k h1 h2
    have hH1c : 2*c+1 < hi →
        IsHeap (keyLess key) (lswap l root c) hi (2*c+1) := by
      intro hcc1
      refine isHeap_congr (hheapc.left_sub hcc1) ?_
      intro j hd hj
      have hge : 2*c+1 ≤ j := hd.le
      exact hl2other j (by omega) (by omega)
    have hH2c : 2*c+2 < hi →
        IsHeap (keyLess key) (lswap l root c) hi (2*c+2) := by
      intro hcc2
      refine isHeap_congr (hheapc.right_sub hcc2) ?_
      intro j hd hj
      have hge : 2*c+2 ≤ j := hd.le
      exact hl2other j (by omega) (by omega)
    obtain ⟨rC1, rC2, rC3, rC5⟩ := ih c (lswap l root c) (by omega)
      (by rw [hl2len]; exact hlen) hH1c hH2c
    have hvswap : keyLess key vroot vc = true := by
      rw [lless_eq_of_some (keyLess key) hvr0 hvc0] at hswap
      exact hswap
    have hrroot : (siftDownLoop (keyLess key) hi 0 fuel c
        (lswap l root c))[root]? = some vc := by
      rw [rC2 root (Or.inl (desc_not_of_lt hrc))]
      exact hl2root
    have hcap : ∀ j, Desc c j → j < hi → ∀ v,
        (siftDownLoop (keyLess key) hi 0 fuel c (lswap l root c))[j]? =
          some v → keyLess key vc v = false := by
      refine rC5 vc ?_
      intro j hd hj w hw
      by_cases hjc : j = c
      · subst hjc
        rw [hl2c] at hw
        injection hw with hweq
        rw [← hweq]
        exact keyLess_asymm_false key hvswap
      · have hjgt : c < j := by
          have := hd.le
          omega
        rw [hl2other j (by omega) hjc] at hw
        have hdom := isHeap_dominates key hlen hheapc j hd hj
        rw [lless_eq_of_some (keyLess key) hvc0 hw] at hdom
        exact hdom
    refine ⟨by rw [rC1, hl2len], ?_, ?_, ?_⟩
    · intro k hk
      have hk1 : ¬ Desc c k ∨ hi ≤ k := by
        rcases hk with hk | hk
        · exact Or.inl (fun hd => hk (hdescc.trans hd))
        · exact Or.inr hk
      rw [rC2 k hk1]
      rcases hk with hk | hk
      · exact hl2other k
          (fun he => hk (by rw [he]; exact Desc.refl root))
          (fun he => hk (by rw [he]; exact hdescc))
      · exact hl2other k (by omega) (by omega)
    · -- the subtree at root is a heap afterwards
      have hedge_to : ∀ o, Desc root o → o ≠ c → ¬ Desc c o → o < hi →
          lless (keyLess key)
            (siftDownLoop (keyLess key) hi 0 fuel c (lswap l root c))
            root o = false →
          True := fun _ _ _ _ _ _ => trivial
      have hoval : ∀ o, o < hi → o ≠ root → o ≠ c → ¬ Desc c o →
          (siftDownLoop (keyLess key) hi 0 fuel c (lswap l root c))[o]? =
            l[o]? := by
        intro o ho h1 h2 h3
        rw [rC2 o (Or.inl h3)]
        exact hl2other o h1 h2
      have hcval : ∃ w, (siftDownLoop (keyLess key) hi 0 fuel c
          (lswap l root c))[c]? = some w ∧ keyLess key vc w = false := by
        have hlt : c < (siftDownLoop (keyLess key) hi 0 fuel c
            (lswap l root c)).length := by
          rw [rC1, hl2len]
          omega
        refine ⟨_, List.getElem?_eq_getElem hlt, ?_⟩
        exact hcap c (Desc.refl c) hchi _ (List.getElem?_eq_getElem hlt)
      obtain ⟨w, hw, hvcw⟩ := hcval
      refine IsHeap.node root ?_ ?_ ?_ ?_
      · intro hc2
        rcases hcc with rfl | rfl
        · rw [lless_eq_of_some (keyLess key) hrroot hw]
          exact hvcw
        · have hnd : ¬ Desc (2*root+2) (2*root+1) :=
            desc_not_of_lt (by omega)
          rcases hvL0 : l[2*root+1]? with _ | vL
          · exact absurd hvL0 (by
              rw [List.getElem?_eq_getElem (by omega : 2*root+1 < l.length)]
              simp)
          have hoL := hoval (2*root+1) hc2 (by omega) (by omega) hnd
          rw [lless_eq_of_some (keyLess key) hrroot (by rw [hoL]; exact hvL0)]
          rw [lless_eq_of_some (keyLess key) hvc0 hvL0] at hmaxL
          exact hmaxL
      · intro hc2
        rcases hcc with rfl | rfl
        · exact rC3
        · have hnd : ∀ j, Desc (2*root+1) j → ¬ Desc (2*root+2) j :=
            fun j hj hd => desc_sibling_disjoint root j hj hd
          refine isHeap_congr (hH1 hc2) ?_
          intro j hd hj
          have hge : 2*root+1 ≤ j := hd.le
          exact hoval j hj (by omega) (fun he =>
              hnd j hd (by rw [← he]; exact Desc.refl _))
            (hnd j hd)
      · intro hc2
        rcases hcc with rfl | rfl
        · have hnd : ¬ Desc (2*root+1) (2*root+2) := by
            intro hd
            exact desc_sibling_disjoint root (2*root+2) hd (Desc.refl _)
          rcases hvR0 : l[2*root+2]? with _ | vR
          · exact absurd hvR0 (by
              rw [List.getElem?_eq_getElem (by omega : 2*root+2 < l.length)]
              simp)
          have hoR := hoval (2*root+2) hc2 (by omega) (by omega) hnd
          rw [lless_eq_of_some (keyLess key) hrroot (by rw [hoR]; exact hvR0)]
          rw [lless_eq_of_some (keyLess key) hvc0 hvR0] at hmaxR
          exact hmaxR hc2
        · rw [lless_eq_of_some (keyLess key) hrroot hw]
          exact hvcw
      · intro hc2
        rcases hcc with rfl | rfl
        · have hnd : ∀ j, Desc (2*root+2) j → ¬ Desc (2*root+1) j :=
            fun j hj hd => desc_sibling_disjoint root j hd hj
          refine isHeap_congr (hH2 hc2) ?_
          intro j hd hj
          have hge : 2*root+2 ≤ j := hd.le
          exact hoval j hj (by omega) (fun he =>
              hnd j hd (by rw [← he]; exact Desc.refl _))
            (hnd j hd)
        · exact rC3
    · intro x hx j hd hj v hv
      by_cases hdc2 : Desc c j
      · refine rC5 x ?_ j hdc2 hj v hv
        intro j2 hd2 hj2 w2 hw2
        by_cases hj2c : j2 = c
        · subst hj2c
          rw [hl2c] at hw2
          injection hw2 with hw2eq
          rw [← hw2eq]
          exact hx root (Desc.refl root) hrhi vroot hvr0
        · have : c < j2 := by
            have := hd2.le
            omega
          rw [hl2other j2 (by omega) hj2c] at hw2
          exact hx j2 (hdescc.trans hd2) hj2 w2 hw2
      · rw [rC2 j (Or.inl hdc2)] at hv
        by_cases hjr : j = root
        · subst hjr
          rw [hl2root] at hv
          injection hv with hveq
          rw [← hveq]
          exact hx c hdescc hchi vc hvc0
        · by_cases hjc : j = c
          · exact absurd (by rw [hjc]; exact Desc.refl c) hdc2
          · rw [hl2other j hjr hjc] at hv
            exact hx j hd hj v hv
  · rw [if_neg hswap]
    have hswapf : lless (keyLess key) l root c = false :=
      bool_eq_false_of_ne_true hswap
    refine ⟨rfl, fun k _ => rfl, ?_, fun x hx => hx⟩
    refine IsHeap.node root ?_ ?_ ?_ ?_
    · intro hc2
      rcases hcc with rfl | rfl
      · exact hswapf
      · exact lless_negtrans key (by omega) hswapf hmaxL
    · intro hc2
      exact hH1 hc2
    · intro hc2
      rcases hcc with rfl | rfl
      · exact lless_negtrans key (by omega) hswapf (hmaxR hc2)
      · exact hswapf
    · intro hc2
      exact hH2 hc2


theorem siftDownLoop_spec {α κ : Type} [LinearOrder κ] (key : α → κ)
    {hi : Nat} :
    ∀ fuel root (l : List α), hi - root ≤ fuel → hi ≤ l.length →
      (2*root+1 < hi → IsHeap (keyLess key) l hi (2*root+1)) →
      (2*root+2 < hi → IsHeap (keyLess key) l hi (2*root+2)) →
      siftSpec key hi root l
        (siftDownLoop (keyLess key) hi 0 fuel root l) := by
  intro fuel
  induction fuel with
  | zero =>
    intro root l hfuel hlen hH1 hH2
    exact ⟨rfl, fun k _ => rfl, isHeap_of_no_child _ _ _ _ (by omega),
      fun x hx => hx⟩
  | succ fuel ih =>
    intro root l hfuel hlen hH1 hH2
    by_cases hchild : 2*root+1 < hi
    · have e : siftDownLoop (keyLess key) hi 0 (fuel+1) root l =
          if lless (keyLess key) l root
              (if 2*root+1+1 < hi ∧
                  lless (keyLess key) l (2*root+1) (2*root+1+1) = true
                then 2*root+1+1 else 2*root+1) = true then
            siftDownLoop (keyLess key) hi 0 fuel
              (if 2*root+1+1 < hi ∧
                  lless (keyLess key) l (2*root+1) (2*root+1+1) = true
                then 2*root+1+1 else 2*root+1)
              (lswap l root
                (if 2*root+1+1 < hi ∧
                    lless (keyLess key) l (2*root+1) (2*root+1+1) = true
                  then 2*root+1+1 else 2*root+1))
          else l := by
        rw [siftDownLoop]
        simp only [Nat.zero_add]
        rw [if_pos hchild]
      rw [e]
      by_cases hcond : 2*root+1+1 < hi ∧
          lless (keyLess key) l (2*root+1) (2*root+1+1) = true
      · rw [if_pos hcond]
        refine siftDown_branch key ih root (2*root+1+1) l hfuel hlen hH1 hH2
          hchild (Or.inr (by omega)) (by omega)
          (lless_asymm key hcond.2) ?_
        intro h2
        rw [show 2*root+2 = 2*root+1+1 from rfl]
        exact lless_irrefl key l _
      · rw [if_neg hcond]
        refine siftDown_branch key ih root (2*root+1) l hfuel hlen hH1 hH2
          hchild (Or.inl rfl) hchild (lless_irrefl key l _) ?_
        intro h2
        have hnot : ¬ lless (keyLess key) l (2*root+1) (2*root+1+1) = true :=
          fun hl => hcond ⟨by omega, hl⟩
        rw [show 2*root+2 = 2*root+1+1 from rfl]
        exact bool_eq_false_of_ne_true hnot
    · have e : siftDownLoop (keyLess key) hi 0 (fuel+1) root l = l := by
        rw [siftDownLoop]
        simp only [Nat.zero_add]
        rw [if_neg hchild]
      rw [e]
      exact ⟨rfl, fun k _ => rfl, isHeap_of_no_child _ _ _ _ (by omega),
        fun x hx => hx⟩

theorem siftDownAux_spec {α κ : Type} [LinearOrder κ] (key : α → κ)
    {hi : Nat} (l : List α) (root : Nat) (hlen : hi ≤ l.length)
    (hH1 : 2*root+1 < hi → IsHeap (keyLess key) l hi (2*root+1))
    (hH2 : 2*root+2 < hi → IsHeap (keyLess key) l hi (2*root+2)) :
    siftSpec key hi root l (siftDownAux (keyLess key) l hi 0 root) :=
  siftDownLoop_spec key (hi - root) root l (Nat.le_refl _) hlen hH1 hH2


/-! ## heapify and the pop loop -/

theorem desc_zero : ∀ j, Desc 0 j := by
  intro j
  induction j using Nat.strong_induction_on with
  | _ j ih =>
    rcases Nat.eq_zero_or_pos j with rfl | hpos
    · exact Desc.refl 0
    · have hsplit : j = 2*((j-1)/2)+1 ∨ j = 2*((j-1)/2)+2 := by omega
      have hp := ih ((j-1)/2) (by omega)
      rcases hsplit with he | he
      · rw [he]
        exact Desc.left hp
      · rw [he]
        exact Desc.right hp

theorem length_listSeg_general {α : Type} (l : List α) (a b : Nat) :
    (listSeg l a b).length = min b l.length - a := by
  simp [listSeg]

theorem listSeg_congr_of_pointwise {α : Type} {l r : List α} {a b : Nat}
    (hlen : r.length = l.length)
    (h : ∀ k, a ≤ k → k < b → r[k]? = l[k]?) :
    listSeg r a b = listSeg l a b := by
  apply List.ext_getElem?
  intro k
  by_cases hk : a + k < b
  · rw [getElem?_listSeg r a b k hk, getElem?_listSeg l a b k hk]
    exact h (a+k) (by omega) hk
  · have h1 : (listSeg r a b).length ≤ k ∨ b ≤ a := by
      rw [length_listSeg_general]
      omega
    have h2 : (listSeg l a b).length ≤ k ∨ b ≤ a := by
      rw [length_listSeg_general]
      omega
    rcases h1 with h1 | h1
    · rw [List.getElem?_eq_none h1, List.getElem?_eq_none (by
        rw [length_listSeg_general] at h1 ⊢
        omega)]
    · rw [listSeg_eq_nil r a b h1, listSeg_eq_nil l a b h1]

theorem drop_eq_of_pointwise {α : Type} {l r : List α} {b : Nat}
    (hlen : r.length = l.length) (h : ∀ k, b ≤ k → r[k]? = l[k]?) :
    r.drop b = l.drop b := by
  apply List.ext_getElem?
  intro k
  rw [List.getElem?_drop, List.getElem?_drop]
  exact h (b + k) (by omega)

theorem listSeg_cons_of_getElem {α : Type} {l : List α} {k : Nat} {v : α}
    (hv : l[k]? = some v) (b : Nat) (hkb : k < b) :
    listSeg l k b = v :: listSeg l (k+1) b := by
  rw [listSeg_eq_drop_take, listSeg_eq_drop_take]
  have hklen : k < l.length := (List.getElem?_eq_some.1 hv).1
  have hdrop : l.drop k = v :: l.drop (k+1) := by
    rw [List.drop_eq_getElem_cons hklen]
    congr 1
    have := List.getElem?_eq_getElem hklen
    rw [hv] at this
    exact (Option.some.inj this).symm
  rw [hdrop, show b - k = (b - (k+1)) + 1 from by omega]
  rfl

theorem listSeg_singleton {α : Type} {l : List α} {k : Nat} {v : α}
    (hv : l[k]? = some v) : listSeg l k (k+1) = [v] := by
  rw [listSeg_cons_of_getElem hv (k+1) (by omega),
    listSeg_eq_nil l (k+1) (k+1) (Nat.le_refl _)]

theorem mem_listSeg_mono {α : Type} {l : List α} {a b b2 : Nat} {x : α}
    (h : x ∈ listSeg l a b) (hb : b ≤ b2) : x ∈ listSeg l a b2 := by
  rw [mem_listSeg] at h ⊢
  obtain ⟨k, h1, h2, h3⟩ := h
  exact ⟨k, h1, by omega, h3⟩

theorem heapifyLoop_spec {α κ : Type} [LinearOrder κ] (key : α → κ)
    {hi : Nat} :
    ∀ k (l : List α), hi ≤ l.length →
      (∀ r, k ≤ r → IsHeap (keyLess key) l hi r) →
      (heapifyLoop (keyLess key) hi 0 k l).length = l.length ∧
      (∀ j, hi ≤ j →
        (heapifyLoop (keyLess key) hi 0 k l)[j]? = l[j]?) ∧
      (∀ r, IsHeap (keyLess key) (heapifyLoop (keyLess key) hi 0 k l)
        hi r) := by
  intro k
  induction k with
  | zero =>
    intro l hlen hinv
    exact ⟨rfl, fun j _ => rfl, fun r => hinv r (Nat.zero_le r)⟩
  | succ k ih =>
    intro l hlen hinv
    have hH1 : 2*k+1 < hi → IsHeap (keyLess key) l hi (2*k+1) :=
      fun _ => hinv (2*k+1) (by omega)
    have hH2 : 2*k+2 < hi → IsHeap (keyLess key) l hi (2*k+2) :=
      fun _ => hinv (2*k+2) (by omega)
    obtain ⟨sC1, sC2, sC3, _⟩ := siftDownAux_spec key l k hlen hH1 hH2
    have hinv2 : ∀ r, k ≤ r →
        IsHeap (keyLess key) (siftDownAux (keyLess key) l hi 0 k) hi r := by
      intro r hr
      rcases Nat.eq_or_lt_of_le hr with rfl | hlt
      · exact sC3
      · by_cases hdr : Desc k r
        · exact isHeap_sub sC3 hdr
        · refine isHeap_congr (hinv r (by omega)) ?_
          intro j hd hj
          refine sC2 j (Or.inl ?_)
          intro hkj
          rcases desc_chain j hkj hd with hc | hc
          · exact hdr hc
          · exact absurd hc.le (by omega)
    obtain ⟨rC1, rC2, rC3⟩ := ih (siftDownAux (keyLess key) l hi 0 k)
      (by rw [sC1]; exact hlen) hinv2
    have e : heapifyLoop (keyLess key) hi 0 (k+1) l =
        heapifyLoop (keyLess key) hi 0 k
          (siftDownAux (keyLess key) l hi 0 k) := rfl
    rw [e]
    refine ⟨by rw [rC1, sC1], ?_, rC3⟩
    intro j hj
    rw [rC2 j hj, sC2 j (Or.inr hj)]


theorem popLoop_spec {α κ : Type} [LinearOrder κ] (key : α → κ) :
    ∀ i (l : List α), i ≤ l.length →
      IsHeap (keyLess key) l i 0 →
      SortedLt (keyLess key) (listSeg l i l.length) →
      (∀ x ∈ listSeg l 0 i, ∀ y ∈ listSeg l i l.length,
        keyLess key y x = false) →
      (popLoop (keyLess key) 0 i l).length = l.length ∧
      SortedLt (keyLess key) (popLoop (keyLess key) 0 i l) := by
  intro i
  induction i with
  | zero =>
    intro l _ _ hsort _
    rw [listSeg_all l] at hsort
    exact ⟨rfl, hsort⟩
  | succ i ih =>
    intro l hlen hheap hsort hcross
    have hi1 : i < l.length := by omega
    rcases hv0 : l[0]? with _ | v0
    · exact absurd hv0 (by
        rw [List.getElem?_eq_getElem (by omega : 0 < l.length)]
        simp)
    rcases hvi : l[i]? with _ | vi
    · exact absurd hvi (by
        rw [List.getElem?_eq_getElem hi1]
        simp)
    have hl2len : (lswap l 0 i).length = l.length := lswap_length l 0 i
    have hl20 : (lswap l 0 i)[0]? = some vi :=
      getElem?_lswap_fst l 0 i hv0 hvi
    have hl2i : (lswap l 0 i)[i]? = some v0 :=
      getElem?_lswap_snd l 0 i hv0 hvi
    have hl2other : ∀ k, k ≠ 0 → k ≠ i → (lswap l 0 i)[k]? = l[k]? :=
      fun k h1 h2 => getElem?_lswap_other l 0 i k h1 h2
    have hH1 : 2*0+1 < i → IsHeap (keyLess key) (lswap l 0 i) i (2*0+1) := by
      intro hc
      refine isHeap_congr
        (isHeap_mono (hheap.left_sub (by omega)) (by omega)) ?_
      intro j hd hj
      have hj1 : 2*0+1 ≤ j := hd.le
      exact hl2other j (by omega) (by omega)
    have hH2 : 2*0+2 < i → IsHeap (keyLess key) (lswap l 0 i) i (2*0+2) := by
      intro hc
      refine isHeap_congr
        (isHeap_mono (hheap.right_sub (by omega)) (by omega)) ?_
      intro j hd hj
      have hj1 : 2*0+2 ≤ j := hd.le
      exact hl2other j (by omega) (by omega)
    obtain ⟨sC1, sC2, sC3, _⟩ := siftDownAux_spec key (lswap l 0 i) 0
      (by rw [hl2len]; omega) hH1 hH2
    have hs_tail : ∀ k, i ≤ k →
        (siftDownAux (keyLess key) (lswap l 0 i) i 0 0)[k]? =
          (lswap l 0 i)[k]? :=
      fun k hk => sC2 k (Or.inr hk)
    have hslen : (siftDownAux (keyLess key) (lswap l 0 i) i 0 0).length =
        l.length := by
      rw [sC1, hl2len]
    have htail2 : listSeg (siftDownAux (keyLess key) (lswap l 0 i) i 0 0)
        i l.length = v0 :: listSeg l (i+1) l.length := by
      have h1 : (siftDownAux (keyLess key) (lswap l 0 i) i 0 0)[i]? =
          some v0 := by
        rw [hs_tail i (Nat.le_refl _)]
        exact hl2i
      rw [listSeg_cons_of_getElem h1 l.length hi1]
      congr 1
      refine listSeg_congr_of_pointwise hslen ?_
      intro k hk _
      rw [hs_tail k (by omega)]
      exact hl2other k (by omega) (by omega)
    have hperm_s_l2 : List.Perm
        (siftDownAux (keyLess key) (lswap l 0 i) i 0 0) (lswap l 0 i) :=
      siftDownLoop_perm (keyLess key) i 0 (i - 0) 0 (lswap l 0 i)
    have hframed_s_l2 : framed (lswap l 0 i)
        (siftDownAux (keyLess key) (lswap l 0 i) i 0 0) 0 i :=
      ⟨sC1, rfl, drop_eq_of_pointwise sC1 hs_tail⟩
    have hheadperm : List.Perm
        (listSeg (siftDownAux (keyLess key) (lswap l 0 i) i 0 0) 0 i)
        (listSeg (lswap l 0 i) 0 i) :=
      perm_listSeg_of_framed hframed_s_l2 hperm_s_l2 (Nat.zero_le i)
    have hframed_l_l2 : framed l (lswap l 0 i) 0 (i+1) :=
      ⟨hl2len, rfl, drop_eq_of_pointwise hl2len
        (fun k hk => hl2other k (by omega) (by omega))⟩
    have hl2perm : List.Perm (listSeg (lswap l 0 i) 0 (i+1))
        (listSeg l 0 (i+1)) :=
      perm_listSeg_of_framed hframed_l_l2 (lswap_perm l 0 i) (by omega)
    have hmem_head : ∀ x ∈
        listSeg (siftDownAux (keyLess key) (lswap l 0 i) i 0 0) 0 i,
        ∃ k, k < i+1 ∧ l[k]? = some x := by
      intro x hx
      have h1 : x ∈ listSeg (lswap l 0 i) 0 i := hheadperm.mem_iff.1 hx
      have h2 : x ∈ listSeg (lswap l 0 i) 0 (i+1) :=
        mem_listSeg_mono h1 (by omega)
      have h3 : x ∈ listSeg l 0 (i+1) := hl2perm.mem_iff.1 h2
      rw [mem_listSeg] at h3
      obtain ⟨k, _, hk2, hk3⟩ := h3
      exact ⟨k, hk2, hk3⟩
    have hdom : ∀ k, k < i+1 → lless (keyLess key) l 0 k = false :=
      fun k hk => isHeap_dominates key (by omega) hheap k (desc_zero k) hk
    have hv0max : ∀ x, (∃ k, k < i+1 ∧ l[k]? = some x) →
        keyLess key v0 x = false := by
      rintro x ⟨k, hk, hkx⟩
      have h2 := hdom k hk
      rwa [lless_eq_of_some _ hv0 hkx] at h2
    have hmem_l01 : ∀ x, (∃ k, k < i+1 ∧ l[k]? = some x) →
        x ∈ listSeg l 0 (i+1) := by
      rintro x ⟨k, hk, hkx⟩
      rw [mem_listSeg]
      exact ⟨k, Nat.zero_le k, hk, hkx⟩
    have hrec_sort : SortedLt (keyLess key)
        (listSeg (siftDownAux (keyLess key) (lswap l 0 i) i 0 0) i
          l.length) := by
      rw [htail2]
      refine List.pairwise_cons.2 ⟨?_, hsort⟩
      intro y hy
      have hv0mem : v0 ∈ listSeg l 0 (i+1) := hmem_l01 v0 ⟨0, by omega, hv0⟩
      have h2 := hcross v0 hv0mem y hy
      simp [h2]
    have hrec_cross : ∀ x ∈
        listSeg (siftDownAux (keyLess key) (lswap l 0 i) i 0 0) 0 i,
        ∀ y ∈ listSeg (siftDownAux (keyLess key) (lswap l 0 i) i 0 0) i
          l.length, keyLess key y x = false := by
      intro x hx y hy
      have hxk := hmem_head x hx
      rw [htail2] at hy
      rcases List.mem_cons.1 hy with rfl | hy2
      · exact hv0max x hxk
      · exact hcross x (hmem_l01 x hxk) y hy2
    obtain ⟨pC1, pC2⟩ := ih (siftDownAux (keyLess key) (lswap l 0 i) i 0 0)
      (by rw [hslen]; omega) sC3
      (by
        rw [show (siftDownAux (keyLess key) (lswap l 0 i) i 0 0).length =
          l.length from hslen]
        exact hrec_sort)
      (by
        rw [show (siftDownAux (keyLess key) (lswap l 0 i) i 0 0).length =
          l.length from hslen]
        exact hrec_cross)
    have e : popLoop (keyLess key) 0 (i+1) l = popLoop (keyLess key) 0 i
        (siftDownAux (keyLess key) (lswap l 0 i) i 0 0) := by
      rw [popLoop]
      simp only [Nat.zero_add]
    rw [e]
    exact ⟨by rw [pC1, hslen], pC2⟩


/-! ## heapSort, assembled and localized to its range -/

theorem listSeg_decomp {α : Type} (pre X suf : List α) :
    listSeg (pre ++ X ++ suf) pre.length (pre.length + X.length) = X := by
  unfold listSeg
  rw [List.append_assoc, List.take_append_eq_append_take,
    List.take_of_length_le (by simp),
    show pre.length + X.length - pre.length = X.length from by omega,
    List.take_append_eq_append_take,
    List.take_of_length_le (by simp),
    show X.length - X.length = 0 from by omega,
    List.take_zero, List.append_nil, List.drop_left]

theorem siftDownLoop_length {α : Type} (lt : α → α → Bool)
    (hi first : Nat) :
    ∀ fuel root (l : List α),
      (siftDownLoop lt hi first fuel root l).length = l.length := by
  intro fuel
  induction fuel with
  | zero => intro root l; rfl
  | succ fuel ih =>
    intro root l
    rw [siftDownLoop]
    simp only []
    repeat' split
    all_goals first
      | rw [ih, lswap_length]
      | rfl

theorem heapifyLoop_length {α : Type} (lt : α → α → Bool)
    (hi first : Nat) :
    ∀ k (l : List α), (heapifyLoop lt hi first k l).length = l.length := by
  intro k
  induction k with
  | zero => intro l; rfl
  | succ k ih =>
    intro l
    rw [heapifyLoop, ih]
    unfold siftDownAux
    rw [siftDownLoop_length]

theorem siftDownLoop_local {α : Type} (lt : α → α → Bool)
    (pre : List α) {hi : Nat} :
    ∀ fuel root (mid suf : List α), hi ≤ mid.length →
      siftDownLoop lt hi pre.length fuel root (pre ++ mid ++ suf) =
        pre ++ siftDownLoop lt hi 0 fuel root mid ++ suf := by
  intro fuel
  induction fuel with
  | zero => intro root mid suf _; rfl
  | succ fuel ih =>
    intro root mid suf hmid
    rw [siftDownLoop, siftDownLoop]
    simp only [Nat.zero_add]
    by_cases hchild : 2*root+1 < hi
    · rw [if_pos hchild, if_pos hchild]
      have hroot : root < hi := by omega
      by_cases hc2 : 2*root+1+1 < hi
      · have hll : lless lt (pre ++ mid ++ suf) (pre.length + (2*root+1))
            (pre.length + (2*root+1) + 1) =
            lless lt mid (2*root+1) (2*root+1+1) := by
          rw [show pre.length + (2*root+1) + 1 =
            pre.length + (2*root+1+1) from rfl]
          exact lless_local lt pre mid suf _ _ (by omega) (by omega)
        rw [hll]
        by_cases hsw : lless lt mid (2*root+1) (2*root+1+1) = true
        · rw [if_pos (And.intro hc2 hsw),
            lless_local lt pre mid suf root (2*root+1+1) (by omega)
              (by omega)]
          by_cases hs2 : lless lt mid root (2*root+1+1) = true
          · rw [if_pos hs2, if_pos hs2,
              lswap_local pre mid suf root (2*root+1+1) (by omega)
                (by omega)]
            exact ih _ _ suf (by rw [lswap_length]; exact hmid)
          · rw [if_neg hs2, if_neg hs2]
        · have hcneg : ¬ (2*root+1+1 < hi ∧
              lless lt mid (2*root+1) (2*root+1+1) = true) :=
            fun hco => hsw hco.2
          rw [if_neg hcneg,
            lless_local lt pre mid suf root (2*root+1) (by omega)
              (by omega)]
          by_cases hs2 : lless lt mid root (2*root+1) = true
          · rw [if_pos hs2, if_pos hs2,
              lswap_local pre mid suf root (2*root+1) (by omega) (by omega)]
            exact ih _ _ suf (by rw [lswap_length]; exact hmid)
          · rw [if_neg hs2, if_neg hs2]
      · have hcnegL : ¬ (2*root+1+1 < hi ∧
            lless lt (pre ++ mid ++ suf) (pre.length + (2*root+1))
              (pre.length + (2*root+1) + 1) = true) :=
          fun hco => hc2 hco.1
        have hcnegR : ¬ (2*root+1+1 < hi ∧
            lless lt mid (2*root+1) (2*root+1+1) = true) :=
          fun hco => hc2 hco.1
        rw [if_neg hcnegL, if_neg hcnegR,
          lless_local lt pre mid suf root (2*root+1) (by omega) (by omega)]
        by_cases hs2 : lless lt mid root (2*root+1) = true
        · rw [if_pos hs2, if_pos hs2,
            lswap_local pre mid suf root (2*root+1) (by omega) (by omega)]
          exact ih _ _ suf (by rw [lswap_length]; exact hmid)
        · rw [if_neg hs2, if_neg hs2]
    · rw [if_neg hchild, if_neg hchild]

theorem siftDownAux_local {α : Type} (lt : α → α → Bool) (pre : List α)
    {hi : Nat} (mid suf : List α) (root : Nat) (hmid : hi ≤ mid.length) :
    siftDownAux lt (pre ++ mid ++ suf) hi pre.length root =
      pre ++ siftDownAux lt mid hi 0 root ++ suf :=
  siftDownLoop_local lt pre (hi - root) root mid suf hmid

theorem heapifyLoop_local {α : Type} (lt : α → α → Bool) (pre : List α)
    {hi : Nat} :
    ∀ k (mid suf : List α), hi ≤ mid.length →
      heapifyLoop lt hi pre.length k (pre ++ mid ++ suf) =
        pre ++ heapifyLoop lt hi 0 k mid ++ suf := by
  intro k
  induction k with
  | zero => intro mid suf _; rfl
  | succ k ih =>
    intro mid suf hmid
    rw [heapifyLoop, heapifyLoop,
      siftDownAux_local lt pre mid suf k hmid]
    refine ih (siftDownAux lt mid hi 0 k) suf ?_
    unfold siftDownAux
    rw [siftDownLoop_length]
    exact hmid

theorem lswap_local0 {α : Type} (pre mid suf : List α) (i : Nat)
    (hi : i < mid.length) :
    lswap (pre ++ mid ++ suf) pre.length (pre.length + i) =
      pre ++ lswap mid 0 i ++ suf := by
  have h := lswap_local pre mid suf 0 i (by omega) hi
  rw [Nat.add_zero] at h
  exact h

theorem popLoop_local {α : Type} (lt : α → α → Bool) (pre : List α) :
    ∀ k (mid suf : List α), k ≤ mid.length →
      popLoop lt pre.length k (pre ++ mid ++ suf) =
        pre ++ popLoop lt 0 k mid ++ suf := by
  intro k
  induction k with
  | zero => intro mid suf _; rfl
  | succ k ih =>
    intro mid suf hk
    rw [popLoop, popLoop]
    simp only [Nat.zero_add]
    rw [lswap_local0 pre mid suf k (by omega),
      siftDownAux_local lt pre (lswap mid 0 k) suf 0
        (by rw [lswap_length]; omega)]
    refine ih (siftDownAux lt (lswap mid 0 k) k 0 0) suf ?_
    unfold siftDownAux
    rw [siftDownLoop_length, lswap_length]
    omega

theorem heapSort_local_core {α : Type} (lt : α → α → Bool)
    (pre mid suf : List α) :
    heapSort lt (pre ++ mid ++ suf) pre.length (pre.length + mid.length) =
      pre ++ heapSort lt mid 0 mid.length ++ suf := by
  unfold heapSort
  rw [Nat.add_sub_cancel_left, Nat.sub_zero,
    heapifyLoop_local lt pre _ mid suf (Nat.le_refl _),
    popLoop_local lt pre mid.length _ suf
      (by rw [heapifyLoop_length])]

theorem heapSort_local {α : Type} (lt : α → α → Bool) (l : List α)
    (a b : Nat) (hab : a ≤ b) (hb : b ≤ l.length) :
    heapSort lt l a b =
      l.take a ++ heapSort lt (listSeg l a b) 0 (b - a) ++ l.drop b := by
  have hpre : (l.take a).length = a := by
    simp
    omega
  have hseg : (listSeg l a b).length = b - a := length_listSeg l a b hb
  have hsum : (l.take a).length + (listSeg l a b).length = b := by
    rw [hpre, hseg]
    omega
  have e1 : heapSort lt l a b =
      heapSort lt (l.take a ++ listSeg l a b ++ l.drop b) (l.take a).length
        ((l.take a).length + (listSeg l a b).length) := by
    rw [hsum, hpre, ← take_append_seg_drop l a b hab]
  rw [e1, heapSort_local_core, hseg]

/-! ## heapSort sorts -/

theorem heapSort0_spec {α κ : Type} [LinearOrder κ] (key : α → κ)
    (mid : List α) :
    (heapSort (keyLess key) mid 0 mid.length).length = mid.length ∧
    SortedLt (keyLess key) (heapSort (keyLess key) mid 0 mid.length) := by
  unfold heapSort
  rw [Nat.sub_zero]
  have hstart : ∀ r, (mid.length - 1) / 2 + 1 ≤ r →
      IsHeap (keyLess key) mid mid.length r := by
    intro r hr
    exact isHeap_of_no_child _ _ _ _ (by omega)
  obtain ⟨hL, _, hH⟩ := heapifyLoop_spec key ((mid.length - 1) / 2 + 1) mid
    (Nat.le_refl _) hstart
  have hnil : listSeg
      (heapifyLoop (keyLess key) mid.length 0 ((mid.length - 1) / 2 + 1) mid)
      mid.length
      (heapifyLoop (keyLess key) mid.length 0
        ((mid.length - 1) / 2 + 1) mid).length = [] :=
    listSeg_eq_nil _ _ _ (by rw [hL])
  obtain ⟨pL, pS⟩ := popLoop_spec key mid.length
    (heapifyLoop (keyLess key) mid.length 0 ((mid.length - 1) / 2 + 1) mid)
    (by rw [hL]) (hH 0)
    (by rw [hnil]; exact List.Pairwise.nil)
    (by
      intro x _ y hy
      rw [hnil] at hy
      exact absurd hy (List.not_mem_nil y))
  exact ⟨by rw [pL, hL], pS⟩

theorem heapSort_seg_spec {α κ : Type} [LinearOrder κ] (key : α → κ)
    (l : List α) (a b : Nat) (hab : a ≤ b) (hb : b ≤ l.length) :
    framed l (heapSort (keyLess key) l a b) a b ∧
    SortedLt (keyLess key) (listSeg (heapSort (keyLess key) l a b) a b) := by
  have hpre : (l.take a).length = a := by
    simp
    omega
  have hseg : (listSeg l a b).length = b - a := length_listSeg l a b hb
  have h0 := heapSort0_spec key (listSeg l a b)
  have hbm : heapSort (keyLess key) (listSeg l a b) 0 (b - a) =
      heapSort (keyLess key) (listSeg l a b) 0 (listSeg l a b).length := by
    rw [hseg]
  rw [heapSort_local (keyLess key) l a b hab hb, hbm]
  have hXlen : (heapSort (keyLess key) (listSeg l a b) 0
      (listSeg l a b).length).length = b - a := by
    rw [h0.1, hseg]
  have hsum : (l.take a).length + (heapSort (keyLess key) (listSeg l a b) 0
      (listSeg l a b).length).length = b := by
    rw [hpre, hXlen]
    omega
  have hdseg := listSeg_decomp (l.take a)
    (heapSort (keyLess key) (listSeg l a b) 0 (listSeg l a b).length)
    (l.drop b)
  rw [hsum, hpre] at hdseg
  refine ⟨⟨?_, ?_, ?_⟩, ?_⟩
  · simp only [List.length_append, hpre, hXlen, List.length_drop]
    omega
  · rw [List.append_assoc]
    exact List.take_left' hpre
  · refine List.drop_left' ?_
    simp only [List.length_append, hpre, hXlen]
    omega
  · rw [hdseg]
    exact h0.2

/-! ## partialInsertionSort -/

theorem take_eq_of_pointwise {α : Type} {l r : List α} {a : Nat}
    (h : ∀ k, k < a → r[k]? = l[k]?) : r.take a = l.take a := by
  apply List.ext_getElem?
  intro k
  by_cases hk : k < a
  · rw [List.getElem?_take, List.getElem?_take, if_pos hk, if_pos hk,
      h k hk]
  · rw [List.getElem?_take, List.getElem?_take, if_neg hk, if_neg hk]

theorem sortedLt_of_adjacent {α κ : Type} [LinearOrder κ] (key : α → κ)
    (l : List α) (a b : Nat) (hb : b ≤ l.length)
    (h : ∀ k, a + 1 ≤ k → k < b → ¬ lless (keyLess key) l k (k-1) = true) :
    SortedLt (keyLess key) (listSeg l a b) := by
  unfold SortedLt
  haveI hTr : IsTrans α (fun u v => ¬ keyLess key v u = true) := by
    refine ⟨fun x y z hxy hyz => ?_⟩
    intro hzx
    rw [keyLess_negtrans key (bool_eq_false_of_ne_true hyz)
      (bool_eq_false_of_ne_true hxy)] at hzx
    exact Bool.noConfusion hzx
  rcases Nat.lt_or_ge a b with hab | hab
  · rw [← List.chain'_iff_pairwise]
    apply List.chain'_iff_get.2
    intro i hi
    have hlen : (listSeg l a b).length = b - a := length_listSeg l a b hb
    rw [hlen] at hi
    have e1 : (listSeg l a b)[i]? = l[a+i]? :=
      getElem?_listSeg l a b i (by omega)
    have e2 : (listSeg l a b)[i+1]? = l[a+i+1]? := by
      rw [show a+i+1 = a+(i+1) from by omega]
      exact getElem?_listSeg l a b (i+1) (by omega)
    have g1 : (listSeg l a b)[i]? =
        some ((listSeg l a b).get ⟨i, by omega⟩) := by
      simp [List.getElem?_eq_getElem]
    have g2 : (listSeg l a b)[i+1]? =
        some ((listSeg l a b).get ⟨i+1, by omega⟩) := by
      simp [List.getElem?_eq_getElem]
    have hx1 : l[a+i]? = some ((listSeg l a b).get ⟨i, by omega⟩) := by
      rw [← e1]
      exact g1
    have hx2 : l[a+i+1]? = some ((listSeg l a b).get ⟨i+1, by omega⟩) := by
      rw [← e2]
      exact g2
    intro hk
    refine h (a+i+1) (by omega) (by omega) ?_
    rw [show a+i+1-1 = a+i from by omega,
      lless_eq_of_some (keyLess key) hx2 hx1]
    exact hk
  · rw [listSeg_eq_nil l a b (by omega)]
    exact List.Pairwise.nil

theorem pisScan_spec {α : Type} (lt : α → α → Bool) (l : List α) (b : Nat) :
    ∀ fuel i, i ≤ b → b ≤ i + fuel →
      i ≤ pisScan lt l b fuel i ∧ pisScan lt l b fuel i ≤ b ∧
      (∀ k, i ≤ k → k < pisScan lt l b fuel i →
        ¬ lless lt l k (k-1) = true) ∧
      (pisScan lt l b fuel i < b →
        lless lt l (pisScan lt l b fuel i) (pisScan lt l b fuel i - 1)
          = true) := by
  intro fuel
  induction fuel with
  | zero =>
    intro i hib hbi
    rw [show pisScan lt l b 0 i = i from rfl]
    refine ⟨Nat.le_refl _, hib, ?_, ?_⟩
    · intro k h1 h2
      exact absurd (Nat.lt_of_le_of_lt h1 h2) (by omega)
    · intro hlt
      exact absurd hlt (by omega)
  | succ fuel ih =>
    intro i hib hbi
    rw [pisScan]
    by_cases hc : i < b ∧ ¬ lless lt l i (i-1) = true
    · rw [if_pos hc]
      obtain ⟨r1, r2, r3, r4⟩ := ih (i+1) (by omega) (by omega)
      refine ⟨by omega, r2, ?_, r4⟩
      intro k h1 h2
      rcases Nat.eq_or_lt_of_le h1 with heq | h1p
      · rw [← heq]
        exact hc.2
      · exact r3 k h1p h2
    · rw [if_neg hc]
      refine ⟨Nat.le_refl _, hib, ?_, ?_⟩
      · intro k h1 h2
        exact absurd (Nat.lt_of_le_of_lt h1 h2) (by omega)
      · intro hlt
        by_cases h5 : lless lt l i (i-1) = true
        · exact h5
        · exact absurd ⟨hlt, h5⟩ hc

theorem pisShiftLeft_spec {α κ : Type} [LinearOrder κ] (key : α → κ)
    (a : Nat) :
    ∀ q (m : List α), a ≤ q →
      (a ≥ 1 → ∀ v w, m[a-1]? = some v → m[q]? = some w →
        keyLess key w v = false) →
      (∀ k, a+1 ≤ k → k < q → ¬ lless (keyLess key) m k (k-1) = true) →
      (∀ k, k < a → (pisShiftLeft (keyLess key) q m)[k]? = m[k]?) ∧
      (∀ k, q < k → (pisShiftLeft (keyLess key) q m)[k]? = m[k]?) ∧
      (∀ k, a+1 ≤ k → k ≤ q →
        ¬ lless (keyLess key) (pisShiftLeft (keyLess key) q m) k (k-1)
          = true) ∧
      ((pisShiftLeft (keyLess key) q m)[q]? = m[q]? ∨
        (a+1 ≤ q ∧ (pisShiftLeft (keyLess key) q m)[q]? = m[q-1]?)) := by
  intro q
  induction q with
  | zero =>
    intro m ha hx hbelow
    exact ⟨fun k _ => rfl, fun k _ => rfl,
      fun k h1 h2 => absurd (Nat.le_trans h1 h2) (by omega), Or.inl rfl⟩
  | succ q ih =>
    intro m ha hx hbelow
    rw [pisShiftLeft]
    by_cases g : lless (keyLess key) m (q+1) q = true
    · rw [if_pos g]
      obtain ⟨x, y, hxm, hym, hxy⟩ := lless_true_elim _ g
      have haq : a ≤ q := by
        by_contra hcon
        have h2 := hx (by omega) y x
          (by rw [show a - 1 = q from by omega]; exact hym) hxm
        rw [h2] at hxy
        exact Bool.noConfusion hxy
      have hq2 : (lswap m (q+1) q)[q]? = m[q+1]? := by
        rw [getElem?_lswap_snd m (q+1) q hxm hym, hxm]
      have hq1 : (lswap m (q+1) q)[q+1]? = m[q]? := by
        rw [getElem?_lswap_fst m (q+1) q hxm hym, hym]
      have hother : ∀ k, k ≠ q → k ≠ q+1 → (lswap m (q+1) q)[k]? = m[k]? :=
        fun k h1 h2 => getElem?_lswap_other m (q+1) q k h2 h1
      obtain ⟨d1, d2, d3, d4⟩ := ih (lswap m (q+1) q) haq
        (by
          intro ha1 v w hv hw
          refine hx ha1 v w ?_ ?_
          · rw [← hv, hother (a-1) (by omega) (by omega)]
          · rw [← hw, hq2]
        )
        (by
          intro k h1 h2
          rw [lless_congr _ (hother k (by omega) (by omega))
            (hother (k-1) (by omega) (by omega))]
          exact hbelow k h1 (by omega))
      refine ⟨?_, ?_, ?_, ?_⟩
      · intro k hk
        rw [d1 k hk, hother k (by omega) (by omega)]
      · intro k hk
        rw [d2 k (by omega), hother k (by omega) (by omega)]
      · intro k h1 h2
        rcases Nat.lt_or_ge k (q+1) with hk | hk
        · exact d3 k h1 (by omega)
        · have hkeq : k = q+1 := by omega
          rw [hkeq, Nat.add_sub_cancel]
          have hr1 : (pisShiftLeft (keyLess key) q (lswap m (q+1) q))[q+1]?
              = some y := by
            rw [d2 (q+1) (by omega), hq1, hym]
          rcases d4 with hc | hc
          · have hr0 : (pisShiftLeft (keyLess key) q
                (lswap m (q+1) q))[q]? = some x := by
              rw [hc, hq2, hxm]
            intro hpair
            rw [lless_eq_of_some (keyLess key) hr1 hr0,
              keyLess_asymm_false key hxy] at hpair
            exact Bool.noConfusion hpair
          · obtain ⟨haq1, hc⟩ := hc
            have hq0 : (lswap m (q+1) q)[q-1]? = m[q-1]? :=
              hother (q-1) (by omega) (by omega)
            intro hpair
            rw [show lless (keyLess key)
                (pisShiftLeft (keyLess key) q (lswap m (q+1) q)) (q+1) q =
                lless (keyLess key) m q (q-1) from by
              unfold lless
              rw [d2 (q+1) (by omega), hq1, hc, hq0]] at hpair
            exact hbelow q haq1 (by omega) hpair
      · rw [d2 (q+1) (by omega), hq1]
        exact Or.inr ⟨by omega, rfl⟩
    · rw [if_neg g]
      refine ⟨fun k _ => rfl, fun k _ => rfl, ?_, Or.inl rfl⟩
      intro k h1 h2
      rcases Nat.lt_or_ge k (q+1) with hk | hk
      · exact hbelow k h1 (by omega)
      · have hkeq : k = q+1 := by omega
        rw [hkeq, Nat.add_sub_cancel]
        exact g

theorem pisShiftRight_frame {α : Type} (lt : α → α → Bool) (b : Nat) :
    ∀ n j (m : List α), 1 ≤ j →
      (∀ k, k < j - 1 → (pisShiftRight lt b n j m)[k]? = m[k]?) ∧
      (∀ k, b ≤ k → (pisShiftRight lt b n j m)[k]? = m[k]?) := by
  intro n
  induction n with
  | zero =>
    intro j m hj
    exact ⟨fun k _ => rfl, fun k _ => rfl⟩
  | succ n ih =>
    intro j m hj
    rw [pisShiftRight]
    by_cases hc : j < b
    · rw [if_pos hc]
      by_cases hs : lless lt m j (j-1) = true
      · rw [if_pos hs]
        have hother : ∀ k, k ≠ j → k ≠ j - 1 →
            (lswap m j (j-1))[k]? = m[k]? :=
          fun k h1 h2 => getElem?_lswap_other m j (j-1) k h1 h2
        obtain ⟨d1, d2⟩ := ih (j+1) (lswap m j (j-1)) (by omega)
        constructor
        · intro k hk
          rw [d1 k (by omega), hother k (by omega) (by omega)]
        · intro k hk
          rw [d2 k hk, hother k (by omega) (by omega)]
      · rw [if_neg hs]
        exact ⟨fun k _ => rfl, fun k _ => rfl⟩
    · rw [if_neg hc]
      exact ⟨fun k _ => rfl, fun k _ => rfl⟩

theorem partialInsertionSortLoop_spec {α κ : Type} [LinearOrder κ]
    (key : α → κ) (a b : Nat) :
    ∀ steps i (l : List α), a + 1 ≤ i → i ≤ b → b ≤ l.length →
      (a ≥ 1 → ∀ v, l[a-1]? = some v → ∀ w, w ∈ listSeg l a b →
        keyLess key w v = false) →
      (∀ k, a+1 ≤ k → k < i → ¬ lless (keyLess key) l k (k-1) = true) →
      (partialInsertionSortLoop (keyLess key) a b steps i l).2.length
        = l.length ∧
      (∀ k, k < a →
        (partialInsertionSortLoop (keyLess key) a b steps i l).2[k]?
          = l[k]?) ∧
      (∀ k, b ≤ k →
        (partialInsertionSortLoop (keyLess key) a b steps i l).2[k]?
          = l[k]?) ∧
      ((partialInsertionSortLoop (keyLess key) a b steps i l).1 = true →
        SortedLt (keyLess key)
          (listSeg (partialInsertionSortLoop (keyLess key) a b steps i l).2
            a b)) := by
  intro steps
  induction steps with
  | zero =>
    intro i l h1 h2 h3 hsent hadj
    exact ⟨rfl, fun k _ => rfl, fun k _ => rfl,
      fun hf => Bool.noConfusion hf⟩
  | succ steps ih =>
    intro i l h1 h2 h3 hsent hadj
    rw [partialInsertionSortLoop]
    simp only []
    obtain ⟨s1, s2, s3, s4⟩ := pisScan_spec (keyLess key) l b (b - i) i h2
      (by omega)
    set i2 := pisScan (keyLess key) l b (b - i) i with hi2
    have hi2a : a + 1 ≤ i2 := by omega
    have hadj2 : ∀ k, a+1 ≤ k → k < i2 →
        ¬ lless (keyLess key) l k (k-1) = true := by
      intro k hk1 hk2
      rcases Nat.lt_or_ge k i with hk | hk
      · exact hadj k hk1 hk
      · exact s3 k hk hk2
    by_cases hib : i2 = b
    · rw [if_pos hib]
      refine ⟨rfl, fun k _ => rfl, fun k _ => rfl, fun _ => ?_⟩
      exact sortedLt_of_adjacent key l a b h3
        (fun k hk1 hk2 => hadj2 k hk1 (by omega))
    · rw [if_neg hib]
      by_cases h50 : b - a < 50
      · rw [if_pos h50]
        exact ⟨rfl, fun k _ => rfl, fun k _ => rfl,
          fun hf => Bool.noConfusion hf⟩
      · rw [if_neg h50]
        have hi2b : i2 < b := by omega
        have hdesc : lless (keyLess key) l i2 (i2-1) = true := s4 hi2b
        obtain ⟨x, y, hx2, hy2, hxy⟩ := lless_true_elim _ hdesc
        have hl1other : ∀ k, k ≠ i2 → k ≠ i2 - 1 →
            (lswap l i2 (i2-1))[k]? = l[k]? :=
          fun k hk1 hk2 => getElem?_lswap_other l i2 (i2-1) k hk1 hk2
        have hl1hole : (lswap l i2 (i2-1))[i2-1]? = some x := by
          rw [getElem?_lswap_snd l i2 (i2-1) hx2 hy2]
        have hl1len : (lswap l i2 (i2-1)).length = l.length :=
          lswap_length l i2 (i2-1)
        have hl1perm : List.Perm (lswap l i2 (i2-1)) l :=
          lswap_perm l i2 (i2-1)
        have main : ∀ l3 : List α, l3.length = l.length →
            (∀ k, k < a → l3[k]? = l[k]?) →
            (∀ k, b ≤ k → l3[k]? = l[k]?) →
            (∀ k, a+1 ≤ k → k < i2 →
              ¬ lless (keyLess key) l3 k (k-1) = true) →
            List.Perm l3 l →
            (partialInsertionSortLoop (keyLess key) a b steps i2 l3).2.length
              = l.length ∧
            (∀ k, k < a →
              (partialInsertionSortLoop (keyLess key) a b steps i2 l3).2[k]?
                = l[k]?) ∧
            (∀ k, b ≤ k →
              (partialInsertionSortLoop (keyLess key) a b steps i2 l3).2[k]?
                = l[k]?) ∧
            ((partialInsertionSortLoop (keyLess key) a b steps i2 l3).1
                = true →
              SortedLt (keyLess key)
                (listSeg
                  (partialInsertionSortLoop (keyLess key) a b steps i2 l3).2
                  a b)) := by
          intro l3 Len3 F3a F3b A3 hperm
          have hfr : framed l l3 a b :=
            ⟨Len3, take_eq_of_pointwise F3a, drop_eq_of_pointwise Len3 F3b⟩
          have hsent3 : a ≥ 1 → ∀ v, l3[a-1]? = some v →
              ∀ w, w ∈ listSeg l3 a b → keyLess key w v = false := by
            intro ha1 v hv w hw
            refine hsent ha1 v ?_ w ?_
            · rw [← hv, F3a (a-1) (by omega)]
            · exact (perm_listSeg_of_framed hfr hperm (by omega)).mem_iff.1
                hw
          obtain ⟨R1, R2, R3, R4⟩ := ih i2 l3 hi2a (by omega)
            (by rw [Len3]; exact h3) hsent3 A3
          exact ⟨R1.trans Len3, fun k hk => (R2 k hk).trans (F3a k hk),
            fun k hk => (R3 k hk).trans (F3b k hk), R4⟩
        by_cases hL : i2 - a ≥ 2
        · rw [if_pos hL]
          obtain ⟨L1, L2, L3, _⟩ := pisShiftLeft_spec key a (i2-1)
            (lswap l i2 (i2-1)) (by omega)
            (by
              intro ha1 v w hv hw
              have hveq : l[a-1]? = some v := by
                rw [← hv, hl1other (a-1) (by omega) (by omega)]
              have hweq : w = x := by
                rw [hl1hole] at hw
                exact (Option.some.inj hw).symm
              rw [hweq]
              exact hsent ha1 v hveq x
                ((mem_listSeg l a b x).2 ⟨i2, by omega, hi2b, hx2⟩))
            (by
              intro k hk1 hk2
              rw [lless_congr _ (hl1other k (by omega) (by omega))
                (hl1other (k-1) (by omega) (by omega))]
              exact hadj2 k hk1 (by omega))
          have F2a : ∀ k, k < a →
              (pisShiftLeft (keyLess key) (i2-1) (lswap l i2 (i2-1)))[k]?
                = l[k]? :=
            fun k hk => (L1 k hk).trans (hl1other k (by omega) (by omega))
          have F2b : ∀ k, b ≤ k →
              (pisShiftLeft (keyLess key) (i2-1) (lswap l i2 (i2-1)))[k]?
                = l[k]? :=
            fun k hk => (L2 k (by omega)).trans
              (hl1other k (by omega) (by omega))
          have A2 : ∀ k, a+1 ≤ k → k < i2 →
              ¬ lless (keyLess key)
                (pisShiftLeft (keyLess key) (i2-1) (lswap l i2 (i2-1)))
                k (k-1) = true :=
            fun k hk1 hk2 => L3 k hk1 (by omega)
          have Len2 : (pisShiftLeft (keyLess key) (i2-1)
              (lswap l i2 (i2-1))).length = l.length :=
            ((pisShiftLeft_perm _ _ _).length_eq).trans hl1len
          have Perm2 : List.Perm
              (pisShiftLeft (keyLess key) (i2-1) (lswap l i2 (i2-1))) l :=
            (pisShiftLeft_perm _ _ _).trans hl1perm
          by_cases hR : b - i2 ≥ 2
          · rw [if_pos hR]
            obtain ⟨P1, P2⟩ := pisShiftRight_frame (keyLess key) b
              (b-(i2+1)) (i2+1)
              (pisShiftLeft (keyLess key) (i2-1) (lswap l i2 (i2-1)))
              (by omega)
            refine main _ ?_ ?_ ?_ ?_ ?_
            · exact ((pisShiftRight_perm _ _ _ _ _).length_eq).trans Len2
            · exact fun k hk => (P1 k (by omega)).trans (F2a k hk)
            · exact fun k hk => (P2 k hk).trans (F2b k hk)
            · intro k hk1 hk2
              rw [lless_congr _ (P1 k (by omega)) (P1 (k-1) (by omega))]
              exact A2 k hk1 hk2
            · exact (pisShiftRight_perm _ _ _ _ _).trans Perm2
          · rw [if_neg hR]
            exact main _ Len2 F2a F2b A2 Perm2
        · rw [if_neg hL]
          have hi2eq : i2 = a + 1 := by omega
          have F2a : ∀ k, k < a → (lswap l i2 (i2-1))[k]? = l[k]? :=
            fun k hk => hl1other k (by omega) (by omega)
          have F2b : ∀ k, b ≤ k → (lswap l i2 (i2-1))[k]? = l[k]? :=
            fun k hk => hl1other k (by omega) (by omega)
          have A2 : ∀ k, a+1 ≤ k → k < i2 →
              ¬ lless (keyLess key) (lswap l i2 (i2-1)) k (k-1) = true :=
            fun k hk1 hk2 => absurd (Nat.lt_of_le_of_lt hk1 hk2) (by omega)
          by_cases hR : b - i2 ≥ 2
          · rw [if_pos hR]
            obtain ⟨P1, P2⟩ := pisShiftRight_frame (keyLess key) b
              (b-(i2+1)) (i2+1) (lswap l i2 (i2-1)) (by omega)
            refine main _ ?_ ?_ ?_ ?_ ?_
            · exact ((pisShiftRight_perm _ _ _ _ _).length_eq).trans hl1len
            · exact fun k hk => (P1 k (by omega)).trans (F2a k hk)
            · exact fun k hk => (P2 k hk).trans (F2b k hk)
            · intro k hk1 hk2
              rw [lless_congr _ (P1 k (by omega)) (P1 (k-1) (by omega))]
              exact A2 k hk1 hk2
            · exact (pisShiftRight_perm _ _ _ _ _).trans hl1perm
          · rw [if_neg hR]
            exact main _ hl1len F2a F2b A2 hl1perm

theorem partialInsertionSort_spec {α κ : Type} [LinearOrder κ]
    (key : α → κ) (l : List α) (a b : Nat) (hab : a < b)
    (hb : b ≤ l.length)
    (hsent : a ≥ 1 → ∀ v, l[a-1]? = some v → ∀ w, w ∈ listSeg l a b →
      keyLess key w v = false) :
    (partialInsertionSort (keyLess key) l a b).2.length = l.length ∧
    (∀ k, k < a →
      (partialInsertionSort (keyLess key) l a b).2[k]? = l[k]?) ∧
    (∀ k, b ≤ k →
      (partialInsertionSort (keyLess key) l a b).2[k]? = l[k]?) ∧
    ((partialInsertionSort (keyLess key) l a b).1 = true →
      SortedLt (keyLess key)
        (listSeg (partialInsertionSort (keyLess key) l a b).2 a b)) := by
  unfold partialInsertionSort
  exact partialInsertionSortLoop_spec key a b 5 (a+1) l (Nat.le_refl _)
    (by omega) hb hsent
    (fun k hk1 hk2 => absurd (Nat.lt_of_le_of_lt hk1 hk2) (by omega))

/-! ## partition -/

theorem partitionScanI_spec {α : Type} (lt : α → α → Bool) (l : List α)
    (a j : Nat) : ∀ fuel i, j + 1 ≤ i + fuel →
      i ≤ partitionScanI lt l a j fuel i ∧
      (i ≤ j + 1 → partitionScanI lt l a j fuel i ≤ j + 1) ∧
      (∀ k, i ≤ k → k < partitionScanI lt l a j fuel i →
        lless lt l k a = true) ∧
      (partitionScanI lt l a j fuel i ≤ j →
        ¬ lless lt l (partitionScanI lt l a j fuel i) a = true) ∧
      (j < i → partitionScanI lt l a j fuel i = i) := by
  intro fuel
  induction fuel with
  | zero =>
    intro i hf
    rw [show partitionScanI lt l a j 0 i = i from rfl]
    refine ⟨Nat.le_refl _, fun h => by omega, ?_, ?_, fun _ => rfl⟩
    · intro k h1 h2
      exact absurd (Nat.lt_of_le_of_lt h1 h2) (by omega)
    · intro h
      exact absurd h (by omega)
  | succ fuel ih =>
    intro i hf
    rw [partitionScanI]
    by_cases hc : i ≤ j ∧ lless lt l i a = true
    · rw [if_pos hc]
      obtain ⟨r1, r2, r3, r4, _⟩ := ih (i+1) (by omega)
      refine ⟨by omega, fun _ => r2 (by omega), ?_, r4,
        fun h => absurd hc.1 (by omega)⟩
      intro k h1 h2
      rcases Nat.eq_or_lt_of_le h1 with heq | h1p
      · rw [← heq]
        exact hc.2
      · exact r3 k h1p h2
    · rw [if_neg hc]
      refine ⟨Nat.le_refl _, fun h => h, ?_, ?_, fun _ => rfl⟩
      · intro k h1 h2
        exact absurd (Nat.lt_of_le_of_lt h1 h2) (by omega)
      · intro hij
        by_cases h5 : lless lt l i a = true
        · exact absurd ⟨hij, h5⟩ hc
        · exact h5

theorem partitionScanJ_spec {α : Type} (lt : α → α → Bool) (l : List α)
    (a i : Nat) (hi : 1 ≤ i) : ∀ fuel j, j < i + fuel →
      partitionScanJ lt l a i fuel j ≤ j ∧
      (i ≤ j + 1 → i - 1 ≤ partitionScanJ lt l a i fuel j) ∧
      (∀ k, partitionScanJ lt l a i fuel j < k → k ≤ j →
        ¬ lless lt l k a = true) ∧
      (i ≤ partitionScanJ lt l a i fuel j →
        lless lt l (partitionScanJ lt l a i fuel j) a = true) ∧
      (j < i → partitionScanJ lt l a i fuel j = j) := by
  intro fuel
  induction fuel with
  | zero =>
    intro j hf
    rw [show partitionScanJ lt l a i 0 j = j from rfl]
    refine ⟨Nat.le_refl _, fun h => by omega, ?_,
      fun h => absurd h (by omega), fun _ => rfl⟩
    intro k h1 h2
    exact absurd (Nat.lt_of_lt_of_le h1 h2) (by omega)
  | succ fuel ih =>
    intro j hf
    rw [partitionScanJ]
    by_cases hc : i ≤ j ∧ ¬ lless lt l j a = true
    · rw [if_pos hc]
      obtain ⟨r1, r2, r3, r4, _⟩ := ih (j-1) (by omega)
      refine ⟨by omega, fun _ => r2 (by omega), ?_, r4,
        fun h => absurd hc.1 (by omega)⟩
      intro k h1 h2
      rcases Nat.eq_or_lt_of_le h2 with heq | h2p
      · rw [heq]
        exact hc.2
      · exact r3 k h1 (by omega)
    · rw [if_neg hc]
      refine ⟨Nat.le_refl _, fun h => by omega, ?_, ?_, fun _ => rfl⟩
      · intro k h1 h2
        exact absurd (Nat.lt_of_lt_of_le h1 h2) (by omega)
      · intro hij
        by_cases h5 : lless lt l j a = true
        · exact h5
        · exact absurd ⟨hij, h5⟩ hc

theorem partitionLoop_spec {α : Type} (lt : α → α → Bool) (a b : Nat) :
    ∀ fuel i j (l : List α),
      a + 2 ≤ i → i ≤ j + 2 → j < b → j + 2 - i < fuel → b ≤ l.length →
      (∀ k, a+1 ≤ k → k < i → lless lt l k a = true) →
      (∀ k, j < k → k < b → ¬ lless lt l k a = true) →
      a ≤ (partitionLoop lt a fuel i j l).1 ∧
      (partitionLoop lt a fuel i j l).1 < b ∧
      (partitionLoop lt a fuel i j l).2.length = l.length ∧
      (∀ k, k ≤ a → (partitionLoop lt a fuel i j l).2[k]? = l[k]?) ∧
      (∀ k, b ≤ k → (partitionLoop lt a fuel i j l).2[k]? = l[k]?) ∧
      (∀ k, a+1 ≤ k → k ≤ (partitionLoop lt a fuel i j l).1 →
        lless lt (partitionLoop lt a fuel i j l).2 k a = true) ∧
      (∀ k, (partitionLoop lt a fuel i j l).1 < k → k < b →
        ¬ lless lt (partitionLoop lt a fuel i j l).2 k a = true) := by
  intro fuel
  induction fuel with
  | zero =>
    intro i j l h1 h2 h3 hf h4 hLI hRI
    exact absurd hf (by omega)
  | succ fuel ih =>
    intro i j l h1 h2 h3 hf hb hLI hRI
    rw [partitionLoop]
    obtain ⟨sI1, sI2, sI3, sI4, sI5⟩ :=
      partitionScanI_spec lt l a j (j + 1 - i) i (by omega)
    set i2 := partitionScanI lt l a j (j + 1 - i) i with hi2def
    obtain ⟨sJ1, sJ2, sJ3, sJ4, sJ5⟩ :=
      partitionScanJ_spec lt l a i2 (by omega) (j + 1) j (by omega)
    set j2 := partitionScanJ lt l a i2 (j + 1) j with hj2def
    have hLi2 : ∀ k, a+1 ≤ k → k < i2 → lless lt l k a = true := by
      intro k hk1 hk2
      rcases Nat.lt_or_ge k i with hk | hk
      · exact hLI k hk1 hk
      · exact sI3 k hk hk2
    have hRj2 : ∀ k, j2 < k → k < b → ¬ lless lt l k a = true := by
      intro k hk1 hk2
      rcases le_or_lt k j with hk | hk
      · exact sJ3 k hk1 hk
      · exact hRI k hk hk2
    have hpa : a ≤ j2 ∧ i2 ≤ j + 1 ∨ i2 = i ∧ j2 = j := by
      by_cases hc : i ≤ j + 1
      · have g1 := sI2 hc
        have g2 := sJ2 (by omega)
        exact Or.inl ⟨by omega, g1⟩
      · have g1 := sI5 (by omega)
        have g2 := sJ5 (by omega)
        exact Or.inr ⟨g1, g2⟩
    by_cases hbreak : i2 > j2
    · rw [if_pos hbreak]
      refine ⟨by rcases hpa with ⟨u, v⟩ | ⟨u, v⟩ <;> omega, by omega, rfl,
        fun k _ => rfl, fun k _ => rfl, ?_, hRj2⟩
      intro k hk1 hk2
      exact hLi2 k hk1 (by omega)
    · rw [if_neg hbreak]
      have hij : i2 ≤ j2 := by omega
      have hj2j : j2 ≤ j := sJ1
      have hi2i : i ≤ i2 := sI1
      rcases hxi : l[i2]? with _ | xi
      · exact absurd hxi (by
          rw [List.getElem?_eq_getElem (by omega : i2 < l.length)]
          simp)
      rcases hxj : l[j2]? with _ | xj
      · exact absurd hxj (by
          rw [List.getElem?_eq_getElem (by omega : j2 < l.length)]
          simp)
      have hs1 : (lswap l i2 j2)[i2]? = some xj :=
        getElem?_lswap_fst l i2 j2 hxi hxj
      have hs2 : (lswap l i2 j2)[j2]? = some xi :=
        getElem?_lswap_snd l i2 j2 hxi hxj
      have hso : ∀ k, k ≠ i2 → k ≠ j2 → (lswap l i2 j2)[k]? = l[k]? :=
        fun k hk1 hk2 => getElem?_lswap_other l i2 j2 k hk1 hk2
      have hsa : (lswap l i2 j2)[a]? = l[a]? :=
        hso a (by omega) (by omega)
      have hLI2 : ∀ k, a+1 ≤ k → k < i2+1 →
          lless lt (lswap l i2 j2) k a = true := by
        intro k hk1 hk2
        rcases Nat.lt_or_ge k i2 with hk | hk
        · rw [lless_congr lt (hso k (by omega) (by omega)) hsa]
          exact hLi2 k hk1 hk
        · have hkeq : k = i2 := by omega
          rw [hkeq]
          rw [show lless lt (lswap l i2 j2) i2 a = lless lt l j2 a from by
            unfold lless
            rw [hs1, hsa, hxj]]
          exact sJ4 hij
      have hRI2 : ∀ k, j2 - 1 < k → k < b →
          ¬ lless lt (lswap l i2 j2) k a = true := by
        intro k hk1 hk2
        rcases Nat.lt_or_ge j2 k with hk | hk
        · rw [lless_congr lt (hso k (by omega) (by omega)) hsa]
          exact hRj2 k hk hk2
        · have hkeq : k = j2 := by omega
          rw [hkeq]
          rw [show lless lt (lswap l i2 j2) j2 a = lless lt l i2 a from by
            unfold lless
            rw [hs2, hsa, hxi]]
          exact sI4 (by omega)
      obtain ⟨R1, R2, R3, R4, R5, R6, R7⟩ := ih (i2+1) (j2-1) (lswap l i2 j2)
        (by omega) (by omega) (by omega) (by omega)
        (by rw [lswap_length]; exact hb) hLI2 hRI2
      refine ⟨R1, R2, by rw [R3, lswap_length], ?_, ?_, R6, R7⟩
      · intro k hk
        rw [R4 k hk, hso k (by omega) (by omega)]
      · intro k hk
        rw [R5 k hk, hso k (by omega) (by omega)]

theorem partition_spec {α : Type} (lt : α → α → Bool) (l : List α)
    (a b piv : Nat) (hab : a < b) (hb : b ≤ l.length)
    (hp1 : a ≤ piv) (hp2 : piv < b) (pv : α)
    (hpv : (lswap l a piv)[a]? = some pv) :
    a ≤ (partition lt l a b piv).1 ∧ (partition lt l a b piv).1 < b ∧
    (partition lt l a b piv).2.2.length = l.length ∧
    (∀ k, k < a → (partition lt l a b piv).2.2[k]? = l[k]?) ∧
    (∀ k, b ≤ k → (partition lt l a b piv).2.2[k]? = l[k]?) ∧
    (partition lt l a b piv).2.2[(partition lt l a b piv).1]? = some pv ∧
    (∀ k w, a ≤ k → k < (partition lt l a b piv).1 →
      (partition lt l a b piv).2.2[k]? = some w → lt w pv = true) ∧
    (∀ k w, (partition lt l a b piv).1 < k → k < b →
      (partition lt l a b piv).2.2[k]? = some w → lt w pv = false) := by
  unfold partition
  simp only []
  have hl0len : (lswap l a piv).length = l.length := lswap_length l a piv
  have hl0o : ∀ k, k ≠ a → k ≠ piv → (lswap l a piv)[k]? = l[k]? :=
    fun k h1 h2 => getElem?_lswap_other l a piv k h1 h2
  obtain ⟨sI1, sI2, sI3, sI4, sI5⟩ :=
    partitionScanI_spec lt (lswap l a piv) a (b-1) (b - 1 + 1 - (a+1))
      (a+1) (by omega)
  set i2 := partitionScanI lt (lswap l a piv) a (b-1) (b - 1 + 1 - (a+1))
    (a+1) with hi2def
  obtain ⟨sJ1, sJ2, sJ3, sJ4, sJ5⟩ :=
    partitionScanJ_spec lt (lswap l a piv) a i2 (by omega) (b - 1 + 1)
      (b-1) (by omega)
  set j2 := partitionScanJ lt (lswap l a piv) a i2 (b - 1 + 1) (b-1)
    with hj2def
  have hi2b : i2 ≤ b := by
    have := sI2 (by omega)
    omega
  have hpa : a ≤ j2 := by
    have := sJ2 (by omega)
    omega
  have hj2b : j2 ≤ b - 1 := sJ1
  by_cases hbreak : i2 > j2
  · rw [if_pos hbreak]
    rcases hxj : (lswap l a piv)[j2]? with _ | xj
    · exact absurd hxj (by
        rw [List.getElem?_eq_getElem (by omega : j2 < (lswap l a piv).length)]
        simp)
    have hf1 : (lswap (lswap l a piv) j2 a)[j2]? = some pv :=
      getElem?_lswap_fst (lswap l a piv) j2 a hxj hpv
    have hf2 : (lswap (lswap l a piv) j2 a)[a]? = some xj :=
      getElem?_lswap_snd (lswap l a piv) j2 a hxj hpv
    have hfo : ∀ k, k ≠ j2 → k ≠ a →
        (lswap (lswap l a piv) j2 a)[k]? = (lswap l a piv)[k]? :=
      fun k h1 h2 => getElem?_lswap_other (lswap l a piv) j2 a k h1 h2
    refine ⟨hpa, by omega, ?_, ?_, ?_, hf1, ?_, ?_⟩
    · rw [lswap_length, hl0len]
    · intro k hk
      rw [hfo k (by omega) (by omega), hl0o k (by omega) (by omega)]
    · intro k hk
      rw [hfo k (by omega) (by omega), hl0o k (by omega) (by omega)]
    · intro k w hk1 hk2 hw
      rcases Nat.eq_or_lt_of_le hk1 with heq | hlt
      · rw [← heq] at hw
        rw [hf2] at hw
        have hweq : w = xj := (Option.some.inj hw).symm
        rw [hweq]
        have hl := sI3 j2 (by omega) (by omega)
        rw [lless_eq_of_some lt hxj hpv] at hl
        exact hl
      · have hch : (lswap (lswap l a piv) j2 a)[k]? =
            (lswap l a piv)[k]? := hfo k (by omega) (by omega)
        rw [hch] at hw
        have hl := sI3 k (by omega) (by omega)
        rw [lless_eq_of_some lt hw hpv] at hl
        exact hl
    · intro k w hk1 hk2 hw
      have hch : (lswap (lswap l a piv) j2 a)[k]? =
          (lswap l a piv)[k]? := hfo k (by omega) (by omega)
      rw [hch] at hw
      have hl := sJ3 k hk1 (by omega)
      rw [lless_eq_of_some lt hw hpv] at hl
      exact bool_eq_false_of_ne_true hl
  · rw [if_neg hbreak]
    have hij : i2 ≤ j2 := by omega
    rcases hxi : (lswap l a piv)[i2]? with _ | xi
    · exact absurd hxi (by
        rw [List.getElem?_eq_getElem (by omega : i2 < (lswap l a piv).length)]
        simp)
    rcases hxj : (lswap l a piv)[j2]? with _ | xj
    · exact absurd hxj (by
        rw [List.getElem?_eq_getElem (by omega : j2 < (lswap l a piv).length)]
        simp)
    have hs1 : (lswap (lswap l a piv) i2 j2)[i2]? = some xj :=
      getElem?_lswap_fst (lswap l a piv) i2 j2 hxi hxj
    have hs2 : (lswap (lswap l a piv) i2 j2)[j2]? = some xi :=
      getElem?_lswap_snd (lswap l a piv) i2 j2 hxi hxj
    have hso : ∀ k, k ≠ i2 → k ≠ j2 →
        (lswap (lswap l a piv) i2 j2)[k]? = (lswap l a piv)[k]? :=
      fun k h1 h2 => getElem?_lswap_other (lswap l a piv) i2 j2 k h1 h2
    have hsa : (lswap (lswap l a piv) i2 j2)[a]? = (lswap l a piv)[a]? :=
      hso a (by omega) (by omega)
    have hLI2 : ∀ k, a+1 ≤ k → k < i2+1 →
        lless lt (lswap (lswap l a piv) i2 j2) k a = true := by
      intro k hk1 hk2
      rcases Nat.lt_or_ge k i2 with hk | hk
      · rw [lless_congr lt (hso k (by omega) (by omega)) hsa]
        exact sI3 k hk1 hk
      · have hkeq : k = i2 := by omega
        rw [hkeq]
        rw [show lless lt (lswap (lswap l a piv) i2 j2) i2 a =
            lless lt (lswap l a piv) j2 a from by
          unfold lless
          rw [hs1, hsa, hxj]]
        exact sJ4 hij
    have hRI2 : ∀ k, j2 - 1 < k → k < b →
        ¬ lless lt (lswap (lswap l a piv) i2 j2) k a = true := by
      intro k hk1 hk2
      rcases Nat.lt_or_ge j2 k with hk | hk
      · rw [lless_congr lt (hso k (by omega) (by omega)) hsa]
        exact sJ3 k hk (by omega)
      · have hkeq : k = j2 := by omega
        rw [hkeq]
        rw [show lless lt (lswap (lswap l a piv) i2 j2) j2 a =
            lless lt (lswap l a piv) i2 a from by
          unfold lless
          rw [hs2, hsa, hxi]]
        exact sI4 (by omega)
    obtain ⟨R1, R2, R3, R4, R5, R6, R7⟩ := partitionLoop_spec lt a b
      (b - a + 2) (i2+1) (j2-1) (lswap (lswap l a piv) i2 j2)
      (by omega) (by omega) (by omega) (by omega)
      (by rw [lswap_length, hl0len]; exact hb) hLI2 hRI2
    have hra : (partitionLoop lt a (b - a + 2) (i2+1) (j2-1)
        (lswap (lswap l a piv) i2 j2)).2[a]? = some pv := by
      rw [R4 a (Nat.le_refl a), hsa]
      exact hpv
    rcases hxp : (partitionLoop lt a (b - a + 2) (i2+1) (j2-1)
        (lswap (lswap l a piv) i2 j2)).2[(partitionLoop lt a (b - a + 2)
          (i2+1) (j2-1) (lswap (lswap l a piv) i2 j2)).1]? with _ | xp
    · exact absurd hxp (by
        rw [List.getElem?_eq_getElem (by
          rw [R3, lswap_length, hl0len]
          omega)]
        simp)
    have hf1 := getElem?_lswap_fst _ _ _ hxp hra
    have hf2 := getElem?_lswap_snd _ _ _ hxp hra
    have hfo : ∀ k,
        k ≠ (partitionLoop lt a (b - a + 2) (i2+1) (j2-1)
          (lswap (lswap l a piv) i2 j2)).1 → k ≠ a →
        (lswap (partitionLoop lt a (b - a + 2) (i2+1) (j2-1)
            (lswap (lswap l a piv) i2 j2)).2
          (partitionLoop lt a (b - a + 2) (i2+1) (j2-1)
            (lswap (lswap l a piv) i2 j2)).1 a)[k]? =
        (partitionLoop lt a (b - a + 2) (i2+1) (j2-1)
          (lswap (lswap l a piv) i2 j2)).2[k]? :=
      fun k h1 h2 => getElem?_lswap_other _ _ _ k h1 h2
    refine ⟨R1, R2, ?_, ?_, ?_, hf1, ?_, ?_⟩
    · rw [lswap_length, R3, lswap_length, hl0len]
    · intro k hk
      rw [hfo k (by omega) (by omega), R4 k (by omega),
        hso k (by omega) (by omega), hl0o k (by omega) (by omega)]
    · intro k hk
      rw [hfo k (by omega) (by omega), R5 k hk,
        hso k (by omega) (by omega), hl0o k (by omega) (by omega)]
    · intro k w hk1 hk2 hw
      rcases Nat.eq_or_lt_of_le hk1 with heq | hlt
      · rw [← heq] at hw
        rw [hf2] at hw
        have hweq : w = xp := (Option.some.inj hw).symm
        rw [hweq]
        have hl := R6 (partitionLoop lt a (b - a + 2) (i2+1) (j2-1)
          (lswap (lswap l a piv) i2 j2)).1 (by omega) (Nat.le_refl _)
        rw [lless_eq_of_some lt hxp hra] at hl
        exact hl
      · rw [hfo k (by omega) (by omega)] at hw
        have hl := R6 k (by omega) (by omega)
        rw [lless_eq_of_some lt hw hra] at hl
        exact hl
    · intro k w hk1 hk2 hw
      rw [hfo k (by omega) (by omega)] at hw
      have hl := R7 k hk1 hk2
      rw [lless_eq_of_some lt hw hra] at hl
      exact bool_eq_false_of_ne_true hl

/-! ## partitionEqual -/

theorem pequalScanI_spec {α : Type} (lt : α → α → Bool) (l : List α)
    (a j : Nat) : ∀ fuel i, j + 1 ≤ i + fuel →
      i ≤ pequalScanI lt l a j fuel i ∧
      (i ≤ j + 1 → pequalScanI lt l a j fuel i ≤ j + 1) ∧
      (∀ k, i ≤ k → k < pequalScanI lt l a j fuel i →
        ¬ lless lt l a k = true) ∧
      (pequalScanI lt l a j fuel i ≤ j →
        lless lt l a (pequalScanI lt l a j fuel i) = true) ∧
      (j < i → pequalScanI lt l a j fuel i = i) := by
  intro fuel
  induction fuel with
  | zero =>
    intro i hf
    rw [show pequalScanI lt l a j 0 i = i from rfl]
    refine ⟨Nat.le_refl _, fun h => by omega, ?_, ?_, fun _ => rfl⟩
    · intro k h1 h2
      exact absurd (Nat.lt_of_le_of_lt h1 h2) (by omega)
    · intro h
      exact absurd h (by omega)
  | succ fuel ih =>
    intro i hf
    rw [pequalScanI]
    by_cases hc : i ≤ j ∧ ¬ lless lt l a i = true
    · rw [if_pos hc]
      obtain ⟨r1, r2, r3, r4, _⟩ := ih (i+1) (by omega)
      refine ⟨by omega, fun _ => r2 (by omega), ?_, r4,
        fun h => absurd hc.1 (by omega)⟩
      intro k h1 h2
      rcases Nat.eq_or_lt_of_le h1 with heq | h1p
      · rw [← heq]
        exact hc.2
      · exact r3 k h1p h2
    · rw [if_neg hc]
      refine ⟨Nat.le_refl _, fun h => h, ?_, ?_, fun _ => rfl⟩
      · intro k h1 h2
        exact absurd (Nat.lt_of_le_of_lt h1 h2) (by omega)
      · intro hij
        by_cases h5 : lless lt l a i = true
        · exact h5
        · exact absurd ⟨hij, h5⟩ hc

theorem pequalScanJ_spec {α : Type} (lt : α → α → Bool) (l : List α)
    (a i : Nat) (hi : 1 ≤ i) : ∀ fuel j, j < i + fuel →
      pequalScanJ lt l a i fuel j ≤ j ∧
      (i ≤ j + 1 → i - 1 ≤ pequalScanJ lt l a i fuel j) ∧
      (∀ k, pequalScanJ lt l a i fuel j < k → k ≤ j →
        lless lt l a k = true) ∧
      (i ≤ pequalScanJ lt l a i fuel j →
        ¬ lless lt l a (pequalScanJ lt l a i fuel j) = true) ∧
      (j < i → pequalScanJ lt l a i fuel j = j) := by
  intro fuel
  induction fuel with
  | zero =>
    intro j hf
    rw [show pequalScanJ lt l a i 0 j = j from rfl]
    refine ⟨Nat.le_refl _, fun h => by omega, ?_,
      fun h => absurd h (by omega), fun _ => rfl⟩
    intro k h1 h2
    exact absurd (Nat.lt_of_lt_of_le h1 h2) (by omega)
  | succ fuel ih =>
    intro j hf
    rw [pequalScanJ]
    by_cases hc : i ≤ j ∧ lless lt l a j = true
    · rw [if_pos hc]
      obtain ⟨r1, r2, r3, r4, _⟩ := ih (j-1) (by omega)
      refine ⟨by omega, fun _ => r2 (by omega), ?_, r4,
        fun h => absurd hc.1 (by omega)⟩
      intro k h1 h2
      rcases Nat.eq_or_lt_of_le h2 with heq | h2p
      · rw [heq]
        exact hc.2
      · exact r3 k h1 (by omega)
    · rw [if_neg hc]
      refine ⟨Nat.le_refl _, fun h => by omega, ?_, ?_, fun _ => rfl⟩
      · intro k h1 h2
        exact absurd (Nat.lt_of_lt_of_le h1 h2) (by omega)
      · intro hij
        by_cases h5 : lless lt l a j = true
        · exact absurd ⟨hij, h5⟩ hc
        · exact h5

theorem partitionEqualLoop_spec {α : Type} (lt : α → α → Bool) (a b : Nat) :
    ∀ fuel i j (l : List α),
      a + 1 ≤ i → i ≤ j + 2 → i ≤ b → j < b → j + 2 - i < fuel →
      b ≤ l.length →
      (∀ k, a+1 ≤ k → k < i → ¬ lless lt l a k = true) →
      (∀ k, j < k → k < b → lless lt l a k = true) →
      a + 1 ≤ (partitionEqualLoop lt a fuel i j l).1 ∧
      (partitionEqualLoop lt a fuel i j l).1 ≤ b ∧
      (partitionEqualLoop lt a fuel i j l).2.length = l.length ∧
      (∀ k, k ≤ a → (partitionEqualLoop lt a fuel i j l).2[k]? = l[k]?) ∧
      (∀ k, b ≤ k → (partitionEqualLoop lt a fuel i j l).2[k]? = l[k]?) ∧
      (∀ k, a+1 ≤ k → k < (partitionEqualLoop lt a fuel i j l).1 →
        ¬ lless lt (partitionEqualLoop lt a fuel i j l).2 a k = true) ∧
      (∀ k, (partitionEqualLoop lt a fuel i j l).1 ≤ k → k < b →
        lless lt (partitionEqualLoop lt a fuel i j l).2 a k = true) := by
  intro fuel
  induction fuel with
  | zero =>
    intro i j l h1 h2 h2b h3 hf hb hLI hRI
    exact absurd hf (by omega)
  | succ fuel ih =>
    intro i j l h1 h2 h2b h3 hf hb hLI hRI
    rw [partitionEqualLoop]
    obtain ⟨sI1, sI2, sI3, sI4, sI5⟩ :=
      pequalScanI_spec lt l a j (j + 1 - i) i (by omega)
    set i2 := pequalScanI lt l a j (j + 1 - i) i with hi2def
    obtain ⟨sJ1, sJ2, sJ3, sJ4, sJ5⟩ :=
      pequalScanJ_spec lt l a i2 (by omega) (j + 1) j (by omega)
    set j2 := pequalScanJ lt l a i2 (j + 1) j with hj2def
    have hLi2 : ∀ k, a+1 ≤ k → k < i2 → ¬ lless lt l a k = true := by
      intro k hk1 hk2
      rcases Nat.lt_or_ge k i with hk | hk
      · exact hLI k hk1 hk
      · exact sI3 k hk hk2
    have hRj2 : ∀ k, j2 < k → k < b → lless lt l a k = true := by
      intro k hk1 hk2
      rcases le_or_lt k j with hk | hk
      · exact sJ3 k hk1 hk
      · exact hRI k hk hk2
    have hi2b2 : i2 ≤ b := by
      by_cases hc : i ≤ j + 1
      · have := sI2 hc
        omega
      · have := sI5 (by omega)
        omega
    by_cases hbreak : i2 > j2
    · rw [if_pos hbreak]
      refine ⟨by omega, hi2b2, rfl, fun k _ => rfl, fun k _ => rfl,
        hLi2, ?_⟩
      intro k hk1 hk2
      exact hRj2 k (by omega) hk2
    · rw [if_neg hbreak]
      have hij : i2 ≤ j2 := by omega
      have hj2j : j2 ≤ j := sJ1
      have hi2i : i ≤ i2 := sI1
      rcases hxi : l[i2]? with _ | xi
      · exact absurd hxi (by
          rw [List.getElem?_eq_getElem (by omega : i2 < l.length)]
          simp)
      rcases hxj : l[j2]? with _ | xj
      · exact absurd hxj (by
          rw [List.getElem?_eq_getElem (by omega : j2 < l.length)]
          simp)
      have hs1 : (lswap l i2 j2)[i2]? = some xj :=
        getElem?_lswap_fst l i2 j2 hxi hxj
      have hs2 : (lswap l i2 j2)[j2]? = some xi :=
        getElem?_lswap_snd l i2 j2 hxi hxj
      have hso : ∀ k, k ≠ i2 → k ≠ j2 → (lswap l i2 j2)[k]? = l[k]? :=
        fun k hk1 hk2 => getElem?_lswap_other l i2 j2 k hk1 hk2
      have hsa : (lswap l i2 j2)[a]? = l[a]? :=
        hso a (by omega) (by omega)
      have hLI2 : ∀ k, a+1 ≤ k → k < i2+1 →
          ¬ lless lt (lswap l i2 j2) a k = true := by
        intro k hk1 hk2
        rcases Nat.lt_or_ge k i2 with hk | hk
        · rw [lless_congr lt hsa (hso k (by omega) (by omega))]
          exact hLi2 k hk1 hk
        · have hkeq : k = i2 := by omega
          rw [hkeq]
          rw [show lless lt (lswap l i2 j2) a i2 = lless lt l a j2 from by
            unfold lless
            rw [hs1, hsa, hxj]]
          exact sJ4 hij
      have hRI2 : ∀ k, j2 - 1 < k → k < b →
          lless lt (lswap l i2 j2) a k = true := by
        intro k hk1 hk2
        rcases Nat.lt_or_ge j2 k with hk | hk
        · rw [lless_congr lt hsa (hso k (by omega) (by omega))]
          exact hRj2 k hk hk2
        · have hkeq : k = j2 := by omega
          rw [hkeq]
          rw [show lless lt (lswap l i2 j2) a j2 = lless lt l a i2 from by
            unfold lless
            rw [hs2, hsa, hxi]]
          exact sI4 (by omega)
      obtain ⟨R1, R2, R3, R4, R5, R6, R7⟩ := ih (i2+1) (j2-1) (lswap l i2 j2)
        (by omega) (by omega) (by omega) (by omega) (by omega)
        (by rw [lswap_length]; exact hb) hLI2 hRI2
      refine ⟨R1, R2, by rw [R3, lswap_length], ?_, ?_, R6, R7⟩
      · intro k hk
        rw [R4 k hk, hso k (by omega) (by omega)]
      · intro k hk
        rw [R5 k hk, hso k (by omega) (by omega)]

theorem partitionEqual_spec {α : Type} (lt : α → α → Bool) (l : List α)
    (a b piv : Nat) (hab : a < b) (hb : b ≤ l.length)
    (hp1 : a ≤ piv) (hp2 : piv < b) (pv : α)
    (hpv : (lswap l a piv)[a]? = some pv) :
    a + 1 ≤ (partitionEqual lt l a b piv).1 ∧
    (partitionEqual lt l a b piv).1 ≤ b ∧
    (partitionEqual lt l a b piv).2.length = l.length ∧
    (∀ k, k < a → (partitionEqual lt l a b piv).2[k]? = l[k]?) ∧
    (∀ k, b ≤ k → (partitionEqual lt l a b piv).2[k]? = l[k]?) ∧
    (partitionEqual lt l a b piv).2[a]? = some pv ∧
    (∀ k w, a+1 ≤ k → k < (partitionEqual lt l a b piv).1 →
      (partitionEqual lt l a b piv).2[k]? = some w → lt pv w = false) ∧
    (∀ k w, (partitionEqual lt l a b piv).1 ≤ k → k < b →
      (partitionEqual lt l a b piv).2[k]? = some w → lt pv w = true) := by
  unfold partitionEqual
  have hl0len : (lswap l a piv).length = l.length := lswap_length l a piv
  have hl0o : ∀ k, k ≠ a → k ≠ piv → (lswap l a piv)[k]? = l[k]? :=
    fun k h1 h2 => getElem?_lswap_other l a piv k h1 h2
  obtain ⟨R1, R2, R3, R4, R5, R6, R7⟩ := partitionEqualLoop_spec lt a b
    (b - a + 2) (a+1) (b-1) (lswap l a piv)
    (Nat.le_refl _) (by omega) (by omega) (by omega) (by omega)
    (by rw [hl0len]; exact hb)
    (fun k hk1 hk2 => absurd (Nat.lt_of_le_of_lt hk1 hk2) (by omega))
    (fun k hk1 hk2 => absurd hk2 (by omega))
  have hra : (partitionEqualLoop lt a (b - a + 2) (a+1) (b-1)
      (lswap l a piv)).2[a]? = some pv := by
    rw [R4 a (Nat.le_refl a)]
    exact hpv
  refine ⟨R1, R2, by rw [R3, hl0len], ?_, ?_, hra, ?_, ?_⟩
  · intro k hk
    rw [R4 k (by omega), hl0o k (by omega) (by omega)]
  · intro k hk
    rw [R5 k hk, hl0o k (by omega) (by omega)]
  · intro k w hk1 hk2 hw
    have hl := R6 k hk1 hk2
    rw [lless_eq_of_some lt hra hw] at hl
    exact bool_eq_false_of_ne_true hl
  · intro k w hk1 hk2 hw
    have hl := R7 k hk1 hk2
    rw [lless_eq_of_some lt hra hw] at hl
    exact hl

/-! ## Frames for the remaining helpers, and choosePivot bounds -/

theorem insertionSortL_perm {α : Type} (lt : α → α → Bool) (l : List α) :
    List.Perm (insertionSortL lt l) l := by
  induction l using List.reverseRecOn with
  | nil => exact .refl _
  | append_singleton l x ih =>
    rw [insertionSortL_snoc]
    exact ((goInsert_perm lt x _).trans (List.Perm.cons x ih)).trans
      (List.perm_append_singleton x l).symm

theorem pointwise_of_take_eq {α : Type} {l r : List α} {a : Nat}
    (h : r.take a = l.take a) : ∀ k, k < a → r[k]? = l[k]? := by
  intro k hk
  have h1 : (r.take a)[k]? = (l.take a)[k]? := by rw [h]
  rw [List.getElem?_take, List.getElem?_take, if_pos hk, if_pos hk] at h1
  exact h1

theorem pointwise_of_drop_eq {α : Type} {l r : List α} {b : Nat}
    (h : r.drop b = l.drop b) : ∀ k, b ≤ k → r[k]? = l[k]? := by
  intro k hk
  have h1 : (r.drop b)[k - b]? = (l.drop b)[k - b]? := by rw [h]
  rw [List.getElem?_drop, List.getElem?_drop,
    Nat.add_sub_cancel' hk] at h1
  exact h1

theorem reverseRangeLoop_frame {α : Type} :
    ∀ n (l : List α) i j k, k < i ∨ j < k →
      (reverseRangeLoop n l i j)[k]? = l[k]? := by
  intro n
  induction n with
  | zero =>
    intro l i j k hk
    rfl
  | succ n ih =>
    intro l i j k hk
    rw [reverseRangeLoop]
    by_cases hc : i < j
    · rw [if_pos hc]
      rw [ih (lswap l i j) (i+1) (j-1) k (by omega)]
      exact getElem?_lswap_other l i j k (by omega) (by omega)
    · rw [if_neg hc]

theorem reverseRange_frame {α : Type} (l : List α) (a b : Nat) :
    ∀ k, k < a ∨ b ≤ k → (reverseRange l a b)[k]? = l[k]? := by
  intro k hk
  unfold reverseRange
  by_cases hb0 : b = 0
  · rw [show b - a = 0 from by omega]
    rfl
  · exact reverseRangeLoop_frame (b-a) l a (b-1) k (by omega)

theorem bitsLenAux_zero : ∀ fuel, bitsLenAux fuel 0 = 0 := by
  intro fuel
  cases fuel with
  | zero => rfl
  | succ fuel =>
    rw [bitsLenAux, if_pos rfl]

theorem bitsLenAux_le : ∀ fuel n, 1 ≤ n → n ≤ fuel →
    2 ^ (bitsLenAux fuel n) ≤ 2 * n := by
  intro fuel
  induction fuel with
  | zero =>
    intro n h1 h2
    exact absurd h2 (by omega)
  | succ fuel ih =>
    intro n h1 h2
    rw [bitsLenAux, if_neg (by omega)]
    rcases Nat.lt_or_ge n 2 with hn | hn
    · have hn1 : n = 1 := by omega
      rw [hn1, show (1 : Nat)/2 = 0 from rfl, bitsLenAux_zero]
      norm_num
    · have hrec := ih (n/2) (by omega) (by omega)
      rw [pow_succ]
      omega

theorem bitsLen_le (n : Nat) (h : 1 ≤ n) : 2 ^ (bitsLen n) ≤ 2 * n :=
  bitsLenAux_le n n h (Nat.le_refl n)

theorem breakPatternsLoop_frame {α : Type} (a idx length modulus : Nat)
    (hmod : modulus ≤ 2 * length) (hlen : 1 ≤ length)
    (hidx1 : a + 1 ≤ idx) (hidx2 : idx + 1 < a + length) :
    ∀ fuel r (l : List α) k, k < a ∨ a + length ≤ k →
      (breakPatternsLoop a idx length modulus r fuel l)[k]? = l[k]? := by
  intro fuel
  induction fuel with
  | zero =>
    intro r l k hk
    rfl
  | succ fuel ih =>
    intro r l k hk
    rw [breakPatternsLoop]
    rw [ih (xorshiftNext r) _ k hk]
    have hand : xorshiftNext r &&& (modulus - 1) ≤ modulus - 1 :=
      Nat.and_le_right
    by_cases hge : xorshiftNext r &&& (modulus - 1) ≥ length
    · rw [if_pos hge]
      exact getElem?_lswap_other l _ _ k (by omega) (by omega)
    · rw [if_neg hge]
      exact getElem?_lswap_other l _ _ k (by omega) (by omega)

theorem breakPatterns_frame {α : Type} (l : List α) (a b : Nat) :
    ∀ k, k < a ∨ b ≤ k → (breakPatterns l a b)[k]? = l[k]? := by
  intro k hk
  unfold breakPatterns
  by_cases hc : b - a ≥ 8
  · rw [if_pos hc]
    have h1 : 1 <<< bitsLen (b - a) = 2 ^ (bitsLen (b - a)) := by
      rw [Nat.shiftLeft_eq, one_mul]
    have h2 : 2 ^ (bitsLen (b - a)) ≤ 2 * (b - a) :=
      bitsLen_le (b - a) (by omega)
    rw [breakPatternsLoop_frame a (a + (b-a)/4*2 - 1) (b - a)
      (1 <<< bitsLen (b - a)) (by omega) (by omega) (by omega) (by omega)
      3 (b - a) l k (by omega)]
  · rw [if_neg hc]

theorem order2_fst {α : Type} (lt : α → α → Bool) (l : List α)
    (x y s : Nat) :
    (order2 lt l x y s).1 = x ∨ (order2 lt l x y s).1 = y := by
  unfold order2
  split
  · exact Or.inr rfl
  · exact Or.inl rfl

theorem order2_snd {α : Type} (lt : α → α → Bool) (l : List α)
    (x y s : Nat) :
    (order2 lt l x y s).2.1 = x ∨ (order2 lt l x y s).2.1 = y := by
  unfold order2
  split
  · exact Or.inl rfl
  · exact Or.inr rfl

theorem median_mem {α : Type} (lt : α → α → Bool) (l : List α)
    (a b c s : Nat) :
    (median lt l a b c s).1 = a ∨ (median lt l a b c s).1 = b ∨
      (median lt l a b c s).1 = c := by
  have h1f := order2_fst lt l a b s
  have h1s := order2_snd lt l a b s
  rcases hO1 : order2 lt l a b s with ⟨a1, b1, s1⟩
  rw [hO1] at h1f h1s
  simp only [] at h1f h1s
  have h2f := order2_fst lt l b1 c s1
  rcases hO2 : order2 lt l b1 c s1 with ⟨b2, c2, s2⟩
  rw [hO2] at h2f
  simp only [] at h2f
  have h3s := order2_snd lt l a1 b2 s2
  rcases hO3 : order2 lt l a1 b2 s2 with ⟨a3, r, s3⟩
  rw [hO3] at h3s
  simp only [] at h3s
  unfold median
  rw [hO1]
  simp only []
  rw [hO2]
  simp only []
  rw [hO3]
  simp only []
  rcases h3s with h | h <;> rcases h2f with g | g <;>
    rcases h1f with f | f <;> rcases h1s with e | e <;> omega

theorem medianAdjacent_mem {α : Type} (lt : α → α → Bool) (l : List α)
    (m s : Nat) :
    (medianAdjacent lt l m s).1 = m - 1 ∨ (medianAdjacent lt l m s).1 = m ∨
      (medianAdjacent lt l m s).1 = m + 1 :=
  median_mem lt l (m-1) m (m+1) s

theorem choosePivot_range {α : Type} (lt : α → α → Bool) (l : List α)
    (a b : Nat) (h : 12 < b - a) :
    a ≤ (choosePivot lt l a b).1 ∧ (choosePivot lt l a b).1 < b := by
  have h8 : b - a ≥ 8 := by omega
  show a ≤ (if b - a ≥ 8 then
      if b - a ≥ 50 then
        match medianAdjacent lt l (a + (b-a)/4*1) 0 with
        | (i, s1) =>
          match medianAdjacent lt l (a + (b-a)/4*2) s1 with
          | (j, s2) =>
            match medianAdjacent lt l (a + (b-a)/4*3) s2 with
            | (k, s3) =>
              match median lt l i j k s3 with
              | (j2, swaps) =>
                (j2, if swaps = 0 then SortHint.increasing
                     else if swaps = 12 then SortHint.decreasing
                     else SortHint.unknown)
      else
        match median lt l (a + (b-a)/4*1) (a + (b-a)/4*2)
            (a + (b-a)/4*3) 0 with
        | (j2, swaps) =>
          (j2, if swaps = 0 then SortHint.increasing
               else if swaps = 12 then SortHint.decreasing
               else SortHint.unknown)
    else (a + (b-a)/4*2, SortHint.increasing)).1 ∧
    (if b - a ≥ 8 then
      if b - a ≥ 50 then
        match medianAdjacent lt l (a + (b-a)/4*1) 0 with
        | (i, s1) =>
          match medianAdjacent lt l (a + (b-a)/4*2) s1 with
          | (j, s2) =>
            match medianAdjacent lt l (a + (b-a)/4*3) s2 with
            | (k, s3) =>
              match median lt l i j k s3 with
              | (j2, swaps) =>
                (j2, if swaps = 0 then SortHint.increasing
                     else if swaps = 12 then SortHint.decreasing
                     else SortHint.unknown)
      else
        match median lt l (a + (b-a)/4*1) (a + (b-a)/4*2)
            (a + (b-a)/4*3) 0 with
        | (j2, swaps) =>
          (j2, if swaps = 0 then SortHint.increasing
               else if swaps = 12 then SortHint.decreasing
               else SortHint.unknown)
    else (a + (b-a)/4*2, SortHint.increasing)).1 < b
  rw [if_pos h8]
  by_cases h50 : b - a ≥ 50
  · rw [if_pos h50]
    have hB1 := medianAdjacent_mem lt l (a + (b-a)/4*1) 0
    rcases hM1 : medianAdjacent lt l (a + (b-a)/4*1) 0 with ⟨i1, s1⟩
    rw [hM1] at hB1
    simp only [] at hB1
    simp only []
    have hB2 := medianAdjacent_mem lt l (a + (b-a)/4*2) s1
    rcases hM2 : medianAdjacent lt l (a + (b-a)/4*2) s1 with ⟨j1, s2⟩
    rw [hM2] at hB2
    simp only [] at hB2
    simp only []
    have hB3 := medianAdjacent_mem lt l (a + (b-a)/4*3) s2
    rcases hM3 : medianAdjacent lt l (a + (b-a)/4*3) s2 with ⟨k1, s3⟩
    rw [hM3] at hB3
    simp only [] at hB3
    simp only []
    have hB4 := median_mem lt l i1 j1 k1 s3
    rcases hM4 : median lt l i1 j1 k1 s3 with ⟨p, sw⟩
    rw [hM4] at hB4
    simp only [] at hB4
    simp only []
    rcases hB1 with h1 | h1 | h1 <;> rcases hB2 with h2 | h2 | h2 <;>
      rcases hB3 with h3 | h3 | h3 <;> rcases hB4 with h4 | h4 | h4 <;>
      omega
  · rw [if_neg h50]
    have hB := median_mem lt l (a + (b-a)/4*1) (a + (b-a)/4*2)
      (a + (b-a)/4*3) 0
    rcases hM : median lt l (a + (b-a)/4*1) (a + (b-a)/4*2)
      (a + (b-a)/4*3) 0 with ⟨p, sw⟩
    rw [hM] at hB
    simp only [] at hB
    simp only []
    rcases hB with h1 | h1 | h1 <;> omega



/-! ## The pdqsort master induction: order helpers and assembly lemmas -/

theorem keyLess_false_of_chain {α κ : Type} [LinearOrder κ] (key : α → κ)
    {p u v : α} (h1 : keyLess key p v = true)
    (h2 : keyLess key p u = false) : keyLess key v u = false := by
  rcases hvu : keyLess key v u with _ | _
  · rfl
  · have h3 := keyLess_trans key h1 hvu
    rw [h2] at h3
    exact Bool.noConfusion h3

theorem keyLess_false_of_chain2 {α κ : Type} [LinearOrder κ] (key : α → κ)
    {p u v : α} (h1 : keyLess key u p = true)
    (h2 : keyLess key v p = false) : keyLess key v u = false := by
  rcases hvu : keyLess key v u with _ | _
  · rfl
  · have h3 := keyLess_trans key hvu h1
    rw [h2] at h3
    exact Bool.noConfusion h3

theorem seg_replace_facts {α : Type} (l mid : List α) (a b : Nat)
    (hab : a ≤ b) (hb : b ≤ l.length) (hmid : mid.length = b - a) :
    (l.take a ++ mid ++ l.drop b).length = l.length ∧
    (∀ k, k < a → (l.take a ++ mid ++ l.drop b)[k]? = l[k]?) ∧
    (∀ k, b ≤ k → (l.take a ++ mid ++ l.drop b)[k]? = l[k]?) ∧
    listSeg (l.take a ++ mid ++ l.drop b) a b = mid := by
  have hpre : (l.take a).length = a := by
    simp
    omega
  have hsum : (l.take a).length + mid.length = b := by
    rw [hpre, hmid]
    omega
  have hdseg := listSeg_decomp (l.take a) mid (l.drop b)
  rw [hsum, hpre] at hdseg
  refine ⟨?_, ?_, ?_, hdseg⟩
  · simp only [List.length_append, List.length_take, List.length_drop]
    omega
  · intro k hk
    rw [List.append_assoc,
      List.getElem?_append_left (by rw [hpre]; exact hk),
      List.getElem?_take, if_pos hk]
  · intro k hk
    have hlen2 : (l.take a ++ mid).length = b := by
      rw [List.length_append, hpre, hmid]
      omega
    rw [List.getElem?_append_right (by rw [hlen2]; exact hk), hlen2,
      List.getElem?_drop, Nat.add_sub_cancel' hk]

theorem seg_sorted_assemble {α κ : Type} [LinearOrder κ] (key : α → κ)
    (r : List α) (a p1 b : Nat) (pv : α)
    (hap : a ≤ p1) (hpb : p1 < b) (hb : b ≤ r.length)
    (hpv : r[p1]? = some pv)
    (hsl : SortedLt (keyLess key) (listSeg r a p1))
    (hsr : SortedLt (keyLess key) (listSeg r (p1+1) b))
    (hlw : ∀ w, w ∈ listSeg r a p1 → keyLess key w pv = true)
    (hrw : ∀ w, w ∈ listSeg r (p1+1) b → keyLess key w pv = false) :
    SortedLt (keyLess key) (listSeg r a b) := by
  rw [listSeg_split r a p1 b hap (by omega) hb,
    listSeg_split r p1 (p1+1) b (by omega) (by omega) hb,
    listSeg_singleton hpv, List.singleton_append]
  unfold SortedLt
  rw [List.pairwise_append]
  refine ⟨hsl, ?_, ?_⟩
  · rw [List.pairwise_cons]
    refine ⟨?_, hsr⟩
    intro v hv hcon
    rw [hrw v hv] at hcon
    exact Bool.noConfusion hcon
  · intro u hu v hv
    rcases List.mem_cons.1 hv with hv1 | hv2
    · rw [hv1]
      intro hcon
      rw [keyLess_asymm_false key (hlw u hu)] at hcon
      exact Bool.noConfusion hcon
    · intro hcon
      rw [keyLess_false_of_chain2 key (hlw u hu) (hrw v hv2)] at hcon
      exact Bool.noConfusion hcon

theorem seg_sorted_assemble_equal {α κ : Type} [LinearOrder κ]
    (key : α → κ) (r : List α) (a mid b : Nat) (pv : α)
    (ham : a ≤ mid) (hmb : mid ≤ b) (hb : b ≤ r.length)
    (hsr : SortedLt (keyLess key) (listSeg r mid b))
    (hl1 : ∀ w, w ∈ listSeg r a mid → keyLess key pv w = false)
    (hl2 : ∀ w, w ∈ listSeg r a mid → keyLess key w pv = false)
    (hrw : ∀ w, w ∈ listSeg r mid b → keyLess key pv w = true) :
    SortedLt (keyLess key) (listSeg r a b) := by
  rw [listSeg_split r a mid b ham hmb hb]
  unfold SortedLt
  rw [List.pairwise_append]
  refine ⟨?_, hsr, ?_⟩
  · refine List.pairwise_of_forall_mem_list ?_
    intro u hu v hv hcon
    rw [keyLess_negtrans key (hl2 v hv) (hl1 u hu)] at hcon
    exact Bool.noConfusion hcon
  · intro u hu v hv hcon
    rw [keyLess_false_of_chain key (hrw v hv) (hl1 u hu)] at hcon
    exact Bool.noConfusion hcon

theorem mem_listSeg_trans {α : Type} {r s : List α} {a b : Nat} {w : α}
    (hlen : r.length = s.length)
    (hfa : ∀ k, k < a → r[k]? = s[k]?)
    (hfb : ∀ k, b ≤ k → r[k]? = s[k]?)
    (hperm : List.Perm r s) (hab : a ≤ b)
    (hw : w ∈ listSeg r a b) : w ∈ listSeg s a b :=
  (perm_listSeg_of_framed
    ⟨hlen, take_eq_of_pointwise hfa, drop_eq_of_pointwise hlen hfb⟩
    hperm hab).mem_iff.1 hw

theorem pdqsortTail2_sorted {α κ : Type} [LinearOrder κ] (key : α → κ)
    (fuel : Nat)
    (ih : ∀ (l : List α) (a b limit : Nat) (wB wP : Bool),
      a ≤ b → b ≤ l.length → b - a < fuel →
      (a = 0 ∨ ∀ v, l[a-1]? = some v → ∀ w, w ∈ listSeg l a b →
        keyLess key w v = false) →
      (pdqsortLoop (keyLess key) fuel l a b limit wB wP).length
        = l.length ∧
      (∀ k, k < a →
        (pdqsortLoop (keyLess key) fuel l a b limit wB wP)[k]? = l[k]?) ∧
      (∀ k, b ≤ k →
        (pdqsortLoop (keyLess key) fuel l a b limit wB wP)[k]? = l[k]?) ∧
      SortedLt (keyLess key)
        (listSeg (pdqsortLoop (keyLess key) fuel l a b limit wB wP) a b))
    (a b limit1 : Nat) (wasB wasP : Bool) (l3 : List α) (piv1 : Nat)
    (pfst : Bool)
    (hab : 12 < b - a) (hb : b ≤ l3.length) (hf : b - a < fuel + 1)
    (hsent : a = 0 ∨ ∀ v, l3[a-1]? = some v → ∀ w, w ∈ listSeg l3 a b →
      keyLess key w v = false)
    (hp1 : a ≤ piv1) (hp2 : piv1 < b)
    (hsorted : pfst = true → SortedLt (keyLess key) (listSeg l3 a b))
    (res : List α)
    (hres : res = (if pfst = true then l3
      else if a > 0 ∧ ¬ lless (keyLess key) l3 (a-1) piv1 = true then
        pdqsortLoop (keyLess key) fuel
          (partitionEqual (keyLess key) l3 a b piv1).2
          (partitionEqual (keyLess key) l3 a b piv1).1 b limit1 wasB wasP
      else
        if (partition (keyLess key) l3 a b piv1).1 - a <
            b - (partition (keyLess key) l3 a b piv1).1 then
          pdqsortLoop (keyLess key) fuel
            (pdqsortLoop (keyLess key) fuel
              (partition (keyLess key) l3 a b piv1).2.2 a
              (partition (keyLess key) l3 a b piv1).1 limit1 true true)
            ((partition (keyLess key) l3 a b piv1).1 + 1) b limit1
            (decide (min ((partition (keyLess key) l3 a b piv1).1 - a)
              (b - (partition (keyLess key) l3 a b piv1).1) ≥ (b - a) / 8))
            (partition (keyLess key) l3 a b piv1).2.1
        else
          pdqsortLoop (keyLess key) fuel
            (pdqsortLoop (keyLess key) fuel
              (partition (keyLess key) l3 a b piv1).2.2
              ((partition (keyLess key) l3 a b piv1).1 + 1) b limit1
              true true)
            a (partition (keyLess key) l3 a b piv1).1 limit1
            (decide (min ((partition (keyLess key) l3 a b piv1).1 - a)
              (b - (partition (keyLess key) l3 a b piv1).1) ≥ (b - a) / 8))
            (partition (keyLess key) l3 a b piv1).2.1)) :
    res.length = l3.length ∧
    (∀ k, k < a → res[k]? = l3[k]?) ∧
    (∀ k, b ≤ k → res[k]? = l3[k]?) ∧
    SortedLt (keyLess key) (listSeg res a b) := by
  subst hres
  by_cases hpf : pfst = true
  · rw [if_pos hpf]
    exact ⟨rfl, fun k _ => rfl, fun k _ => rfl, hsorted hpf⟩
  · rw [if_neg hpf]
    have hab' : a < b := by omega
    rcases hxa : l3[a]? with _ | xa
    · exact absurd hxa (by
        rw [List.getElem?_eq_getElem (by omega : a < l3.length)]
        simp)
    rcases hxp : l3[piv1]? with _ | pv
    · exact absurd hxp (by
        rw [List.getElem?_eq_getElem (by omega : piv1 < l3.length)]
        simp)
    have hpv : (lswap l3 a piv1)[a]? = some pv :=
      getElem?_lswap_fst l3 a piv1 hxa hxp
    by_cases hpe : a > 0 ∧ ¬ lless (keyLess key) l3 (a-1) piv1 = true
    · rw [if_pos hpe]
      obtain ⟨E1, E2, E3, E4, E5, E6, E7, E8⟩ :=
        partitionEqual_spec (keyLess key) l3 a b piv1 hab' hb hp1 hp2 pv hpv
      rcases hsv : l3[a-1]? with _ | sv
      · exact absurd hsv (by
          rw [List.getElem?_eq_getElem (by omega : a-1 < l3.length)]
          simp)
      have hsvp : keyLess key sv pv = false := by
        have h1 := hpe.2
        rw [lless_eq_of_some (keyLess key) hsv hxp] at h1
        exact bool_eq_false_of_ne_true h1
      have hsent2 : ∀ w, w ∈ listSeg l3 a b → keyLess key w sv = false := by
        rcases hsent with h0 | hs
        · exact absurd h0 (by omega)
        · exact hs sv hsv
      obtain ⟨R1, R2, R3, R4⟩ := ih (partitionEqual (keyLess key) l3 a b piv1).2
        (partitionEqual (keyLess key) l3 a b piv1).1 b limit1 wasB wasP
        E2 (by rw [E3]; exact hb) (by omega)
        (Or.inr (by
          intro v hv w hw
          rcases (mem_listSeg _ _ _ w).1 hw with ⟨k, hk1, hk2, hkw⟩
          have hpvw : keyLess key pv w = true := E8 k w hk1 hk2 hkw
          rcases Nat.eq_or_lt_of_le
            (show a ≤ (partitionEqual (keyLess key) l3 a b piv1).1 - 1 from
              by omega) with heq | hlt
          · rw [← heq] at hv
            rw [E6] at hv
            have hveq : v = pv := (Option.some.inj hv).symm
            rw [hveq]
            exact keyLess_asymm_false key hpvw
          · have hlv := E7 ((partitionEqual (keyLess key) l3 a b piv1).1 - 1)
              v (by omega) (by omega) hv
            exact keyLess_false_of_chain key hpvw hlv))
      refine ⟨R1.trans E3, ?_, ?_, ?_⟩
      · intro k hk
        rw [R2 k (by omega), E4 k hk]
      · intro k hk
        rw [R3 k hk, E5 k hk]
      · have hseg : listSeg (pdqsortLoop (keyLess key) fuel
            (partitionEqual (keyLess key) l3 a b piv1).2
            (partitionEqual (keyLess key) l3 a b piv1).1 b limit1 wasB wasP)
            a (partitionEqual (keyLess key) l3 a b piv1).1 =
            listSeg (partitionEqual (keyLess key) l3 a b piv1).2
            a (partitionEqual (keyLess key) l3 a b piv1).1 :=
          listSeg_congr_of_pointwise R1 (fun k hk1 hk2 => R2 k hk2)
        refine seg_sorted_assemble_equal key _ a
          (partitionEqual (keyLess key) l3 a b piv1).1 b pv (by omega) E2
          (by rw [R1, E3]; exact hb) R4 ?_ ?_ ?_
        · intro w hw
          rw [hseg] at hw
          rcases (mem_listSeg _ _ _ w).1 hw with ⟨k, hk1, hk2, hkw⟩
          rcases Nat.eq_or_lt_of_le hk1 with heq | hlt
          · rw [← heq] at hkw
            rw [E6] at hkw
            have hweq : w = pv := (Option.some.inj hkw).symm
            rw [hweq]
            exact keyLess_irrefl key pv
          · exact E7 k w (by omega) hk2 hkw
        · intro w hw
          rw [hseg] at hw
          have hw2 : w ∈ listSeg (partitionEqual (keyLess key) l3 a b piv1).2
              a b := mem_listSeg_mono hw E2
          have hw3 : w ∈ listSeg l3 a b :=
            mem_listSeg_trans E3 E4 E5
              (partitionEqual_perm (keyLess key) l3 a b piv1) (by omega) hw2
          exact keyLess_negtrans key (hsent2 w hw3) hsvp
        · intro w hw
          have hw2 : w ∈ listSeg (partitionEqual (keyLess key) l3 a b piv1).2
              (partitionEqual (keyLess key) l3 a b piv1).1 b :=
            mem_listSeg_trans R1 R2 R3
              (pdqsortLoop_perm (keyLess key) fuel _ _ _ _ _ _) E2 hw
          rcases (mem_listSeg _ _ _ w).1 hw2 with ⟨k, hk1, hk2, hkw⟩
          exact E8 k w hk1 hk2 hkw
    · rw [if_neg hpe]
      obtain ⟨P1, P2, P3, P4, P5, P6, P7, P8⟩ :=
        partition_spec (keyLess key) l3 a b piv1 hab' hb hp1 hp2 pv hpv
      have hsentL : a = 0 ∨ ∀ v,
          (partition (keyLess key) l3 a b piv1).2.2[a-1]? = some v →
          ∀ w, w ∈ listSeg (partition (keyLess key) l3 a b piv1).2.2 a
            (partition (keyLess key) l3 a b piv1).1 →
          keyLess key w v = false := by
        by_cases ha0 : a = 0
        · exact Or.inl ha0
        · have hs := hsent.resolve_left ha0
          refine Or.inr ?_
          intro v hv w hw
          have hva : l3[a-1]? = some v := by
            rw [← hv, P4 (a-1) (by omega)]
          have hw2 : w ∈ listSeg (partition (keyLess key) l3 a b piv1).2.2
              a b := mem_listSeg_mono hw (by omega)
          have hw3 : w ∈ listSeg l3 a b :=
            mem_listSeg_trans P3 P4 P5
              (partition_perm (keyLess key) l3 a b piv1) (by omega) hw2
          exact hs v hva w hw3
      by_cases hLR : (partition (keyLess key) l3 a b piv1).1 - a <
          b - (partition (keyLess key) l3 a b piv1).1
      · rw [if_pos hLR]
        obtain ⟨I1, I2, I3, I4⟩ := ih (partition (keyLess key) l3 a b piv1).2.2
          a (partition (keyLess key) l3 a b piv1).1 limit1 true true
          P1 (by rw [P3]; omega) (by omega) hsentL
        obtain ⟨O1, O2, O3, O4⟩ := ih (pdqsortLoop (keyLess key) fuel
            (partition (keyLess key) l3 a b piv1).2.2 a
            (partition (keyLess key) l3 a b piv1).1 limit1 true true)
          ((partition (keyLess key) l3 a b piv1).1 + 1) b limit1
          (decide (min ((partition (keyLess key) l3 a b piv1).1 - a)
            (b - (partition (keyLess key) l3 a b piv1).1) ≥ (b - a) / 8))
          (partition (keyLess key) l3 a b piv1).2.1
          (by omega) (by rw [I1, P3]; exact hb) (by omega)
          (Or.inr (by
            intro v hv w hw
            rw [Nat.add_sub_cancel] at hv
            rw [I3 (partition (keyLess key) l3 a b piv1).1 (Nat.le_refl _),
              P6] at hv
            have hveq : v = pv := (Option.some.inj hv).symm
            rcases (mem_listSeg _ _ _ w).1 hw with ⟨k, hk1, hk2, hkw⟩
            rw [I3 k (by omega)] at hkw
            rw [hveq]
            exact P8 k w (by omega) hk2 hkw))
        refine ⟨O1.trans (I1.trans P3), ?_, ?_, ?_⟩
        · intro k hk
          rw [O2 k (by omega), I2 k hk, P4 k hk]
        · intro k hk
          rw [O3 k hk, I3 k (by omega), P5 k hk]
        · have hseg1 : listSeg (pdqsortLoop (keyLess key) fuel
              (pdqsortLoop (keyLess key) fuel
                (partition (keyLess key) l3 a b piv1).2.2 a
                (partition (keyLess key) l3 a b piv1).1 limit1 true true)
              ((partition (keyLess key) l3 a b piv1).1 + 1) b limit1
              (decide (min ((partition (keyLess key) l3 a b piv1).1 - a)
                (b - (partition (keyLess key) l3 a b piv1).1) ≥ (b - a) / 8))
              (partition (keyLess key) l3 a b piv1).2.1) a
              (partition (keyLess key) l3 a b piv1).1 =
              listSeg (pdqsortLoop (keyLess key) fuel
                (partition (keyLess key) l3 a b piv1).2.2 a
                (partition (keyLess key) l3 a b piv1).1 limit1 true true) a
              (partition (keyLess key) l3 a b piv1).1 :=
            listSeg_congr_of_pointwise O1 (fun k hk1 hk2 => O2 k (by omega))
          refine seg_sorted_assemble key _ a
            (partition (keyLess key) l3 a b piv1).1 b pv P1 P2
            (by rw [O1, I1, P3]; exact hb) ?_ ?_ O4 ?_ ?_
          · rw [O2 (partition (keyLess key) l3 a b piv1).1 (by omega),
              I3 (partition (keyLess key) l3 a b piv1).1 (Nat.le_refl _)]
            exact P6
          · rw [hseg1]
            exact I4
          · intro w hw
            rw [hseg1] at hw
            have hw2 : w ∈ listSeg (partition (keyLess key) l3 a b piv1).2.2
                a (partition (keyLess key) l3 a b piv1).1 :=
              mem_listSeg_trans I1 I2 I3
                (pdqsortLoop_perm (keyLess key) fuel _ _ _ _ _ _) P1 hw
            rcases (mem_listSeg _ _ _ w).1 hw2 with ⟨k, hk1, hk2, hkw⟩
            exact P7 k w hk1 hk2 hkw
          · intro w hw
            have hw2 : w ∈ listSeg (pdqsortLoop (keyLess key) fuel
                (partition (keyLess key) l3 a b piv1).2.2 a
                (partition (keyLess key) l3 a b piv1).1 limit1 true true)
                ((partition (keyLess key) l3 a b piv1).1 + 1) b :=
              mem_listSeg_trans O1 O2 O3
                (pdqsortLoop_perm (keyLess key) fuel _ _ _ _ _ _)
                (by omega) hw
            rcases (mem_listSeg _ _ _ w).1 hw2 with ⟨k, hk1, hk2, hkw⟩
            rw [I3 k (by omega)] at hkw
            exact P8 k w (by omega) hk2 hkw
      · rw [if_neg hLR]
        obtain ⟨I1, I2, I3, I4⟩ := ih (partition (keyLess key) l3 a b piv1).2.2
          ((partition (keyLess key) l3 a b piv1).1 + 1) b limit1 true true
          (by omega) (by rw [P3]; exact hb) (by omega)
          (Or.inr (by
            intro v hv w hw
            rw [Nat.add_sub_cancel, P6] at hv
            have hveq : v = pv := (Option.some.inj hv).symm
            rcases (mem_listSeg _ _ _ w).1 hw with ⟨k, hk1, hk2, hkw⟩
            rw [hveq]
            exact P8 k w (by omega) hk2 hkw))
        obtain ⟨O1, O2, O3, O4⟩ := ih (pdqsortLoop (keyLess key) fuel
            (partition (keyLess key) l3 a b piv1).2.2
            ((partition (keyLess key) l3 a b piv1).1 + 1) b limit1 true true)
          a (partition (keyLess key) l3 a b piv1).1 limit1
          (decide (min ((partition (keyLess key) l3 a b piv1).1 - a)
            (b - (partition (keyLess key) l3 a b piv1).1) ≥ (b - a) / 8))
          (partition (keyLess key) l3 a b piv1).2.1
          P1 (by rw [I1, P3]; omega) (by omega)
          (by
            by_cases ha0 : a = 0
            · exact Or.inl ha0
            · have hs := hsent.resolve_left ha0
              refine Or.inr ?_
              intro v hv w hw
              have hva : l3[a-1]? = some v := by
                rw [← hv, I2 (a-1) (by omega), P4 (a-1) (by omega)]
              have hseg0 : listSeg (pdqsortLoop (keyLess key) fuel
                  (partition (keyLess key) l3 a b piv1).2.2
                  ((partition (keyLess key) l3 a b piv1).1 + 1) b limit1
                  true true) a (partition (keyLess key) l3 a b piv1).1 =
                  listSeg (partition (keyLess key) l3 a b piv1).2.2 a
                  (partition (keyLess key) l3 a b piv1).1 :=
                listSeg_congr_of_pointwise I1
                  (fun k hk1 hk2 => I2 k (by omega))
              rw [hseg0] at hw
              have hw2 : w ∈ listSeg
                  (partition (keyLess key) l3 a b piv1).2.2 a b :=
                mem_listSeg_mono hw (by omega)
              have hw3 : w ∈ listSeg l3 a b :=
                mem_listSeg_trans P3 P4 P5
                  (partition_perm (keyLess key) l3 a b piv1) (by omega) hw2
              exact hs v hva w hw3)
        refine ⟨O1.trans (I1.trans P3), ?_, ?_, ?_⟩
        · intro k hk
          rw [O2 k (by omega), I2 k (by omega), P4 k hk]
        · intro k hk
          rw [O3 k (by omega), I3 k hk, P5 k hk]
        · have hseg1 : listSeg (pdqsortLoop (keyLess key) fuel
              (pdqsortLoop (keyLess key) fuel
                (partition (keyLess key) l3 a b piv1).2.2
                ((partition (keyLess key) l3 a b piv1).1 + 1) b limit1
                true true)
              a (partition (keyLess key) l3 a b piv1).1 limit1
              (decide (min ((partition (keyLess key) l3 a b piv1).1 - a)
                (b - (partition (keyLess key) l3 a b piv1).1) ≥ (b - a) / 8))
              (partition (keyLess key) l3 a b piv1).2.1)
              ((partition (keyLess key) l3 a b piv1).1 + 1) b =
              listSeg (pdqsortLoop (keyLess key) fuel
                (partition (keyLess key) l3 a b piv1).2.2
                ((partition (keyLess key) l3 a b piv1).1 + 1) b limit1
                true true)
              ((partition (keyLess key) l3 a b piv1).1 + 1) b :=
            listSeg_congr_of_pointwise O1 (fun k hk1 hk2 => O3 k (by omega))
          refine seg_sorted_assemble key _ a
            (partition (keyLess key) l3 a b piv1).1 b pv P1 P2
            (by rw [O1, I1, P3]; exact hb) ?_ O4 ?_ ?_ ?_
          · rw [O3 (partition (keyLess key) l3 a b piv1).1 (Nat.le_refl _),
              I2 (partition (keyLess key) l3 a b piv1).1 (by omega)]
            exact P6
          · rw [hseg1]
            exact I4
          · intro w hw
            have hw2 : w ∈ listSeg (pdqsortLoop (keyLess key) fuel
                (partition (keyLess key) l3 a b piv1).2.2
                ((partition (keyLess key) l3 a b piv1).1 + 1) b limit1
                true true) a (partition (keyLess key) l3 a b piv1).1 :=
              mem_listSeg_trans O1 O2 O3
                (pdqsortLoop_perm (keyLess key) fuel _ _ _ _ _ _) P1 hw
            have hseg0 : listSeg (pdqsortLoop (keyLess key) fuel
                (partition (keyLess key) l3 a b piv1).2.2
                ((partition (keyLess key) l3 a b piv1).1 + 1) b limit1
                true true) a (partition (keyLess key) l3 a b piv1).1 =
                listSeg (partition (keyLess key) l3 a b piv1).2.2 a
                (partition (keyLess key) l3 a b piv1).1 :=
              listSeg_congr_of_pointwise I1
                (fun k hk1 hk2 => I2 k (by omega))
            rw [hseg0] at hw2
            rcases (mem_listSeg _ _ _ w).1 hw2 with ⟨k, hk1, hk2, hkw⟩
            exact P7 k w hk1 hk2 hkw
          · intro w hw
            rw [hseg1] at hw
            have hw2 : w ∈ listSeg
                (partition (keyLess key) l3 a b piv1).2.2
                ((partition (keyLess key) l3 a b piv1).1 + 1) b :=
              mem_listSeg_trans I1 I2 I3
                (pdqsortLoop_perm (keyLess key) fuel _ _ _ _ _ _)
                (by omega) hw
            rcases (mem_listSeg _ _ _ w).1 hw2 with ⟨k, hk1, hk2, hkw⟩
            exact P8 k w (by omega) hk2 hkw

theorem sentinel_transfer {α κ : Type} [LinearOrder κ] (key : α → κ)
    {m s : List α} {a b : Nat} (hab : a ≤ b)
    (hlen : m.length = s.length)
    (hfa : ∀ k, k < a → m[k]? = s[k]?)
    (hfb : ∀ k, b ≤ k → m[k]? = s[k]?)
    (hperm : List.Perm m s)
    (hs : a = 0 ∨ ∀ v, s[a-1]? = some v → ∀ w, w ∈ listSeg s a b →
      keyLess key w v = false) :
    a = 0 ∨ ∀ v, m[a-1]? = some v → ∀ w, w ∈ listSeg m a b →
      keyLess key w v = false := by
  by_cases ha0 : a = 0
  · exact Or.inl ha0
  · have h2 := hs.resolve_left ha0
    refine Or.inr ?_
    intro v hv w hw
    refine h2 v ?_ w (mem_listSeg_trans hlen hfa hfb hperm hab hw)
    rw [← hv, hfa (a-1) (by omega)]

theorem pdqsortTail_sorted {α κ : Type} [LinearOrder κ] (key : α → κ)
    (fuel : Nat)
    (ih : ∀ (l : List α) (a b limit : Nat) (wB wP : Bool),
      a ≤ b → b ≤ l.length → b - a < fuel →
      (a = 0 ∨ ∀ v, l[a-1]? = some v → ∀ w, w ∈ listSeg l a b →
        keyLess key w v = false) →
      (pdqsortLoop (keyLess key) fuel l a b limit wB wP).length
        = l.length ∧
      (∀ k, k < a →
        (pdqsortLoop (keyLess key) fuel l a b limit wB wP)[k]? = l[k]?) ∧
      (∀ k, b ≤ k →
        (pdqsortLoop (keyLess key) fuel l a b limit wB wP)[k]? = l[k]?) ∧
      SortedLt (keyLess key)
        (listSeg (pdqsortLoop (keyLess key) fuel l a b limit wB wP) a b))
    (a b limit1 : Nat) (wasB wasP : Bool) (l1 : List α)
    (hab : 12 < b - a) (hb : b ≤ l1.length) (hf : b - a < fuel + 1)
    (hsent : a = 0 ∨ ∀ v, l1[a-1]? = some v → ∀ w, w ∈ listSeg l1 a b →
      keyLess key w v = false)
    (res : List α)
    (hres : res =
      (let cp := choosePivot (keyLess key) l1 a b
       let l₂ := if cp.2 = SortHint.decreasing then reverseRange l1 a b
         else l1
       let pivot := if cp.2 = SortHint.decreasing then (b - 1) - (cp.1 - a)
         else cp.1
       let hint : SortHint := if cp.2 = SortHint.decreasing then
         SortHint.increasing else cp.2
       let pr := if wasB ∧ wasP ∧ hint = SortHint.increasing then
         partialInsertionSort (keyLess key) l₂ a b else (false, l₂)
       if pr.1 then pr.2
       else
         if a > 0 ∧ ¬ lless (keyLess key) pr.2 (a-1) pivot = true then
           let pe := partitionEqual (keyLess key) pr.2 a b pivot
           pdqsortLoop (keyLess key) fuel pe.2 pe.1 b limit1 wasB wasP
         else
           let p := partition (keyLess key) pr.2 a b pivot
           let wasPartitionedN := p.2.1
           let leftLen := p.1 - a
           let rightLen := b - p.1
           let balanceThreshold := (b - a) / 8
           let wasBalancedN := decide (min leftLen rightLen ≥
             balanceThreshold)
           if leftLen < rightLen then
             pdqsortLoop (keyLess key) fuel
               (pdqsortLoop (keyLess key) fuel p.2.2 a p.1 limit1 true true)
               (p.1+1) b limit1 wasBalancedN wasPartitionedN
           else
             pdqsortLoop (keyLess key) fuel
               (pdqsortLoop (keyLess key) fuel p.2.2 (p.1+1) b limit1
                 true true)
               a p.1 limit1 wasBalancedN wasPartitionedN)) :
    res.length = l1.length ∧
    (∀ k, k < a → res[k]? = l1[k]?) ∧
    (∀ k, b ≤ k → res[k]? = l1[k]?) ∧
    SortedLt (keyLess key) (listSeg res a b) := by
  subst hres
  simp only []
  obtain ⟨hcp1, hcp2⟩ := choosePivot_range (keyLess key) l1 a b hab
  rcases hcp : choosePivot (keyLess key) l1 a b with ⟨piv0, hint0⟩
  rw [hcp] at hcp1 hcp2
  simp only [] at hcp1 hcp2
  simp only []
  by_cases hdec : hint0 = SortHint.decreasing
  · rw [if_pos hdec, if_pos hdec, if_pos hdec]
    have hL2len : (reverseRange l1 a b).length = l1.length :=
      (reverseRange_perm l1 a b).length_eq
    have hL2a : ∀ k, k < a → (reverseRange l1 a b)[k]? = l1[k]? :=
      fun k hk => reverseRange_frame l1 a b k (Or.inl hk)
    have hL2b : ∀ k, b ≤ k → (reverseRange l1 a b)[k]? = l1[k]? :=
      fun k hk => reverseRange_frame l1 a b k (Or.inr hk)
    have hsent2 := sentinel_transfer key (by omega : a ≤ b) hL2len hL2a
      hL2b (reverseRange_perm l1 a b) hsent
    have hpb1 : a ≤ (b - 1) - (piv0 - a) := by omega
    have hpb2 : (b - 1) - (piv0 - a) < b := by omega
    by_cases hprc : wasB = true ∧ wasP = true ∧
        SortHint.increasing = SortHint.increasing
    · rw [if_pos hprc]
      obtain ⟨S1, S2, S3, S4⟩ := partialInsertionSort_spec key
        (reverseRange l1 a b) a b (by omega) (by rw [hL2len]; exact hb)
        (fun ha1 => hsent2.resolve_left (by omega))
      obtain ⟨T1, T2, T3, T4⟩ := pdqsortTail2_sorted key fuel ih a b limit1
        wasB wasP
        (partialInsertionSort (keyLess key) (reverseRange l1 a b) a b).2
        ((b - 1) - (piv0 - a))
        (partialInsertionSort (keyLess key) (reverseRange l1 a b) a b).1
        hab (by rw [S1, hL2len]; exact hb) hf
        (sentinel_transfer key (by omega : a ≤ b) S1 S2 S3
          (partialInsertionSort_perm (keyLess key) (reverseRange l1 a b)
            a b) hsent2)
        hpb1 hpb2 S4 _ rfl
      exact ⟨T1.trans (S1.trans hL2len),
        fun k hk => (T2 k hk).trans ((S2 k hk).trans (hL2a k hk)),
        fun k hk => (T3 k hk).trans ((S3 k hk).trans (hL2b k hk)), T4⟩
    · rw [if_neg hprc]
      obtain ⟨T1, T2, T3, T4⟩ := pdqsortTail2_sorted key fuel ih a b limit1
        wasB wasP (reverseRange l1 a b) ((b - 1) - (piv0 - a)) false
        hab (by rw [hL2len]; exact hb) hf hsent2 hpb1 hpb2
        (fun h => Bool.noConfusion h) _ rfl
      exact ⟨T1.trans hL2len, fun k hk => (T2 k hk).trans (hL2a k hk),
        fun k hk => (T3 k hk).trans (hL2b k hk), T4⟩
  · rw [if_neg hdec, if_neg hdec, if_neg hdec]
    by_cases hprc : wasB = true ∧ wasP = true ∧ hint0 = SortHint.increasing
    · rw [if_pos hprc]
      obtain ⟨S1, S2, S3, S4⟩ := partialInsertionSort_spec key l1 a b
        (by omega) hb (fun ha1 => hsent.resolve_left (by omega))
      obtain ⟨T1, T2, T3, T4⟩ := pdqsortTail2_sorted key fuel ih a b limit1
        wasB wasP (partialInsertionSort (keyLess key) l1 a b).2 piv0
        (partialInsertionSort (keyLess key) l1 a b).1
        hab (by rw [S1]; exact hb) hf
        (sentinel_transfer key (by omega : a ≤ b) S1 S2 S3
          (partialInsertionSort_perm (keyLess key) l1 a b) hsent)
        hcp1 hcp2 S4 _ rfl
      exact ⟨T1.trans S1, fun k hk => (T2 k hk).trans (S2 k hk),
        fun k hk => (T3 k hk).trans (S3 k hk), T4⟩
    · rw [if_neg hprc]
      obtain ⟨T1, T2, T3, T4⟩ := pdqsortTail2_sorted key fuel ih a b limit1
        wasB wasP l1 piv0 false hab hb hf hsent hcp1 hcp2
        (fun h => Bool.noConfusion h) _ rfl
      exact ⟨T1, T2, T3, T4⟩

theorem pdqsortLoop_sorted {α κ : Type} [LinearOrder κ] (key : α → κ) :
    ∀ fuel (l : List α) (a b limit : Nat) (wB wP : Bool),
      a ≤ b → b ≤ l.length → b - a < fuel →
      (a = 0 ∨ ∀ v, l[a-1]? = some v → ∀ w, w ∈ listSeg l a b →
        keyLess key w v = false) →
      (pdqsortLoop (keyLess key) fuel l a b limit wB wP).length
        = l.length ∧
      (∀ k, k < a →
        (pdqsortLoop (keyLess key) fuel l a b limit wB wP)[k]? = l[k]?) ∧
      (∀ k, b ≤ k →
        (pdqsortLoop (keyLess key) fuel l a b limit wB wP)[k]? = l[k]?) ∧
      SortedLt (keyLess key)
        (listSeg (pdqsortLoop (keyLess key) fuel l a b limit wB wP) a b) := by
  intro fuel
  induction fuel with
  | zero =>
    intro l a b limit wB wP hab hb hf hsent
    exact absurd hf (by omega)
  | succ fuel ih =>
    intro l a b limit wB wP hab hb hf hsent
    rw [pdqsortLoop]
    simp only []
    by_cases h12 : b - a ≤ 12
    · rw [if_pos h12]
      rw [insertionSort_seg key l a b hab hb]
      obtain ⟨F1, F2, F3, F4⟩ := seg_replace_facts l
        (insertionSortL (keyLess key) (listSeg l a b)) a b hab hb
        (by rw [(insertionSortL_perm (keyLess key) _).length_eq,
          length_listSeg l a b hb])
      refine ⟨F1, F2, F3, ?_⟩
      rw [F4]
      exact insertionSortL_pairwise key (listSeg l a b)
    · rw [if_neg h12]
      by_cases hlim : limit = 0
      · rw [if_pos hlim]
        obtain ⟨hfr, hsort⟩ := heapSort_seg_spec key l a b hab hb
        exact ⟨hfr.1, pointwise_of_take_eq hfr.2.1,
          pointwise_of_drop_eq hfr.2.2, hsort⟩
      · rw [if_neg hlim]
        by_cases hwb : ¬ wB = true
        · rw [if_pos hwb, if_pos hwb]
          have hBlen : (breakPatterns l a b).length = l.length :=
            (breakPatterns_perm l a b).length_eq
          have hBa : ∀ k, k < a → (breakPatterns l a b)[k]? = l[k]? :=
            fun k hk => breakPatterns_frame l a b k (Or.inl hk)
          have hBb : ∀ k, b ≤ k → (breakPatterns l a b)[k]? = l[k]? :=
            fun k hk => breakPatterns_frame l a b k (Or.inr hk)
          obtain ⟨T1, T2, T3, T4⟩ := pdqsortTail_sorted key fuel ih a b
            (limit - 1) wB wP (breakPatterns l a b) (by omega)
            (by rw [hBlen]; exact hb) (by omega)
            (sentinel_transfer key hab hBlen hBa hBb
              (breakPatterns_perm l a b) hsent) _ rfl
          exact ⟨T1.trans hBlen,
            fun k hk => (T2 k hk).trans (hBa k hk),
            fun k hk => (T3 k hk).trans (hBb k hk), T4⟩
        · rw [if_neg hwb, if_neg hwb]
          exact pdqsortTail_sorted key fuel ih a b limit wB wP l (by omega)
            hb (by omega) hsent _ rfl

theorem sortGo_sorted {α κ : Type} [LinearOrder κ] (key : α → κ)
    (l : List α) : SortedLt (keyLess key) (sortGo (keyLess key) l) := by
  unfold sortGo
  simp only []
  by_cases h1 : l.length ≤ 1
  · rw [if_pos h1]
    cases l with
    | nil => exact List.Pairwise.nil
    | cons x t =>
      cases t with
      | nil => exact List.pairwise_singleton _ x
      | cons y t2 => exact absurd h1 (by simp)
  · rw [if_neg h1]
    obtain ⟨R1, R2, R3, R4⟩ := pdqsortLoop_sorted key (l.length + 1) l 0
      l.length (bitsLen l.length) true true (Nat.zero_le _)
      (Nat.le_refl _) (by omega) (Or.inl rfl)
    set r := pdqsortLoop (keyLess key) (l.length + 1) l 0 l.length
      (bitsLen l.length) true true with hr
    have hseg : listSeg r 0 l.length = r := by
      rw [← R1]
      exact listSeg_all r
    rw [hseg] at R4
    exact R4

/-! ## Claim C7 -/

/-- The rune sequence of `strings.ToLower(s)` for the ASCII strings stored
here: per-rune lower-casing of the string's characters. (Go's `ToLower`
and Lean's `Char.toLower` agree on ASCII; the character list stands for
the string so that every comparison below is computable by the kernel.) -/
def lowerData (st : String) : List Char := st.data.map Char.toLower

/-- Go's `<` on strings: byte-lexicographic comparison, which on the
ASCII rune sequences stored here is lexicographic comparison of the
character lists, a longer string exceeding its proper prefix. -/
def lexLt : List Char → List Char → Bool
  | _, [] => false
  | [], _ :: _ => true
  | c :: cs, d :: ds =>
    if c < d then true else if d < c then false else lexLt cs ds

/-- Case-insensitive first-name comparison of the `users` sort.Interface
(db.go 332-334): `strings.ToLower(u[i].FirstName) <
strings.ToLower(u[j].FirstName)`. -/
def userLess (u v : User) : Bool :=
  lexLt (lowerData u.FirstName) (lowerData v.FirstName)

/-- Users (db.go 341-347): read every user in iteration order and sort
with Go 1.20's `sort.Sort` and the case-insensitive first-name
comparator. -/
def Users (s : Store) : Except DbErr (List User) :=
  .ok (sortGo userLess (s.users.map (·.2)))

theorem lexLt_iff : ∀ cs ds : List Char,
    lexLt cs ds = true ↔ List.Lex (· < ·) cs ds := by
  intro cs
  induction cs with
  | nil =>
    intro ds
    cases ds with
    | nil => simp [lexLt]
    | cons d ds => simp [lexLt, List.Lex.nil]
  | cons c cs ih =>
    intro ds
    cases ds with
    | nil =>
      simp only [lexLt, Bool.false_eq_true, false_iff]
      intro h
      cases h
    | cons d ds =>
      show (if c < d then true
        else if d < c then false else lexLt cs ds) = true ↔ _
      rcases lt_trichotomy c d with hcd | hcd | hcd
      · rw [if_pos hcd]
        simp only [true_iff]
        exact List.Lex.rel hcd
      · subst hcd
        rw [if_neg (lt_irrefl c), if_neg (lt_irrefl c), ih ds]
        constructor
        · exact fun h => List.Lex.cons h
        · intro h
          cases h with
          | cons h => exact h
          | rel h => exact absurd h (lt_irrefl c)
      · rw [if_neg (not_lt_of_gt hcd), if_pos hcd]
        simp only [Bool.false_eq_true, false_iff]
        intro h
        cases h with
        | cons h => exact absurd rfl (ne_of_gt hcd)
        | rel h => exact absurd h (not_lt_of_gt hcd)

theorem userLess_eq_keyLess :
    userLess = keyLess (fun u : User => lowerData u.FirstName) := by
  funext u v
  unfold userLess keyLess
  simp only []
  rcases h : lexLt (lowerData u.FirstName) (lowerData v.FirstName) with _ | _
  · symm
    simp only [decide_eq_false_iff_not]
    intro hlt
    have h2 : lexLt (lowerData u.FirstName) (lowerData v.FirstName) = true :=
      (lexLt_iff _ _).2 hlt
    rw [h] at h2
    exact Bool.false_ne_true h2
  · symm
    simp only [decide_eq_true_eq]
    exact (lexLt_iff _ _).1 h

/-- First of the two users with the tied first name "m" in storage
order. -/
def uM1 : User := { ID := 1, FirstName := "m", LastName := "one" }

/-- Second of the two users with the tied first name "m" in storage
order. -/
def uM2 : User := { ID := 7, FirstName := "m", LastName := "two" }

/-- Thirteen stored users: just past the insertion-sort cutoff of
sort.Sort, with the two tied "m" users at storage positions 1 and 7. -/
def c7TieStore : Store :=
  { users := [(1, uM1), (2, { ID := 2, FirstName := "a" }),
      (3, { ID := 3, FirstName := "b" }), (4, { ID := 4, FirstName := "c" }),
      (5, { ID := 5, FirstName := "d" }), (6, { ID := 6, FirstName := "e" }),
      (7, uM2), (8, { ID := 8, FirstName := "f" }),
      (9, { ID := 9, FirstName := "g" }),
      (10, { ID := 10, FirstName := "x" }),
      (11, { ID := 11, FirstName := "h" }),
      (12, { ID := 12, FirstName := "i" }),
      (13, { ID := 13, FirstName := "j" })] }

/-- The three-user store of the claim's example. -/
def c7ExampleStore : Store :=
  { users := [(1, { ID := 1, FirstName := "bob" }),
      (2, { ID := 2, FirstName := "Alice" }),
      (3, { ID := 3, FirstName := "charlie" })] }

set_option maxHeartbeats 1000000 in
/-- C7 counterexample: `listUsers` does not keep users with equal
case-insensitive first names in storage-iteration order. With the thirteen
users of `c7TieStore`, sort.Sort leaves its stable insertion-sort path and
the quicksort partition moves the pivot across the equal-named pair: the
input holds the two "m" users as uM1 before uM2, the returned list holds
them as uM2 before uM1. -/
theorem Users_stable_tie_counterexample :
    (c7TieStore.users.map (·.2)).filter
      (fun u => decide (lowerData u.FirstName = lowerData "m")) =
      [uM1, uM2] ∧
    Users c7TieStore =
      .ok (sortGo userLess (c7TieStore.users.map (·.2))) ∧
    (sortGo userLess (c7TieStore.users.map (·.2))).filter
      (fun u => decide (lowerData u.FirstName = lowerData "m")) =
      [uM2, uM1] ∧
    lowerData uM1.FirstName = lowerData uM2.FirstName ∧ uM1 ≠ uM2 := by
  refine ⟨by decide, rfl, by decide, by decide, by decide⟩

set_option maxHeartbeats 1600000 in
/-- C7 (amended): `listUsers` returns the stored users sorted ascending by
case-insensitive first name, for every store: the result is a permutation
of the stored users and is sorted under the case-insensitive first-name
comparator. For at most 12 stored users — where sort.Sort runs its stable
insertion-sort path — users with equal case-insensitive first names
additionally keep their storage-iteration order; past 12 users the tie
order is not always preserved (see the counterexample). The example
"bob", "Alice", "charlie" returns Alice, bob, charlie. -/
theorem Users_sorted_amended (s : Store) :
    Users s = .ok (sortGo userLess (s.users.map (·.2))) ∧
    SortedLt userLess (sortGo userLess (s.users.map (·.2))) ∧
    List.Perm (sortGo userLess (s.users.map (·.2))) (s.users.map (·.2)) ∧
    (s.users.length ≤ 12 →
      ∀ k : List Char,
        (sortGo userLess (s.users.map (·.2))).filter
          (fun u => decide (lowerData u.FirstName = k)) =
        (s.users.map (·.2)).filter
          (fun u => decide (lowerData u.FirstName = k))) ∧
    Users c7ExampleStore = .ok [{ ID := 2, FirstName := "Alice" },
      { ID := 1, FirstName := "bob" },
      { ID := 3, FirstName := "charlie" }] := by
  refine ⟨rfl, ?_, sortGo_perm userLess _, ?_, by rfl⟩
  · rw [userLess_eq_keyLess]
    exact sortGo_sorted (fun u : User => lowerData u.FirstName) _
  · intro hlen k
    have hl12 : (s.users.map (·.2)).length ≤ 12 := by
      simpa using hlen
    rw [userLess_eq_keyLess]
    rw [sortGo_eq_insertionSortL (fun u : User => lowerData u.FirstName) _
      hl12]
    exact insertionSortL_filter _
      (fun u : User => decide (lowerData u.FirstName = k))
      (by
        intro x y hx hy
        simp only [decide_eq_true_eq] at hx hy
        rw [hx, hy]) _

set_option maxHeartbeats 1600000 in
/-- Witness for C7 at the concrete three-user store (which has at most 12
users). -/
theorem Users_sorted_amended_witness :
    SortedLt userLess (sortGo userLess (c7ExampleStore.users.map (·.2))) ∧
    (sortGo userLess (c7ExampleStore.users.map (·.2))).filter
        (fun u => decide (lowerData u.FirstName = lowerData "bob")) =
      (c7ExampleStore.users.map (·.2)).filter
        (fun u => decide (lowerData u.FirstName = lowerData "bob")) := by
  have h := Users_sorted_amended c7ExampleStore
  exact ⟨h.2.1, h.2.2.2.1 (by decide) (lowerData "bob")⟩

/-! ## Claim C3 -/

/-- Modelled from the spec: the tag of the synthetic replication point
carrying a node's Type (`data.PointTypeNodeType` is not under `src/`; the
concrete tag string is irrelevant to the claims). -/
def PointTypeNodeType : String := "nodeType"

/-- Modelled from the spec: the tag of the synthetic replication point
carrying the parent identifier (`data.PointTypeParent` is not under
`src/`). -/
def PointTypeParent : String := "parent"

/-- One publication at the destination: `SendPoints(dest, id, points, true)`
with its target node identifier and point batch. -/
structure Publish where
  id : String
  points : List Point
  deriving DecidableEq, Repr

/-- Abstract NATS environment of one replication run: the source's
request/reply endpoints (`GetNode` on subject `node.<id>` and
`GetNodeChildren` on `node.<id>.children`, with `none` modelling a
timeout or decode failure) and whether the destination accepts a given
publication. -/
structure NatsEnv where
  getNode : String → Option Node
  children : String → Option (List Node)
  sendOk : String → List Point → Bool

/-- Errors of `SendNode`, mirroring the `fmt.Errorf` wrapping contexts of
main.go; `fuel` marks exhaustion of the recursion bound of the embedding
(the Go code recurses without a bound). -/
inductive SendErr
  | getNode
  | send
  | children
  | child (e : SendErr)
  | fuel
  deriving DecidableEq, Repr

/-- Outgoing point list of `SendNode` (main.go 237-249): the node's points,
then a synthetic node-type point carrying the node's Type, then — when the
parent argument is non-empty — a synthetic parent point carrying the parent
identifier. -/
def outPoints (node : Node) (parent : String) : List Point :=
  let points := node.Points ++
    [{ type := PointTypeNodeType, text := node.type }]
  if parent ≠ "" then
    points ++ [{ type := PointTypeParent, text := parent }]
  else points

mutual

/-- SendNode (main.go 231-272): fetch the node from the source, publish its
outgoing point list to the destination, then fetch the immediate children
and recurse into each with the parent set to this node's identifier. The
accumulated `Publish` list models the point batches already applied at the
destination; it is never rolled back. -/
def SendNode (env : NatsEnv) (fuel : Nat) (id parent : String)
    (acc : List Publish) : List Publish × Option SendErr :=
  match fuel with
  | 0 => (acc, some .fuel)
  | fuel + 1 =>
    match env.getNode id with
    | none => (acc, some .getNode)
    | some node =>
      let pts := outPoints node parent
      if env.sendOk id pts then
        match env.children id with
        | none => (acc ++ [⟨id, pts⟩], some .children)
        | some cs => SendChildren env fuel cs id (acc ++ [⟨id, pts⟩])
      else (acc, some .send)
termination_by (fuel, 0)

/-- Child loop of `SendNode` (main.go 263-269): process the children in
order, stopping at the first failing child and propagating its error
wrapped in context. -/
def SendChildren (env : NatsEnv) (fuel : Nat) (cs : List Node)
    (pid : String) (acc : List Publish) : List Publish × Option SendErr :=
  match cs with
  | [] => (acc, none)
  | c :: rest =>
    match SendNode env fuel c.ID pid acc with
    | (acc', some e) => (acc', some (.child e))
    | (acc', none) => SendChildren env fuel rest pid acc'
termination_by (fuel, cs.length + 1)

end

/-- Publications already made are retained by every further step: the
accumulator only ever grows. -/
theorem SendNode_mono (env : NatsEnv) (fuel : Nat) :
    (∀ id parent acc, ∃ t, (SendNode env fuel id parent acc).1 = acc ++ t) ∧
    (∀ cs pid acc, ∃ t,
      (SendChildren env fuel cs pid acc).1 = acc ++ t) := by
  induction fuel with
  | zero =>
    constructor
    · intro id parent acc
      exact ⟨[], by simp [SendNode]⟩
    · intro cs pid acc
      induction cs generalizing acc with
      | nil => exact ⟨[], by simp [SendChildren]⟩
      | cons c rest ih =>
        refine ⟨[], ?_⟩
        rw [SendChildren]
        simp [SendNode]
  | succ fuel ih =>
    have hnode : ∀ id parent acc, ∃ t,
        (SendNode env (fuel + 1) id parent acc).1 = acc ++ t := by
      intro id parent acc
      rw [SendNode]
      cases hgn : env.getNode id with
      | none => exact ⟨[], by simp⟩
      | some node =>
        by_cases hsk : env.sendOk id (outPoints node parent)
        · cases hch : env.children id with
          | none => exact ⟨[⟨id, outPoints node parent⟩], by simp [hsk]⟩
          | some cs =>
            obtain ⟨t, ht⟩ := ih.2 cs id (acc ++ [⟨id, outPoints node parent⟩])
            exact ⟨[⟨id, outPoints node parent⟩] ++ t, by simp [hsk, ht]⟩
        · exact ⟨[], by simp [hsk]⟩
    refine ⟨hnode, ?_⟩
    intro cs pid acc
    induction cs generalizing acc with
    | nil => exact ⟨[], by simp [SendChildren]⟩
    | cons c rest ihc =>
      rw [SendChildren]
      obtain ⟨t1, ht1⟩ := hnode c.ID pid acc
      cases hsn : SendNode env (fuel + 1) c.ID pid acc with
      | mk acc' err =>
        cases err with
        | some e => exact ⟨t1, by simp [hsn, ← ht1, hsn]⟩
        | none =>
          obtain ⟨t2, ht2⟩ := ihc acc'
          refine ⟨t1 ++ t2, ?_⟩
          simp only [hsn]
          rw [ht2]
          rw [hsn] at ht1
          simp only at ht1
          simp [ht1]

/-- C3: `SendNode` publishes to the destination exactly the node's points
plus one synthetic node-type point plus — iff the parent argument is
non-empty — one synthetic parent point; it then recurses into the fetched
children with the parent set to this node's identifier, stopping at the
first failing child and propagating its wrapped error, while publications
already made are never rolled back (the accumulator only grows). -/
theorem SendNode_replicates_subtree (env : NatsEnv) (fuel : Nat)
    (id parent : String) (acc : List Publish) (node : Node) (cs : List Node)
    (hn : env.getNode id = some node)
    (hs : env.sendOk id (outPoints node parent) = true)
    (hc : env.children id = some cs) :
    SendNode env (fuel + 1) id parent acc =
      SendChildren env fuel cs id
        (acc ++ [⟨id, outPoints node parent⟩]) ∧
    outPoints node parent =
      node.Points ++ [{ type := PointTypeNodeType, text := node.type }] ++
        (if parent = "" then []
         else [{ type := PointTypeParent, text := parent }]) ∧
    (∀ f (c : Node) rest pid acc₀ acc₁ e,
      SendNode env f c.ID pid acc₀ = (acc₁, some e) →
      SendChildren env f (c :: rest) pid acc₀ =
        (acc₁, some (.child e))) ∧
    (∀ f (c : Node) rest pid acc₀ acc₁,
      SendNode env f c.ID pid acc₀ = (acc₁, none) →
      SendChildren env f (c :: rest) pid acc₀ =
        SendChildren env f rest pid acc₁) ∧
    (∀ f i p acc₀, ∃ t, (SendNode env f i p acc₀).1 = acc₀ ++ t) := by
  refine ⟨?_, ?_, ?_, ?_, ?_⟩
  · rw [SendNode]
    simp [hn, hs, hc]
  · unfold outPoints
    by_cases hp : parent = ""
    · simp [hp]
    · simp [hp]
  · intro f c rest pid acc₀ acc₁ e hstep
    rw [SendChildren, hstep]
  · intro f c rest pid acc₀ acc₁ hstep
    rw [SendChildren, hstep]
  · intro f i p acc₀
    exact (SendNode_mono env f).1 i p acc₀

/-- Source environment of the C3 witness: a root node with one child, both
fetchable, every publication accepted. -/
def c3Env : NatsEnv :=
  { getNode := fun i =>
      if i = "r" then some { ID := "r", type := "device" }
      else if i = "c" then some { ID := "c", type := "sensor" } else none,
    children := fun i =>
      if i = "r" then some [{ ID := "c", type := "sensor" }]
      else if i = "c" then some [] else none,
    sendOk := fun _ _ => true }

/-- Witness for C3 at the concrete two-node source tree. -/
theorem SendNode_replicates_subtree_witness :
    SendNode c3Env 2 "r" "" [] =
      SendChildren c3Env 1 [{ ID := "c", type := "sensor" }] "r"
        [⟨"r", outPoints { ID := "r", type := "device" } ""⟩] ∧
    outPoints { ID := "r", type := "device" } "" =
      ({ ID := "r", type := "device" } : Node).Points ++
        [{ type := PointTypeNodeType, text := "device" }] ++
        (if ("" : String) = "" then []
         else [{ type := PointTypeParent, text := "" }]) := by
  have h := SendNode_replicates_subtree c3Env 1 "r" "" []
    { ID := "r", type := "device" } [{ ID := "c", type := "sensor" }]
    rfl rfl rfl
  exact ⟨h.1, h.2.1⟩

/-! ## Claim C8 -/

/-- Node of the C8 store that shares a group with the non-root user. -/
def c8Node : Node := { ID := "n1", Groups := [5] }

/-- Store of the C8 evaluation: a root group whose only member is user 9,
a group 5 containing user 1, one node in group 5 and one outside it. -/
def c8Store : Store :=
  { nodes := [("n1", c8Node), ("n2", { ID := "n2", Groups := [6] })],
    groups := [(0, { ID := 0, Name := "root",
                     Users := [{ UserID := 9 }] }),
               (5, { ID := 5, Name := "g",
                     Users := [{ UserID := 1 }] })] }

/-- C8 (code bug, db.go 317-320): the non-root branch of `NodesForUser`
binds the error of the device `TxFind` into `err` and then executes
`return nil`, so a storage fault during the node lookup is swallowed and
the call reports success instead of returning the error. On the same store
without a fault the branch returns the intersecting node, so only the error
propagation is broken. -/
theorem NodesForUser_swallows_find_error :
    NodesForUser 1 (some .notFound) c8Store = .ok [] ∧
    NodesForUser 1 none c8Store = .ok [c8Node] := by
  constructor
  · rfl
  · rfl

/-! ## Claim C9 -/

/-- C9: for every group passed to `GroupInsert`, the record stored under the
freshly generated identifier has its `Parent` field equal to the all-zero
sentinel regardless of the Parent the caller supplied, every other field is
stored unchanged, and the fresh identifier is returned. -/
theorem GroupInsert_forces_parent_zero (freshID : UUID) (g : Group) (s : Store)
    (hfresh : alGet freshID s.groups = none) :
    (GroupInsert freshID g s).1 = .ok freshID ∧
    alGet freshID (GroupInsert freshID g s).2.groups =
      some { g with Parent := zero } := by
  unfold GroupInsert txInsert
  rw [hfresh]
  exact ⟨rfl, alGet_alPut_self _ _ _⟩

/-- Witness for C9 at a concrete caller-supplied Parent value. -/
theorem GroupInsert_forces_parent_zero_witness :
    (GroupInsert 7 { ID := 3, Name := "g", Parent := 9 } {}).1 = .ok 7 ∧
    alGet 7 (GroupInsert 7 { ID := 3, Name := "g", Parent := 9 } {}).2.groups =
      some { ID := 3, Name := "g", Parent := zero } :=
  GroupInsert_forces_parent_zero 7 { ID := 3, Name := "g", Parent := 9 } {} rfl

/-! ## Claim C10 -/

/-- C10: `UserInsert` stores the record under the fresh identifier as the
storage key without modifying the record's `ID` field, and returns the fresh
identifier; consequently, whenever the caller did not pre-set the record's
`ID` to that fresh value, the storage key and the stored record's `ID`
field differ. -/
theorem UserInsert_key_record_mismatch (freshID : UUID) (u : User) (s : Store)
    (hfresh : alGet freshID s.users = none) :
    (UserInsert freshID u s).1 = .ok freshID ∧
    alGet freshID (UserInsert freshID u s).2.users = some u ∧
    (u.ID ≠ freshID →
      ∀ r, alGet freshID (UserInsert freshID u s).2.users = some r →
        r.ID ≠ freshID) := by
  unfold UserInsert txInsert
  rw [hfresh]
  refine ⟨rfl, alGet_alPut_self _ _ _, fun hne r hr => ?_⟩
  have : some u = some r := by rw [← alGet_alPut_self freshID u s.users]; exact hr
  cases this
  exact hne

/-- Witness for C10: a concrete user whose `ID` field was not pre-set to the
generated key. -/
theorem UserInsert_key_record_mismatch_witness :
    (UserInsert 5 { ID := 1, FirstName := "bob" } {}).1 = .ok 5 ∧
    alGet 5 (UserInsert 5 { ID := 1, FirstName := "bob" } {}).2.users =
      some { ID := 1, FirstName := "bob" } ∧
    ((1 : UUID) ≠ 5 →
      ∀ r, alGet 5 (UserInsert 5 { ID := 1, FirstName := "bob" } {}).2.users =
        some r → r.ID ≠ 5) :=
  UserInsert_key_record_mismatch 5 { ID := 1, FirstName := "bob" } {} rfl

end SimpleIot
